import Mathlib

/-!
# Word-frequency counting: naive, threaded and multi-process variants

A shallow embedding of `naiveApproach.c`, `multithreadingApproach.c` and
`multiprocessingApproach.c`.

* A token (`char *`, NUL-terminated) is a `List Char`; one `Char` stands for one
  C `char`, and `strcmp(a, b) == 0` is equality of lists.
* A table (`WordFreqArray`) is the list of its first `size` entries together with
  its `capacity`; `size` is the length of that list.
* `int` values that count tokens (`frequency`, `total_words`, chunk bounds) are
  mathematical integers in the loops that count a token sequence, where they stay
  within the 32-bit range for at most 2147483647 tokens; a capacity is doubled with
  32-bit wrap-around.  The merge loops are given a second time with `frequency += c`
  keeping the low 32 bits (`scan_add_int`, `merge_entry_int`, `transfer_entry_int`),
  for statements about arbitrary tables.
* Allocation is taken to succeed.  A read of `words[i]` outside the token
  sequence makes the reading function return `none`.
* `run_threads` and `run_processes` run each worker (thread or child process) from
  start to finish on the shared table, the workers one after another in a given
  order.  The threaded program is also given step by step (`worker_step`,
  `main_step`, `run_schedule`), where `frequency_mutex` makes every schedule equal to
  such a run; so is the multi-process program (`child_step`, `parent_step`,
  `run_parties`), whose transfer loop takes no lock.
-/

namespace WordFreqCount

/-! ## Data model -/

/-- A token: the characters of a C string. -/
abbrev Token := List Char

def MAX_WORD_LENGTH : Nat := 60
def INITIAL_CAPACITY : Nat := 18000000
def TOP_K : Nat := 10
def GROWTH_FACTOR : Nat := 2
def NUM_THREADS : Nat := 8
def NUM_PROCESSES : Nat := 8

/-- Entry `typedef struct { char *word; int frequency; } WordFreq;`. -/
structure WordFreq where
  word : Token
  frequency : Int
deriving DecidableEq, Repr

/-- Table `typedef struct { WordFreq *data; int size; int capacity; } WordFreqArray;`
holding the entries `data[0 .. size)`. -/
structure WordFreqArray where
  data : List WordFreq
  capacity : Int
deriving DecidableEq, Repr

/-- Field `size` of a table. -/
def WordFreqArray.size (arr : WordFreqArray) : Int := arr.data.length

/-- Value of a signed 32-bit `int` after wrap-around. -/
def wrap_int32 (x : Int) : Int := (x + 2147483648) % 4294967296 - 2147483648

/-- Function `create_word_freq_array`: an empty table of `INITIAL_CAPACITY` slots. -/
def create_word_freq_array : WordFreqArray :=
  { data := [], capacity := INITIAL_CAPACITY }

/-- Function `resize_word_freq_array`: `capacity * GROWTH_FACTOR`, entries kept by `realloc`. -/
def resize_word_freq_array (arr : WordFreqArray) : WordFreqArray :=
  { arr with capacity := wrap_int32 (arr.capacity * GROWTH_FACTOR) }

/-- The scan shared by every find-or-append loop:
`for (j = 0; j < size; j++) if (strcmp(data[j].word, w) == 0) { data[j].frequency += c; found = 1; break; }`.
The result is `none` when `found` stays `0`. -/
def scan_add (w : Token) (c : Int) : List WordFreq → Option (List WordFreq)
  | [] => none
  | e :: rest =>
    if e.word = w then some ({ e with frequency := e.frequency + c } :: rest)
    else (scan_add w c rest).map (fun d => e :: d)

/-! ## `naiveApproach.c` -/

/-- One iteration of the outer loop of `count_word_frequencies`: increment on a hit
(`frequency++`), otherwise resize when full and append `(strdup(words[i]), 1)`. -/
def count_word_step (word_freq : WordFreqArray) (w : Token) : WordFreqArray :=
  match scan_add w 1 word_freq.data with
  | some d => { word_freq with data := d }
  | none =>
    let arr := if word_freq.size ≥ word_freq.capacity then resize_word_freq_array word_freq
               else word_freq
    { arr with data := arr.data ++ [{ word := w, frequency := 1 }] }

/-- Function `count_word_frequencies(words, total_words, word_freq)` with
`total_words = words.length`; the result is the table left in `word_freq`. -/
def count_word_frequencies (words : List Token) (word_freq : WordFreqArray) : WordFreqArray :=
  words.foldl count_word_step word_freq

/-! ## Sorting and reporting (identical in the three files) -/

/-- The three `while` loops of `merge` over the two temporary arrays: take from the
left while `left_arr[i].frequency >= right_arr[j].frequency`, else from the right,
then copy what remains.  The first argument bounds the number of loop iterations. -/
def merge_loop : Nat → List WordFreq → List WordFreq → List WordFreq
  | 0, left_arr, right_arr => left_arr ++ right_arr
  | _ + 1, [], right_arr => right_arr
  | _ + 1, left_arr, [] => left_arr
  | fuel + 1, x :: xs, y :: ys =>
    if x.frequency ≥ y.frequency then x :: merge_loop fuel xs (y :: ys)
    else y :: merge_loop fuel (x :: xs) ys

/-- Function `merge(arr, left, mid, right)`: copy `arr[left .. mid]` and
`arr[mid+1 .. right]` out, then write their merge back to `arr[left .. right]`. -/
def merge (arr : List WordFreq) (left mid right : Int) : List WordFreq :=
  let left_size := mid - left + 1
  let right_size := right - mid
  let left_arr := (arr.drop left.toNat).take left_size.toNat
  let right_arr := (arr.drop (mid + 1).toNat).take right_size.toNat
  arr.take left.toNat
    ++ merge_loop (left_size.toNat + right_size.toNat) left_arr right_arr
    ++ arr.drop (right + 1).toNat

/-- Function `merge_sort(arr, left, right)` with an explicit bound on the recursion
depth. -/
def merge_sort_depth : Nat → List WordFreq → Int → Int → List WordFreq
  | 0, arr, _, _ => arr
  | depth + 1, arr, left, right =>
    if left ≥ right then arr
    else
      let mid := left + (right - left) / 2
      let arr1 := merge_sort_depth depth arr left mid
      let arr2 := merge_sort_depth depth arr1 (mid + 1) right
      merge arr2 left mid right

/-- Function `merge_sort(arr, left, right)`; a range of `right - left + 1` entries
is split at most that many times. -/
def merge_sort (arr : List WordFreq) (left right : Int) : List WordFreq :=
  merge_sort_depth (right - left + 1).toNat arr left right

/-- The reporting loop of `main`: `print_limit = (TOP_K < size) ? TOP_K : size`
and the entries `data[0 .. print_limit)`. -/
def top_k (arr : WordFreqArray) : List WordFreq :=
  let print_limit := if (TOP_K : Int) < arr.size then (TOP_K : Int) else arr.size
  arr.data.take print_limit.toNat

/-- Sorting step of `main`: `merge_sort(word_freq->data, 0, word_freq->size - 1)`. -/
def sort_table (arr : WordFreqArray) : WordFreqArray :=
  { arr with data := merge_sort arr.data 0 (arr.size - 1) }

/-! ## Partition of the token sequence (threads and processes) -/

/-- Lower bound `int start = i * chunk_size + (i < remainder ? i : remainder);` with
`chunk_size = total_words / workers` and `remainder = total_words % workers`. -/
def chunk_start (workers total_words i : Nat) : Nat :=
  i * (total_words / workers) + (if i < total_words % workers then i else total_words % workers)

/-- Upper bound `int end = start + chunk_size + (i < remainder ? 1 : 0);`. -/
def chunk_end (workers total_words i : Nat) : Nat :=
  chunk_start workers total_words i + total_words / workers
    + (if i < total_words % workers then 1 else 0)

/-! ## `multithreadingApproach.c` -/

/-- One iteration of the first loop of `process_word_chunk` on the local table:
`frequency++` on a hit, otherwise `capacity *= GROWTH_FACTOR` when full and append
`(strdup(words[i]), 1)`. -/
def local_count_step (local_word_freq : WordFreqArray) (w : Token) : WordFreqArray :=
  match scan_add w 1 local_word_freq.data with
  | some d => { local_word_freq with data := d }
  | none =>
    let arr := if local_word_freq.size ≥ local_word_freq.capacity
               then { local_word_freq with
                      capacity := wrap_int32 (local_word_freq.capacity * GROWTH_FACTOR) }
               else local_word_freq
    { arr with data := arr.data ++ [{ word := w, frequency := 1 }] }

/-- First loop of `process_word_chunk`: `for (i = start; i < end; i++)` reading
`words[i]`; `none` when some `words[i]` lies outside the sequence. -/
def local_count (words : List Token) (start end_ : Nat) : Option WordFreqArray :=
  (List.range' start (end_ - start)).foldlM
    (fun local_word_freq i => (words[i]?).map (local_count_step local_word_freq))
    { data := [], capacity := INITIAL_CAPACITY }

/-- One iteration of the merge loop of `process_word_chunk` (run under
`frequency_mutex`): `frequency += local.frequency` on a hit, otherwise
`resize_word_freq_array` when full and append `(strdup(local.word), local.frequency)`. -/
def merge_entry (shared_word_freq : WordFreqArray) (e : WordFreq) : WordFreqArray :=
  match scan_add e.word e.frequency shared_word_freq.data with
  | some d => { shared_word_freq with data := d }
  | none =>
    let arr := if shared_word_freq.size ≥ shared_word_freq.capacity
               then resize_word_freq_array shared_word_freq
               else shared_word_freq
    { arr with data := arr.data ++ [{ word := e.word, frequency := e.frequency }] }

/-- The merge pass of one worker: the whole locked loop over the local table. -/
def merge_pass (shared_word_freq : WordFreqArray) (local_data : List WordFreq) :
    WordFreqArray :=
  local_data.foldl merge_entry shared_word_freq

/-- Function `process_word_chunk` run from start to finish on the shared table:
local aggregation of `words[start .. end)`, then the merge pass. -/
def process_word_chunk (words : List Token) (start end_ : Nat)
    (shared_word_freq : WordFreqArray) : Option WordFreqArray :=
  (local_count words start end_).map
    (fun local_word_freq => merge_pass shared_word_freq local_word_freq.data)

/-- Worker `i` of `main`: `process_word_chunk` on chunk `i` of the sequence. -/
def thread_worker (words : List Token) (shared_word_freq : WordFreqArray) (i : Nat) :
    Option WordFreqArray :=
  process_word_chunk words (chunk_start NUM_THREADS words.length i)
    (chunk_end NUM_THREADS words.length i) shared_word_freq

/-- The shared table of `main` after the workers listed in `order` have run their
merge passes one after another in that order, starting from the empty table. -/
def run_threads (words : List Token) (order : List Nat) : Option WordFreqArray :=
  order.foldlM (thread_worker words) create_word_freq_array

/-- The ranked list printed by the threaded `main`. -/
def threaded_top_k (words : List Token) (order : List Nat) : Option (List WordFreq) :=
  (run_threads words order).map (fun t => top_k (sort_table t))

/-- The ranked list printed by the naive `main`. -/
def naive_top_k (words : List Token) : List WordFreq :=
  top_k (sort_table (count_word_frequencies words create_word_freq_array))

/-! ## `multiprocessingApproach.c` -/

/-- Shared region `typedef struct { int size; WordFreq data[INITIAL_CAPACITY]; } SharedFreqData;`
holding the entries `data[0 .. size)`; the anonymous mapping starts zeroed, so
`size` starts at `0`. -/
structure SharedFreqData where
  data : List WordFreq
deriving DecidableEq, Repr

/-- Field `size` of the shared region. -/
def SharedFreqData.size (shared_data : SharedFreqData) : Int := shared_data.data.length

/-- Function `init_word_freq_array`. -/
def init_word_freq_array : WordFreqArray :=
  { data := [], capacity := INITIAL_CAPACITY }

/-- Function `add_word_to_freq_array(arr, word)`: `frequency++` and return on a hit,
otherwise double the capacity when full and store the first `MAX_WORD_LENGTH - 1`
characters of `word` (`strncpy` into `char word[MAX_WORD_LENGTH]`) with count `1`. -/
def add_word_to_freq_array (arr : WordFreqArray) (word : Token) : WordFreqArray :=
  match scan_add word 1 arr.data with
  | some d => { arr with data := d }
  | none =>
    let arr1 := if arr.size ≥ arr.capacity
                then { arr with capacity := wrap_int32 (arr.capacity * GROWTH_FACTOR) }
                else arr
    { arr1 with
      data := arr1.data ++ [{ word := word.take (MAX_WORD_LENGTH - 1), frequency := 1 }] }

/-- Child loop `for (j = start; j < end; j++) add_word_to_freq_array(&local_freq, words[j]);`
with `none` when some `words[j]` lies outside the sequence. -/
def child_count (words : List Token) (start end_ : Nat) : Option WordFreqArray :=
  (List.range' start (end_ - start)).foldlM
    (fun local_freq j => (words[j]?).map (add_word_to_freq_array local_freq))
    init_word_freq_array

/-- One iteration of the transfer loop of a child: `frequency += local.frequency` on a
hit, otherwise `strcpy` the entry to `data[size]` if `size < INITIAL_CAPACITY`. -/
def transfer_entry (shared_data : SharedFreqData) (e : WordFreq) : SharedFreqData :=
  match scan_add e.word e.frequency shared_data.data with
  | some d => { data := d }
  | none =>
    if shared_data.size < INITIAL_CAPACITY
    then { data := shared_data.data ++ [{ word := e.word, frequency := e.frequency }] }
    else shared_data

/-- The whole transfer loop of one child over its local table. -/
def transfer_pass (shared_data : SharedFreqData) (local_data : List WordFreq) :
    SharedFreqData :=
  local_data.foldl transfer_entry shared_data

/-- Child `i` of `main` run from start to finish: local aggregation of chunk `i`, then
the transfer into the shared region. -/
def child_process (words : List Token) (shared_data : SharedFreqData) (i : Nat) :
    Option SharedFreqData :=
  (child_count words (chunk_start NUM_PROCESSES words.length i)
      (chunk_end NUM_PROCESSES words.length i)).map
    (fun local_freq => transfer_pass shared_data local_freq.data)

/-- The shared region after the children listed in `order` have run to completion one
after another in that order, starting from the zeroed region. -/
def run_processes (words : List Token) (order : List Nat) : Option SharedFreqData :=
  order.foldlM (child_process words) { data := [] }

/-- Sum of the `frequency` fields of a list of entries. -/
def total_frequency (d : List WordFreq) : Int := (d.map WordFreq.frequency).sum

/-! ## Vocabulary of the statements

What a table says about one token, and the list-level descriptions of the loops that
the lemmas below relate to the functions above. -/

/-- The entries of a table whose word is `T`, in table order. -/
def entries_of (T : Token) (d : List WordFreq) : List WordFreq :=
  d.filter (fun e => decide (e.word = T))

/-- The count that a linear scan of the table finds for `T`: the count of the first
entry whose word is `T`, or `none`. -/
def stored_count (T : Token) (d : List WordFreq) : Option Int :=
  (d.find? (fun e => decide (e.word = T))).map WordFreq.frequency

/-- The words stored in a table, in table order. -/
def words_of (d : List WordFreq) : List Token := d.map WordFreq.word

/-- Find-or-append on the entry list alone: the scan, and an append on a miss. -/
def find_or_append (d : List WordFreq) (w : Token) (c : Int) : List WordFreq :=
  match scan_add w c d with
  | some d1 => d1
  | none => d ++ [{ word := w, frequency := c }]

/-- Effect of adding `c` for token `T` on the list of entries of `T`: the first entry
grows by `c`, or a first entry `(T, c)` appears. -/
def bump (T : Token) (c : Int) : List WordFreq → List WordFreq
  | [] => [{ word := T, frequency := c }]
  | e :: rest => { e with frequency := e.frequency + c } :: rest

/-- Effect of adding the counts `cs` for token `T`, one after another. -/
def bump_all (T : Token) (cs : List Int) (acc : List WordFreq) : List WordFreq :=
  cs.foldl (fun a c => bump T c a) acc

/-- Find-or-append of a list of entries, one after another. -/
def find_or_append_all (d : List WordFreq) (evs : List WordFreq) : List WordFreq :=
  evs.foldl (fun a e => find_or_append a e.word e.frequency) d

/-- The counts that a list of entries reports for token `T`, in order. -/
def counts_of (T : Token) (evs : List WordFreq) : List Int :=
  (entries_of T evs).map WordFreq.frequency

/-- One event `(w, 1)` per token of a sequence. -/
def unit_events (ws : List Token) : List WordFreq :=
  ws.map (fun w => { word := w, frequency := 1 })

/-- Tokens `words[start .. end)` as a list. -/
def slice (words : List Token) (start end_ : Nat) : List Token :=
  (words.drop start).take (end_ - start)

/-- Order of the ranking: `a` may stand before `b` when its count is not smaller. -/
def freq_ge (a b : WordFreq) : Prop := a.frequency ≥ b.frequency

/-- A list of entries with counts in non-increasing order. -/
def Descending (d : List WordFreq) : Prop := d.Pairwise freq_ge

/-- Chunk `i` of the token sequence: `words[start_i .. end_i)`. -/
def chunk (words : List Token) (i : Nat) : List Token :=
  slice words (chunk_start NUM_THREADS words.length i) (chunk_end NUM_THREADS words.length i)

/-- Entries of the local table of worker `i` once its chunk is counted. -/
def local_table (words : List Token) (i : Nat) : List WordFreq :=
  find_or_append_all [] (unit_events (chunk words i))

/-- Find-or-append of several local tables, one table after another. -/
def merge_all (d : List WordFreq) (tables : List (List WordFreq)) : List WordFreq :=
  tables.foldl find_or_append_all d

/-- The part of a word that fits `char word[MAX_WORD_LENGTH]`. -/
def truncate (w : Token) : Token := w.take (MAX_WORD_LENGTH - 1)

/-- Entries of the local table of child `i` once its chunk is counted. -/
def child_table (words : List Token) (i : Nat) : List WordFreq :=
  ((chunk words i).foldl add_word_to_freq_array init_word_freq_array).data

/-- All entries that the children of `order` offer to the shared region, in the order
of the transfer. -/
def offered (words : List Token) (order : List Nat) : List WordFreq :=
  order.flatMap (child_table words)

/-- Token number `n` written as a binary numeral of `width` letters, `a` for 0 and
`b` for 1, lowest digit first. -/
def numeral_token : Nat → Nat → Token
  | 0, _ => []
  | width + 1, n => (if n % 2 = 0 then 'a' else 'b') :: numeral_token width (n / 2)

/-- A sequence of 18000001 pairwise distinct tokens of 25 letters each. -/
def many_distinct_tokens : List Token :=
  (List.range 18000001).map (numeral_token 25)

/-! ## Sorting and reporting in `multiprocessingApproach.c` -/

/-- Function `merge_word_freq(arr, left, mid, right)`: `memcpy` of `arr[left .. mid]`
and `arr[mid+1 .. right]` to temporary arrays, then the same three `while` loops
writing whole entries back to `arr[left .. right]`. -/
def merge_word_freq (arr : List WordFreq) (left mid right : Int) : List WordFreq :=
  let left_size := mid - left + 1
  let right_size := right - mid
  let left_arr := (arr.drop left.toNat).take left_size.toNat
  let right_arr := (arr.drop (mid + 1).toNat).take right_size.toNat
  arr.take left.toNat
    ++ merge_loop (left_size.toNat + right_size.toNat) left_arr right_arr
    ++ arr.drop (right + 1).toNat

/-- Function `merge_sort_word_freq(arr, left, right)` with an explicit bound on the
recursion depth. -/
def merge_sort_word_freq_depth : Nat → List WordFreq → Int → Int → List WordFreq
  | 0, arr, _, _ => arr
  | depth + 1, arr, left, right =>
    if left ≥ right then arr
    else
      let mid := left + (right - left) / 2
      let arr1 := merge_sort_word_freq_depth depth arr left mid
      let arr2 := merge_sort_word_freq_depth depth arr1 (mid + 1) right
      merge_word_freq arr2 left mid right

/-- Function `merge_sort_word_freq(arr, left, right)`. -/
def merge_sort_word_freq (arr : List WordFreq) (left right : Int) : List WordFreq :=
  merge_sort_word_freq_depth (right - left + 1).toNat arr left right

/-- Sorting step of the process `main`:
`merge_sort_word_freq(shared_data->data, 0, shared_data->size - 1)`. -/
def sort_shared (shared_data : SharedFreqData) : SharedFreqData :=
  { data := merge_sort_word_freq shared_data.data 0 (shared_data.size - 1) }

/-- The reporting loop of the process `main`:
`print_limit = (TOP_K < shared_data->size) ? TOP_K : shared_data->size`. -/
def shared_top_k (shared_data : SharedFreqData) : List WordFreq :=
  let print_limit := if (TOP_K : Int) < shared_data.size then (TOP_K : Int)
                     else shared_data.size
  shared_data.data.take print_limit.toNat

/-- The ranked list printed by the process `main`. -/
def process_top_k (words : List Token) (order : List Nat) : Option (List WordFreq) :=
  (run_processes words order).map (fun s => shared_top_k (sort_shared s))

/-! ## Vocabulary of the sorting statements -/

/-- What `merge_sort` does to the range it is given, as a function of the entries of
that range: split after entry `(len - 1) / 2`, sort both halves, merge them. -/
def sort_run : Nat → List WordFreq → List WordFreq
  | 0, X => X
  | depth + 1, X =>
    if X.length ≤ 1 then X
    else
      merge_loop X.length (sort_run depth (X.take ((X.length - 1) / 2 + 1)))
        (sort_run depth (X.drop ((X.length - 1) / 2 + 1)))

/-- The entries of a list whose count is `c`, in list order. -/
def with_count (c : Int) (d : List WordFreq) : List WordFreq :=
  d.filter (fun e => decide (e.frequency = c))

/-- Position of the first occurrence of `w` in a token sequence (the length of the
sequence when `w` does not occur). -/
def first_index (w : Token) : List Token → Nat
  | [] => 0
  | x :: xs => if x = w then 0 else first_index w xs + 1

/-- The order of the naive ranking over the token sequence `ws`: a larger count first,
and for equal counts the word whose first occurrence in `ws` is earlier. -/
def ranked_before (ws : List Token) (a b : WordFreq) : Prop :=
  a.frequency > b.frequency
    ∨ (a.frequency = b.frequency ∧ first_index a.word ws < first_index b.word ws)

/-- The tokens of the sentence `the cat sat on the mat the cat ran`. -/
def example_sentence : List Token :=
  ["the".toList, "cat".toList, "sat".toList, "on".toList, "the".toList, "mat".toList,
    "the".toList, "cat".toList, "ran".toList]

/-- The value `print_limit = (TOP_K < size) ? TOP_K : size` of the reporting loops. -/
def print_limit (size : Int) : Int :=
  if (TOP_K : Int) < size then (TOP_K : Int) else size

/-- A shared region filled to the ceiling: `INITIAL_CAPACITY` entries with pairwise
distinct words, each with count 1. -/
def full_region : SharedFreqData :=
  { data := (List.range 18000000).map
      (fun i => { word := numeral_token 25 i, frequency := 1 }) }

/-- An entry whose word is not stored in `full_region`. -/
def extra_entry : WordFreq := { word := numeral_token 25 18000000, frequency := 1 }

/-- The table with the count at index `k` increased by `c` and nothing else changed. -/
def add_at : List WordFreq → Nat → Int → List WordFreq
  | [], _, _ => []
  | e :: rest, 0, c => { e with frequency := e.frequency + c } :: rest
  | e :: rest, k + 1, c => e :: add_at rest k c

/-- A stored count that lies between 1 and `n` and is its own 32-bit value. -/
def count_in_range (n : Nat) (e : WordFreq) : Prop :=
  1 ≤ e.frequency ∧ e.frequency ≤ (n : Int) ∧ wrap_int32 e.frequency = e.frequency

/-- The entries `arr[l .. r]` (both ends included) as a list. -/
def segment (arr : List WordFreq) (l r : Nat) : List WordFreq :=
  (arr.drop l).take (r + 1 - l)

/-- A value that a signed 32-bit `int` can hold. -/
def fits_int32 (x : Int) : Prop := -2147483648 ≤ x ∧ x ≤ 2147483647

/-- The largest capacity a table reaches without overflow: `INITIAL_CAPACITY` doubled
six times; one more doubling does not fit an `int`. -/
def LARGEST_CAPACITY : Nat := 1152000000

/-- The capacities `INITIAL_CAPACITY * 2^k` that fit an `int`. -/
def doubled_capacity (c : Int) : Prop :=
  c = 18000000 ∨ c = 36000000 ∨ c = 72000000 ∨ c = 144000000 ∨ c = 288000000
    ∨ c = 576000000 ∨ c = 1152000000

/-- A table whose size is within its capacity, the capacity being one of the
capacities reached by doubling. -/
def well_sized (t : WordFreqArray) : Prop :=
  t.size ≤ t.capacity ∧ doubled_capacity t.capacity

/-- The words of a table after find-or-append of the words `new`, one after another:
each word that is not yet listed is added at the end. -/
def append_new (listed : List Token) (new : List Token) : List Token :=
  new.foldl (fun acc w => if w ∈ acc then acc else acc ++ [w]) listed

/-! ## The threads of `multithreadingApproach.c`, interleaved

One step of the program is one loop iteration, or one call of `pthread_create`,
`pthread_mutex_lock`, `pthread_mutex_unlock` or `pthread_join`, of one thread; a run
is a schedule, the list of the threads that take the steps.  `pthread_mutex_lock`
can be taken only while `frequency_mutex` is free and `pthread_join` only once the
joined thread has returned. -/

/-- Where a worker thread stands in `process_word_chunk`. -/
inductive ThreadPhase where
  /-- Call `pthread_create` for this worker has not been made. -/
  | not_started
  /-- First loop, about to test `i < end` with the given `i` and local table. -/
  | counting (i : Nat) (local_word_freq : WordFreqArray)
  /-- Merge loop, holding `frequency_mutex`, about to test `i < local_word_freq.size`. -/
  | merging (i : Nat) (local_word_freq : WordFreqArray)
  /-- After `pthread_mutex_unlock`: the thread function has returned. -/
  | finished
deriving DecidableEq, Repr

/-- Where `main` stands between thread creation and the report. -/
inductive MainPhase where
  /-- Creation loop, about to test `i < NUM_THREADS`. -/
  | creating (i : Nat)
  /-- Join loop, about to test `i < NUM_THREADS`. -/
  | joining (i : Nat)
  /-- After `merge_sort` and the reporting loop, with the list that was printed. -/
  | reported (ranked : List WordFreq)
deriving DecidableEq, Repr

/-- State of the threaded program: the shared table `word_freq`, the owner of
`frequency_mutex` if it is locked, the workers and `main`. -/
structure ProgramState where
  shared_word_freq : WordFreqArray
  frequency_mutex : Option Nat
  threads : Nat → ThreadPhase
  main_phase : MainPhase

/-- A thread of the program: `main` or worker `i`. -/
inductive Actor where
  | main_thread
  | worker (i : Nat)
deriving DecidableEq, Repr

/-- The state with worker `i` moved to phase `p`. -/
def set_thread (s : ProgramState) (i : Nat) (p : ThreadPhase) : ProgramState :=
  { s with threads := fun j => if j = i then p else s.threads j }

/-- One step of worker `i` in `process_word_chunk`; `none` when the worker cannot
take a step (not created, returned, or waiting for `frequency_mutex`) or reads
outside `words`. -/
def worker_step (words : List Token) (s : ProgramState) (i : Nat) : Option ProgramState :=
  match s.threads i with
  | ThreadPhase.not_started => none
  | ThreadPhase.finished => none
  | ThreadPhase.counting pos local_word_freq =>
    if pos < chunk_end NUM_THREADS words.length i then
      (words[pos]?).map
        (fun w => set_thread s i
          (ThreadPhase.counting (pos + 1) (local_count_step local_word_freq w)))
    else if s.frequency_mutex = none then
      some (set_thread { s with frequency_mutex := some i } i
        (ThreadPhase.merging 0 local_word_freq))
    else none
  | ThreadPhase.merging j local_word_freq =>
    match local_word_freq.data[j]? with
    | some e =>
      some (set_thread { s with shared_word_freq := merge_entry s.shared_word_freq e } i
        (ThreadPhase.merging (j + 1) local_word_freq))
    | none => some (set_thread { s with frequency_mutex := none } i ThreadPhase.finished)

/-- One step of `main`: create the next worker, join the next worker (possible only
once it has returned), or sort and report. -/
def main_step (words : List Token) (s : ProgramState) : Option ProgramState :=
  match s.main_phase with
  | MainPhase.creating i =>
    if i < NUM_THREADS then
      some (set_thread { s with main_phase := MainPhase.creating (i + 1) } i
        (ThreadPhase.counting (chunk_start NUM_THREADS words.length i)
          { data := [], capacity := INITIAL_CAPACITY }))
    else some { s with main_phase := MainPhase.joining 0 }
  | MainPhase.joining i =>
    if i < NUM_THREADS then
      (if s.threads i = ThreadPhase.finished
        then some { s with main_phase := MainPhase.joining (i + 1) } else none)
    else
      some { s with
        shared_word_freq := sort_table s.shared_word_freq
        main_phase := MainPhase.reported (top_k (sort_table s.shared_word_freq)) }
  | MainPhase.reported _ => none

/-- One step of the program by the given thread. -/
def program_step (words : List Token) (s : ProgramState) : Actor → Option ProgramState
  | Actor.main_thread => main_step words s
  | Actor.worker i => worker_step words s i

/-- The state in which `main` enters the creation loop. -/
def start_state : ProgramState :=
  { shared_word_freq := create_word_freq_array
    frequency_mutex := none
    threads := fun _ => ThreadPhase.not_started
    main_phase := MainPhase.creating 0 }

/-- The state reached by a schedule, if every thread named in it can take its step. -/
def run_schedule (words : List Token) (schedule : List Actor) : Option ProgramState :=
  schedule.foldlM (program_step words) start_state

/-- The shared table after the merge passes of the workers in `order`, one after
another. -/
def merged_in_order (words : List Token) (order : List Nat) : WordFreqArray :=
  merge_pass create_word_freq_array (order.flatMap (local_table words))

/-- A schedule of the program on three tokens in which the workers take
`frequency_mutex` in the order 0, 1, 3, 2, 7, 4, 6, 5. -/
def example_schedule : List Actor :=
  [Actor.main_thread, Actor.main_thread, Actor.worker 0, Actor.main_thread, Actor.worker 1,
   Actor.worker 0, Actor.worker 2, Actor.worker 0, Actor.main_thread, Actor.worker 0,
   Actor.worker 1, Actor.main_thread, Actor.main_thread, Actor.main_thread, Actor.main_thread,
   Actor.worker 1, Actor.main_thread, Actor.main_thread, Actor.worker 1, Actor.worker 3,
   Actor.main_thread, Actor.worker 3, Actor.worker 2, Actor.worker 2, Actor.worker 2,
   Actor.main_thread, Actor.main_thread, Actor.worker 7, Actor.worker 7, Actor.worker 4,
   Actor.worker 4, Actor.worker 6, Actor.worker 6, Actor.worker 5, Actor.worker 5,
   Actor.main_thread, Actor.main_thread, Actor.main_thread, Actor.main_thread,
   Actor.main_thread]

/-- What the phase of worker `i` says about its local table, the shared table and
`frequency_mutex`, given the order in which workers have taken the mutex so far. -/
def phase_inv (words : List Token) (shared : WordFreqArray) (mutex : Option Nat)
    (order : List Nat) (i : Nat) : ThreadPhase → Prop
  | ThreadPhase.not_started => i ∉ order
  | ThreadPhase.counting pos loc =>
    i ∉ order ∧ i < NUM_THREADS ∧ chunk_start NUM_THREADS words.length i ≤ pos
      ∧ pos ≤ chunk_end NUM_THREADS words.length i
      ∧ loc.data = find_or_append_all []
          (unit_events (slice words (chunk_start NUM_THREADS words.length i) pos))
  | ThreadPhase.merging j loc =>
    i < NUM_THREADS ∧ loc.data = local_table words i ∧ mutex = some i
      ∧ ∃ prev, order = prev ++ [i]
        ∧ shared = merge_pass (merged_in_order words prev) (loc.data.take j)
  | ThreadPhase.finished => i ∈ order

/-- What the phase of `main` says about the workers and the report. -/
def main_inv (words : List Token) (threads : Nat → ThreadPhase) (order : List Nat) :
    MainPhase → Prop
  | MainPhase.creating k => ∀ i, k ≤ i → threads i = ThreadPhase.not_started
  | MainPhase.joining k => ∀ i, i < k → i < NUM_THREADS → threads i = ThreadPhase.finished
  | MainPhase.reported r =>
    (∀ i, i < NUM_THREADS → threads i = ThreadPhase.finished)
      ∧ r = top_k (sort_table (merged_in_order words order))

/-- The shared table while `frequency_mutex` is free: the merged table, sorted once
`main` has reported. -/
def free_table (words : List Token) (order : List Nat) : MainPhase → WordFreqArray
  | MainPhase.reported _ => sort_table (merged_in_order words order)
  | _ => merged_in_order words order

/-- The invariant of the threaded program: some order of the workers that have taken
`frequency_mutex` explains every phase and the shared table. -/
def state_inv (words : List Token) (s : ProgramState) : Prop :=
  ∃ order : List Nat, order.Nodup ∧ (∀ i ∈ order, i < NUM_THREADS)
    ∧ (∀ i, phase_inv words s.shared_word_freq s.frequency_mutex order i (s.threads i))
    ∧ (∀ i, NUM_THREADS ≤ i → s.threads i = ThreadPhase.not_started)
    ∧ (∀ i, s.frequency_mutex = some i → ∃ j loc, s.threads i = ThreadPhase.merging j loc)
    ∧ (s.frequency_mutex = none → s.shared_word_freq = free_table words order s.main_phase)
    ∧ main_inv words s.threads order s.main_phase

/-- State `s1` is reached from state `s` by some schedule. -/
def reaches (words : List Token) (s s1 : ProgramState) : Prop :=
  ∃ schedule : List Actor, schedule.foldlM (program_step words) s = some s1

/-! ## Counts held in the 32-bit field `int frequency`

The loops above add counts exactly.  The definitions below are the same merge loops
with `frequency += c` keeping the low 32 bits of the sum, for statements about tables
that need not come from counting a token sequence. -/

/-- The scan of the merge loops with the count held in `int frequency`:
`for (j = 0; j < size; j++) if (strcmp(data[j].word, w) == 0) { data[j].frequency += c; found = 1; break; }`
where the sum keeps its low 32 bits.  The result is `none` when `found` stays `0`. -/
def scan_add_int (w : Token) (c : Int) : List WordFreq → Option (List WordFreq)
  | [] => none
  | e :: rest =>
    if e.word = w then some ({ e with frequency := wrap_int32 (e.frequency + c) } :: rest)
    else (scan_add_int w c rest).map (fun d => e :: d)

/-- One iteration of the merge loop of `process_word_chunk` with `int` counts:
`frequency += local.frequency` on a hit, otherwise `resize_word_freq_array` when
full and append `(strdup(local.word), local.frequency)`. -/
def merge_entry_int (shared_word_freq : WordFreqArray) (e : WordFreq) : WordFreqArray :=
  match scan_add_int e.word e.frequency shared_word_freq.data with
  | some d => { shared_word_freq with data := d }
  | none =>
    let arr := if shared_word_freq.size ≥ shared_word_freq.capacity
               then resize_word_freq_array shared_word_freq
               else shared_word_freq
    { arr with data := arr.data ++ [{ word := e.word, frequency := e.frequency }] }

/-- The merge pass of one worker with `int` counts. -/
def merge_pass_int (shared_word_freq : WordFreqArray) (local_data : List WordFreq) :
    WordFreqArray :=
  local_data.foldl merge_entry_int shared_word_freq

/-- One iteration of the transfer loop of a child with `int` counts:
`frequency += local.frequency` on a hit, otherwise `strcpy` the entry to `data[size]`
if `size < INITIAL_CAPACITY`. -/
def transfer_entry_int (shared_data : SharedFreqData) (e : WordFreq) : SharedFreqData :=
  match scan_add_int e.word e.frequency shared_data.data with
  | some d => { data := d }
  | none =>
    if shared_data.size < INITIAL_CAPACITY
    then { data := shared_data.data ++ [{ word := e.word, frequency := e.frequency }] }
    else shared_data

/-- The table with the count at index `k` replaced by the `int` sum of that count
and `c`, and nothing else changed. -/
def add_at_int : List WordFreq → Nat → Int → List WordFreq
  | [], _, _ => []
  | e :: rest, 0, c => { e with frequency := wrap_int32 (e.frequency + c) } :: rest
  | e :: rest, k + 1, c => e :: add_at_int rest k c

/-- Every running sum of the counts that the local tables store for one token, taken
table by table, fits an `int`. -/
def partial_sums_fit (tables : List (List WordFreq)) : Prop :=
  ∀ k, k ≤ tables.length → ∀ T ∈ tables.flatMap words_of,
    fits_int32 (((tables.take k).map (fun L => (stored_count T L).getD 0)).sum)

/-! ## The processes of `multiprocessingApproach.c`, interleaved

`main` forks the 8 children before it waits for any of them, and the transfer loop
of a child takes no lock.  One step of a child is one iteration of its counting
loop, or the scan of one iteration of its transfer loop up to and including the test
`!found && shared_data->size < INITIAL_CAPACITY`, or the body of that `if`; a run is
a schedule, the list of the processes that take the steps.  The region is kept as
the entries `data[0 .. size)`, also once `size` has passed the bound of the array. -/

/-- Where a child process stands in the child branch of `main`. -/
inductive ChildPhase where
  /-- Call `fork` for this child has not been made. -/
  | not_forked
  /-- Counting loop, about to test `j < end` with the given `j` and local table. -/
  | counting (j : Nat) (local_freq : WordFreqArray)
  /-- Transfer loop, about to test `j < local_freq.size`. -/
  | transferring (j : Nat) (local_freq : WordFreqArray)
  /-- Transfer loop, entry `j`: the test `!found && shared_data->size < INITIAL_CAPACITY`
  has succeeded and the body of the `if` has not run yet. -/
  | appending (j : Nat) (local_freq : WordFreqArray)
  /-- After `exit(0)`. -/
  | exited
deriving DecidableEq, Repr

/-- Where the parent stands between the fork loop and the report. -/
inductive ParentPhase where
  /-- Fork loop, about to test `i < NUM_PROCESSES`. -/
  | forking (i : Nat)
  /-- Wait loop, about to test `i < NUM_PROCESSES`. -/
  | waiting (i : Nat)
  /-- After `merge_sort_word_freq` and the reporting loop, with the list printed. -/
  | reported (ranked : List WordFreq)
deriving DecidableEq, Repr

/-- State of the multi-process program: the shared region, the children, the parent. -/
structure ForkState where
  shared_data : SharedFreqData
  children : Nat → ChildPhase
  parent : ParentPhase

/-- A process of the program: the parent or child `i`. -/
inductive Party where
  | parent_process
  | child (i : Nat)
deriving DecidableEq, Repr

/-- The state with child `i` moved to phase `p`. -/
def set_child (s : ForkState) (i : Nat) (p : ChildPhase) : ForkState :=
  { s with children := fun j => if j = i then p else s.children j }

/-- One step of child `i`; `none` when the child cannot take a step (not forked,
exited) or reads outside `words`. -/
def child_step (words : List Token) (s : ForkState) (i : Nat) : Option ForkState :=
  match s.children i with
  | ChildPhase.not_forked => none
  | ChildPhase.exited => none
  | ChildPhase.counting j local_freq =>
    if j < chunk_end NUM_PROCESSES words.length i then
      (words[j]?).map
        (fun w => set_child s i
          (ChildPhase.counting (j + 1) (add_word_to_freq_array local_freq w)))
    else some (set_child s i (ChildPhase.transferring 0 local_freq))
  | ChildPhase.transferring j local_freq =>
    match local_freq.data[j]? with
    | none => some (set_child s i ChildPhase.exited)
    | some e =>
      match scan_add_int e.word e.frequency s.shared_data.data with
      | some d =>
        some (set_child { s with shared_data := { data := d } } i
          (ChildPhase.transferring (j + 1) local_freq))
      | none =>
        if s.shared_data.size < INITIAL_CAPACITY
        then some (set_child s i (ChildPhase.appending j local_freq))
        else some (set_child s i (ChildPhase.transferring (j + 1) local_freq))
  | ChildPhase.appending j local_freq =>
    (local_freq.data[j]?).map
      (fun e => set_child
        { s with shared_data :=
            { data := s.shared_data.data ++ [{ word := e.word, frequency := e.frequency }] } }
        i (ChildPhase.transferring (j + 1) local_freq))

/-- One step of the parent: fork the next child, wait for the next child (possible
only once it has exited), or sort and report. -/
def parent_step (words : List Token) (s : ForkState) : Option ForkState :=
  match s.parent with
  | ParentPhase.forking i =>
    if i < NUM_PROCESSES then
      some (set_child { s with parent := ParentPhase.forking (i + 1) } i
        (ChildPhase.counting (chunk_start NUM_PROCESSES words.length i)
          init_word_freq_array))
    else some { s with parent := ParentPhase.waiting 0 }
  | ParentPhase.waiting i =>
    if i < NUM_PROCESSES then
      (if s.children i = ChildPhase.exited
        then some { s with parent := ParentPhase.waiting (i + 1) } else none)
    else
      some { s with
        shared_data := sort_shared s.shared_data
        parent := ParentPhase.reported (shared_top_k (sort_shared s.shared_data)) }
  | ParentPhase.reported _ => none

/-- One step of the multi-process program by the given process. -/
def party_step (words : List Token) (s : ForkState) : Party → Option ForkState
  | Party.parent_process => parent_step words s
  | Party.child i => child_step words s i

/-- The state in which the parent enters the fork loop: the anonymous mapping is
zeroed, so the region is empty. -/
def fork_start : ForkState :=
  { shared_data := { data := [] }
    children := fun _ => ChildPhase.not_forked
    parent := ParentPhase.forking 0 }

/-- The state reached by a schedule of the multi-process program, if every process
named in it can take its step. -/
def run_parties (words : List Token) (schedule : List Party) : Option ForkState :=
  schedule.foldlM (party_step words) fork_start

/-- State `s1` of the multi-process program is reached from state `s` by some
schedule. -/
def forks_to (words : List Token) (s s1 : ForkState) : Prop :=
  ∃ schedule : List Party, schedule.foldlM (party_step words) s = some s1

/-- A schedule of the multi-process program on the two tokens `a a`: both children
scan the region for `a` while it is empty, then both append. -/
def example_race_schedule : List Party :=
  [Party.parent_process, Party.parent_process,
   Party.child 0, Party.child 0, Party.child 0,
   Party.child 1, Party.child 1, Party.child 1,
   Party.child 0, Party.child 1]

/-! ## Find-or-append, seen from one token -/

theorem scan_add_eq_none {w : Token} {c : Int} {d : List WordFreq} :
    scan_add w c d = none ↔ w ∉ words_of d := by
  induction d with
  | nil => simp [scan_add, words_of]
  | cons e rest ih =>
    by_cases h : e.word = w
    · simp [scan_add, words_of, h]
    · have h2 : ¬ w = e.word := fun h3 => h h3.symm
      simp only [words_of] at ih
      simp [scan_add, words_of, h, h2, ih]

theorem entries_of_scan_add {T w : Token} {c : Int} {d d1 : List WordFreq}
    (h : scan_add w c d = some d1) :
    entries_of T d1 = if w = T then bump T c (entries_of T d) else entries_of T d := by
  induction d generalizing d1 with
  | nil => simp [scan_add] at h
  | cons e rest ih =>
    by_cases he : e.word = w
    · simp only [scan_add, he, if_true, Option.some.injEq] at h
      subst h
      by_cases hT : w = T
      · simp [entries_of, List.filter_cons, he, hT, bump]
      · simp [entries_of, List.filter_cons, he, hT]
    · simp only [scan_add, he, if_false, Option.map_eq_some'] at h
      obtain ⟨d2, h2, rfl⟩ := h
      have ih2 := ih h2
      by_cases hT : w = T
      · have heT : ¬ e.word = T := fun h3 => he (h3.trans hT.symm)
        simp only [hT, if_true] at ih2 ⊢
        simp only [entries_of] at ih2
        simp [entries_of, List.filter_cons, heT, ih2]
      · simp only [hT, if_false] at ih2 ⊢
        simp only [entries_of] at ih2
        simp [entries_of, List.filter_cons, ih2]

theorem entries_of_eq_nil {T : Token} {d : List WordFreq} :
    entries_of T d = [] ↔ T ∉ words_of d := by
  simp only [entries_of, words_of, List.filter_eq_nil_iff, List.mem_map, not_exists, not_and]
  constructor
  · intro h e he heq
    exact absurd (h e he) (by simp [heq])
  · intro h e he
    simpa using h e he

theorem entries_of_find_or_append (T w : Token) (c : Int) (d : List WordFreq) :
    entries_of T (find_or_append d w c)
      = if w = T then bump T c (entries_of T d) else entries_of T d := by
  unfold find_or_append
  cases hs : scan_add w c d with
  | some d1 => exact entries_of_scan_add hs
  | none =>
    have hnot := scan_add_eq_none.mp hs
    by_cases hT : w = T
    · subst hT
      have hnil : entries_of w d = [] := entries_of_eq_nil.mpr hnot
      simp only [if_true, hnil, bump]
      simp only [entries_of] at hnil
      simp [entries_of, List.filter_append, hnil]
    · simp [entries_of, List.filter_append, hT]

theorem entries_of_find_or_append_all (T : Token) (evs d : List WordFreq) :
    entries_of T (find_or_append_all d evs)
      = bump_all T (counts_of T evs) (entries_of T d) := by
  induction evs generalizing d with
  | nil => simp [find_or_append_all, bump_all, counts_of, entries_of]
  | cons e rest ih =>
    have h1 : find_or_append_all d (e :: rest)
        = find_or_append_all (find_or_append d e.word e.frequency) rest := by
      simp [find_or_append_all]
    rw [h1, ih, entries_of_find_or_append]
    by_cases hT : e.word = T
    · simp [counts_of, entries_of, List.filter_cons, hT, bump_all]
    · simp [counts_of, entries_of, List.filter_cons, hT]

theorem bump_all_cons (T : Token) (cs : List Int) (e : WordFreq) (rest : List WordFreq) :
    bump_all T cs (e :: rest) = { e with frequency := e.frequency + cs.sum } :: rest := by
  induction cs generalizing e with
  | nil => simp [bump_all]
  | cons c cs ih =>
    have h1 : bump_all T (c :: cs) (e :: rest)
        = bump_all T cs ({ e with frequency := e.frequency + c } :: rest) := by
      simp [bump_all, bump]
    rw [h1, ih]
    simp [add_assoc]

theorem bump_all_nil (T : Token) (cs : List Int) :
    bump_all T cs [] = if cs = [] then [] else [{ word := T, frequency := cs.sum }] := by
  cases cs with
  | nil => simp [bump_all]
  | cons c cs =>
    have h1 : bump_all T (c :: cs) [] = bump_all T cs [{ word := T, frequency := c }] := by
      simp [bump_all, bump]
    rw [h1, bump_all_cons]
    simp

theorem bump_all_append (T : Token) (cs ds : List Int) (acc : List WordFreq) :
    bump_all T (cs ++ ds) acc = bump_all T ds (bump_all T cs acc) := by
  simp [bump_all, List.foldl_append]

theorem counts_of_unit_events (T : Token) (ws : List Token) :
    counts_of T (unit_events ws) = List.replicate (ws.count T) 1 := by
  induction ws with
  | nil => simp [counts_of, unit_events, entries_of]
  | cons w ws ih =>
    simp only [counts_of, unit_events, entries_of] at ih
    by_cases hT : w = T
    · subst hT
      simp [counts_of, unit_events, entries_of, List.filter_cons, ih, List.replicate_succ]
    · have h2 : (w == T) = false := by simpa using hT
      simp [counts_of, unit_events, entries_of, List.filter_cons, hT, ih, List.count_cons, h2]

theorem count_word_step_data (arr : WordFreqArray) (w : Token) :
    (count_word_step arr w).data = find_or_append arr.data w 1 := by
  unfold count_word_step find_or_append
  cases scan_add w 1 arr.data with
  | some d => rfl
  | none =>
    by_cases h : arr.size ≥ arr.capacity <;> simp [h, resize_word_freq_array]

theorem count_word_frequencies_data (ws : List Token) (arr : WordFreqArray) :
    (count_word_frequencies ws arr).data = find_or_append_all arr.data (unit_events ws) := by
  induction ws generalizing arr with
  | nil => simp [count_word_frequencies, find_or_append_all, unit_events]
  | cons w ws ih =>
    have h1 : count_word_frequencies (w :: ws) arr
        = count_word_frequencies ws (count_word_step arr w) := by
      simp [count_word_frequencies]
    rw [h1, ih, count_word_step_data]
    simp [find_or_append_all, unit_events]

/-- The entries of token `T` after counting a sequence into the empty table. -/
theorem entries_of_counted (T : Token) (ws : List Token) :
    entries_of T (find_or_append_all [] (unit_events ws))
      = if T ∈ ws then [{ word := T, frequency := (ws.count T : Int) }] else [] := by
  rw [entries_of_find_or_append_all, counts_of_unit_events]
  have h0 : entries_of T [] = [] := rfl
  rw [h0, bump_all_nil]
  by_cases hT : T ∈ ws
  · have hpos : 0 < ws.count T := List.count_pos_iff.mpr hT
    have hne : ¬ List.replicate (ws.count T) (1 : Int) = [] := by
      simp [List.replicate_eq_nil_iff]; omega
    simp [hT, hne]
  · have hz : ws.count T = 0 := List.count_eq_zero_of_not_mem hT
    simp [hT, hz]

theorem stored_count_eq (T : Token) (d : List WordFreq) :
    stored_count T d = (entries_of T d).head?.map WordFreq.frequency := by
  simp [stored_count, entries_of]

theorem mem_words_of_iff (T : Token) (d : List WordFreq) :
    T ∈ words_of d ↔ entries_of T d ≠ [] := by
  rw [Ne, entries_of_eq_nil, not_not]

/-! ## The naive table -/

/-- C1: counting a token sequence into an empty table (of any capacity) leaves, for
every token `T`, exactly one entry `(T, number of occurrences of T)` when `T`
occurs, which is the count a scan of the table finds, and no entry for `T` exactly
when `T` does not occur. -/
theorem naive_table_counts (ws : List Token) (T : Token) (capacity : Int) :
    entries_of T (count_word_frequencies ws { data := [], capacity := capacity }).data
        = (if T ∈ ws then [{ word := T, frequency := (ws.count T : Int) }] else [])
      ∧ stored_count T (count_word_frequencies ws { data := [], capacity := capacity }).data
        = (if T ∈ ws then some (ws.count T : Int) else none)
      ∧ (T ∉ words_of (count_word_frequencies ws { data := [], capacity := capacity }).data
          ↔ T ∉ ws) := by
  have h := entries_of_counted T ws
  rw [count_word_frequencies_data]
  refine ⟨h, ?_, ?_⟩
  · rw [stored_count_eq, h]
    by_cases hT : T ∈ ws <;> simp [hT]
  · rw [mem_words_of_iff, h]
    by_cases hT : T ∈ ws <;> simp [hT]


/-! ## The partition into chunks -/

theorem chunk_start_zero (w n : Nat) : chunk_start w n 0 = 0 := by
  unfold chunk_start
  split <;> simp_all

theorem chunk_end_eq_next (w n i : Nat) : chunk_end w n i = chunk_start w n (i + 1) := by
  unfold chunk_end chunk_start
  rw [Nat.succ_mul]
  split <;> split <;> omega

theorem chunk_start_le_end (w n i : Nat) : chunk_start w n i ≤ chunk_end w n i := by
  unfold chunk_end
  exact le_trans (Nat.le_add_right _ _) (Nat.le_add_right _ _)

theorem chunk_end_last (n : Nat) : chunk_end 8 n 7 = n := by
  unfold chunk_end chunk_start
  split <;> omega

theorem chunk_start_mono (w n : Nat) {i j : Nat} (h : i ≤ j) :
    chunk_start w n i ≤ chunk_start w n j := by
  induction j with
  | zero =>
    have : i = 0 := by omega
    subst this
    exact le_refl _
  | succ j ih =>
    by_cases hij : i ≤ j
    · have h1 := ih hij
      have h2 := chunk_start_le_end w n j
      rw [chunk_end_eq_next] at h2
      omega
    · have : i = j + 1 := by omega
      subst this
      exact le_refl _

theorem chunk_end_le_total (n i : Nat) (hi : i < 8) : chunk_end 8 n i ≤ n := by
  have h1 : chunk_end 8 n i = chunk_start 8 n (i + 1) := chunk_end_eq_next 8 n i
  have h2 : chunk_start 8 n (i + 1) ≤ chunk_start 8 n 8 := chunk_start_mono 8 n (by omega)
  have h3 : chunk_start 8 n 8 = chunk_end 8 n 7 := (chunk_end_eq_next 8 n 7).symm
  have h4 := chunk_end_last n
  omega

theorem chunk_index_exists (n j : Nat) (hj : j < n) :
    ∃ i, i < 8 ∧ chunk_start 8 n i ≤ j ∧ j < chunk_end 8 n i := by
  have key : ∀ k, k ≤ 8 → j < chunk_start 8 n k →
      ∃ i, i < k ∧ chunk_start 8 n i ≤ j ∧ j < chunk_end 8 n i := by
    intro k
    induction k with
    | zero =>
      intro _ h
      rw [chunk_start_zero] at h
      omega
    | succ k ih =>
      intro hk h
      by_cases hlt : j < chunk_start 8 n k
      · obtain ⟨i, hi, h1, h2⟩ := ih (by omega) hlt
        exact ⟨i, by omega, h1, h2⟩
      · refine ⟨k, by omega, by omega, ?_⟩
        rw [chunk_end_eq_next]
        exact h
  have h8 : chunk_start 8 n 8 = n := by
    rw [← chunk_end_eq_next]
    exact chunk_end_last n
  obtain ⟨i, hi, h1, h2⟩ := key 8 (le_refl _) (by omega)
  exact ⟨i, hi, h1, h2⟩

theorem chunk_index_unique (w n j i1 i2 : Nat)
    (h1 : chunk_start w n i1 ≤ j ∧ j < chunk_end w n i1)
    (h2 : chunk_start w n i2 ≤ j ∧ j < chunk_end w n i2) : i1 = i2 := by
  by_contra hne
  rcases Nat.lt_or_gt_of_ne hne with hlt | hgt
  · have hm : chunk_start w n (i1 + 1) ≤ chunk_start w n i2 := chunk_start_mono w n hlt
    have he := chunk_end_eq_next w n i1
    omega
  · have hm : chunk_start w n (i2 + 1) ≤ chunk_start w n i1 := chunk_start_mono w n hgt
    have he := chunk_end_eq_next w n i2
    omega

/-- C8: for every token count `n` the 8 chunks tile `[0, n)`: the first starts at
`0`, each chunk ends where the next starts, the last ends at `n`, and every index
below `n` lies in exactly one chunk; threads and processes use the same bounds,
`start_i = i * (n / 8) + min i (n % 8)` and
`end_i = start_i + n / 8 + (1 if i < n % 8 else 0)`. -/
theorem chunks_tile (n : Nat) :
    chunk_start NUM_THREADS n 0 = 0
      ∧ (∀ i, i < NUM_THREADS - 1 →
          chunk_end NUM_THREADS n i = chunk_start NUM_THREADS n (i + 1))
      ∧ chunk_end NUM_THREADS n (NUM_THREADS - 1) = n
      ∧ (∀ j, j < n →
          ∃! i, i < NUM_THREADS ∧ chunk_start NUM_THREADS n i ≤ j ∧ j < chunk_end NUM_THREADS n i)
      ∧ (∀ i, chunk_start NUM_PROCESSES n i = chunk_start NUM_THREADS n i
          ∧ chunk_end NUM_PROCESSES n i = chunk_end NUM_THREADS n i)
      ∧ (∀ i, chunk_start NUM_THREADS n i = i * (n / 8) + min i (n % 8)
          ∧ chunk_end NUM_THREADS n i
            = chunk_start NUM_THREADS n i + n / 8 + (if i < n % 8 then 1 else 0)) := by
  refine ⟨chunk_start_zero _ _, fun i _ => chunk_end_eq_next _ _ _, chunk_end_last n, ?_,
    fun i => ⟨rfl, rfl⟩, fun i => ⟨?_, rfl⟩⟩
  swap
  · simp only [chunk_start, NUM_THREADS]
    split <;> omega
  intro j hj
  obtain ⟨i, hi, h1, h2⟩ := chunk_index_exists n j hj
  refine ⟨i, ⟨hi, h1, h2⟩, ?_⟩
  intro i2 hi2
  exact chunk_index_unique 8 n j i2 i ⟨hi2.2.1, hi2.2.2⟩ ⟨h1, h2⟩

/-- C9: for every `n` and every chunk index `i` below 8 the chunk holds `n/8 + 1`
indices when `i < n % 8` and `n/8` otherwise; so two chunk sizes differ by at most
one and the larger chunks are exactly the first `n % 8` ones. -/
theorem chunk_sizes (n : Nat) :
    (∀ i, i < NUM_THREADS →
        chunk_end NUM_THREADS n i - chunk_start NUM_THREADS n i
          = if i < n % 8 then n / 8 + 1 else n / 8)
      ∧ (∀ i j, i < NUM_THREADS → j < NUM_THREADS →
        chunk_end NUM_THREADS n i - chunk_start NUM_THREADS n i
          ≤ chunk_end NUM_THREADS n j - chunk_start NUM_THREADS n j + 1)
      ∧ (∀ i, i < NUM_THREADS →
        (chunk_end NUM_THREADS n i - chunk_start NUM_THREADS n i = n / 8 + 1 ↔ i < n % 8))
      ∧ (∀ i, chunk_end NUM_PROCESSES n i - chunk_start NUM_PROCESSES n i
          = chunk_end NUM_THREADS n i - chunk_start NUM_THREADS n i) := by
  have size : ∀ i, chunk_end NUM_THREADS n i - chunk_start NUM_THREADS n i
      = if i < n % 8 then n / 8 + 1 else n / 8 := by
    intro i
    simp only [chunk_end, NUM_THREADS]
    split <;> omega
  refine ⟨fun i _ => size i, ?_, ?_, fun i => rfl⟩
  · intro i j _ _
    rw [size i, size j]
    split <;> split <;> omega
  · intro i _
    rw [size i]
    split <;> omega


/-! ## Reading a chunk -/

theorem foldlM_read {α : Type} (f : α → Token → α) (words : List Token) (k start : Nat)
    (init : α) (h : start + k ≤ words.length) :
    (List.range' start k).foldlM (fun a i => (words[i]?).map (f a)) init
      = some (((words.drop start).take k).foldl f init) := by
  induction k generalizing start init with
  | zero => simp
  | succ k ih =>
    have hlt : start < words.length := by omega
    have hd : words.drop start = words[start] :: words.drop (start + 1) :=
      List.drop_eq_getElem_cons hlt
    rw [List.range'_succ, List.foldlM_cons, List.getElem?_eq_getElem hlt, hd]
    simp only [Option.map_some', List.take_succ_cons, List.foldl_cons]
    exact ih (start + 1) (f init words[start]) (by omega)

theorem local_count_eq (words : List Token) (start end_ : Nat) (h1 : start ≤ end_)
    (h2 : end_ ≤ words.length) :
    local_count words start end_
      = some ((slice words start end_).foldl local_count_step
          { data := [], capacity := INITIAL_CAPACITY }) := by
  unfold local_count slice
  exact foldlM_read local_count_step words (end_ - start) start _ (by omega)

theorem child_count_eq (words : List Token) (start end_ : Nat) (h1 : start ≤ end_)
    (h2 : end_ ≤ words.length) :
    child_count words start end_
      = some ((slice words start end_).foldl add_word_to_freq_array init_word_freq_array) := by
  unfold child_count slice
  exact foldlM_read add_word_to_freq_array words (end_ - start) start _ (by omega)

/-- C10: a worker never reads outside the token sequence.  For every sequence and
every chunk index `i` below 8, `start_i ≤ end_i ≤ n`, every index of the chunk is a
valid index of `words`, and the reading loops of the thread worker and of the child
process run through; when `n < 8` the chunks with `i ≥ n` are empty and those with
`i < n` hold exactly one token. -/
theorem worker_reads_in_range (words : List Token) (i : Nat) (hi : i < NUM_THREADS) :
    chunk_start NUM_THREADS words.length i ≤ chunk_end NUM_THREADS words.length i
      ∧ chunk_end NUM_THREADS words.length i ≤ words.length
      ∧ (∀ j, chunk_start NUM_THREADS words.length i ≤ j →
          j < chunk_end NUM_THREADS words.length i → (words[j]?).isSome = true)
      ∧ (local_count words (chunk_start NUM_THREADS words.length i)
          (chunk_end NUM_THREADS words.length i)).isSome = true
      ∧ (child_count words (chunk_start NUM_PROCESSES words.length i)
          (chunk_end NUM_PROCESSES words.length i)).isSome = true
      ∧ (words.length < 8 →
          (words.length ≤ i →
            chunk_end NUM_THREADS words.length i = chunk_start NUM_THREADS words.length i)
          ∧ (i < words.length →
            chunk_end NUM_THREADS words.length i
              = chunk_start NUM_THREADS words.length i + 1)) := by
  have hle := chunk_start_le_end NUM_THREADS words.length i
  have hn : chunk_end NUM_THREADS words.length i ≤ words.length :=
    chunk_end_le_total words.length i hi
  refine ⟨hle, hn, ?_, ?_, ?_, ?_⟩
  · intro j _ hj
    have hjn : j < words.length := by omega
    simp [List.getElem?_eq_getElem hjn]
  · rw [local_count_eq words _ _ hle hn]
    rfl
  · have e1 : chunk_start NUM_PROCESSES words.length i = chunk_start NUM_THREADS words.length i :=
      rfl
    have e2 : chunk_end NUM_PROCESSES words.length i = chunk_end NUM_THREADS words.length i :=
      rfl
    rw [e1, e2, child_count_eq words _ _ hle hn]
    rfl
  · intro hsmall
    have hq : words.length / 8 = 0 := by omega
    have hr : words.length % 8 = words.length := by omega
    simp only [chunk_end, NUM_THREADS, hq, hr]
    constructor
    · intro h
      have : ¬ i < words.length := by omega
      simp [this]
    · intro h
      simp [h]

theorem worker_reads_in_range_witness :
    (5 < NUM_THREADS)
      ∧ (child_count [['a'], ['b'], ['c']] (chunk_start NUM_PROCESSES 3 5)
          (chunk_end NUM_PROCESSES 3 5)).isSome = true :=
  ⟨by decide, (worker_reads_in_range [['a'], ['b'], ['c']] 5 (by decide)).2.2.2.2.1⟩


/-! ## The threaded table -/

theorem local_count_step_data (arr : WordFreqArray) (w : Token) :
    (local_count_step arr w).data = find_or_append arr.data w 1 := by
  unfold local_count_step find_or_append
  cases scan_add w 1 arr.data with
  | some d => rfl
  | none =>
    by_cases h : arr.size ≥ arr.capacity <;> simp [h]

theorem merge_entry_data (arr : WordFreqArray) (e : WordFreq) :
    (merge_entry arr e).data = find_or_append arr.data e.word e.frequency := by
  unfold merge_entry find_or_append
  cases scan_add e.word e.frequency arr.data with
  | some d => rfl
  | none =>
    by_cases h : arr.size ≥ arr.capacity <;> simp [h, resize_word_freq_array]

theorem local_fold_data (ws : List Token) (arr : WordFreqArray) :
    (ws.foldl local_count_step arr).data = find_or_append_all arr.data (unit_events ws) := by
  induction ws generalizing arr with
  | nil => simp [find_or_append_all, unit_events]
  | cons w ws ih =>
    rw [List.foldl_cons, ih, local_count_step_data]
    simp [find_or_append_all, unit_events]

theorem merge_pass_data (arr : WordFreqArray) (evs : List WordFreq) :
    (merge_pass arr evs).data = find_or_append_all arr.data evs := by
  induction evs generalizing arr with
  | nil => simp [merge_pass, find_or_append_all]
  | cons e evs ih =>
    have h1 : merge_pass arr (e :: evs) = merge_pass (merge_entry arr e) evs := by
      simp [merge_pass]
    rw [h1, ih, merge_entry_data]
    simp [find_or_append_all]

theorem thread_worker_eq (words : List Token) (shared : WordFreqArray) (i : Nat)
    (hi : i < NUM_THREADS) :
    ∃ t, thread_worker words shared i = some t
      ∧ t.data = find_or_append_all shared.data (local_table words i) := by
  have hle := chunk_start_le_end NUM_THREADS words.length i
  have hn : chunk_end NUM_THREADS words.length i ≤ words.length :=
    chunk_end_le_total words.length i hi
  refine ⟨merge_pass shared ((slice words (chunk_start NUM_THREADS words.length i)
    (chunk_end NUM_THREADS words.length i)).foldl local_count_step
      { data := [], capacity := INITIAL_CAPACITY }).data, ?_, ?_⟩
  · unfold thread_worker process_word_chunk
    rw [local_count_eq words _ _ hle hn]
    rfl
  · rw [merge_pass_data, local_fold_data]
    rfl

theorem run_workers_eq (words : List Token) (order : List Nat)
    (horder : ∀ i ∈ order, i < NUM_THREADS) (shared : WordFreqArray) :
    ∃ t, order.foldlM (thread_worker words) shared = some t
      ∧ t.data = merge_all shared.data (order.map (local_table words)) := by
  induction order generalizing shared with
  | nil => exact ⟨shared, rfl, rfl⟩
  | cons i order ih =>
    obtain ⟨t1, h1, h2⟩ := thread_worker_eq words shared i (horder i (by simp))
    obtain ⟨t, h3, h4⟩ := ih (fun j hj => horder j (by simp [hj])) t1
    refine ⟨t, ?_, ?_⟩
    · rw [List.foldlM_cons, h1]
      exact h3
    · rw [h4, h2]
      simp [merge_all]

theorem entries_of_merge_all (T : Token) (tables : List (List WordFreq))
    (d : List WordFreq) :
    entries_of T (merge_all d tables)
      = bump_all T (tables.flatMap (counts_of T)) (entries_of T d) := by
  induction tables generalizing d with
  | nil => simp [merge_all, bump_all]
  | cons L tables ih =>
    have h1 : merge_all d (L :: tables) = merge_all (find_or_append_all d L) tables := by
      simp [merge_all]
    rw [h1, ih, entries_of_find_or_append_all, List.flatMap_cons, bump_all_append]

theorem counts_of_counted (T : Token) (ws : List Token) :
    counts_of T (find_or_append_all [] (unit_events ws))
      = if T ∈ ws then [(ws.count T : Int)] else [] := by
  unfold counts_of
  rw [entries_of_counted]
  by_cases hT : T ∈ ws <;> simp [hT]

theorem sum_counts_of_counted (T : Token) (ws : List Token) :
    (counts_of T (find_or_append_all [] (unit_events ws))).sum = (ws.count T : Int) := by
  rw [counts_of_counted]
  by_cases hT : T ∈ ws
  · simp [hT]
  · simp [hT, List.count_eq_zero_of_not_mem hT]

theorem take_append_slice (ws : List Token) {a b : Nat} (h : a ≤ b) :
    ws.take a ++ slice ws a b = ws.take b := by
  unfold slice
  have hb : b = a + (b - a) := by omega
  conv_rhs => rw [hb, List.take_add]

theorem slice_sublist (ws : List Token) (a b : Nat) : (slice ws a b).Sublist ws :=
  (List.take_sublist _ _).trans (List.drop_sublist _ _)

theorem count_chunks_upto (T : Token) (ws : List Token) (k : Nat) :
    ((List.range k).map (fun i => (chunk ws i).count T)).sum
      = (ws.take (chunk_start NUM_THREADS ws.length k)).count T := by
  induction k with
  | zero => simp [chunk_start_zero]
  | succ k ih =>
    rw [List.sum_range_succ, ih, ← chunk_end_eq_next,
      ← take_append_slice ws (chunk_start_le_end NUM_THREADS ws.length k), List.count_append]
    rfl

theorem count_chunks (T : Token) (ws : List Token) :
    ((List.range NUM_THREADS).map (fun i => (chunk ws i).count T)).sum = ws.count T := by
  rw [count_chunks_upto]
  have h8 : chunk_start NUM_THREADS ws.length NUM_THREADS = ws.length := by
    have e1 : chunk_end 8 ws.length 7 = chunk_start 8 ws.length 8 :=
      chunk_end_eq_next 8 ws.length 7
    have e2 := chunk_end_last ws.length
    simp only [NUM_THREADS]
    omega
  rw [h8, List.take_length]

theorem count_chunks_perm (T : Token) (ws : List Token) (order : List Nat)
    (horder : order.Perm (List.range NUM_THREADS)) :
    (order.map (fun i => (chunk ws i).count T)).sum = ws.count T := by
  rw [← count_chunks T ws]
  exact (horder.map _).sum_eq

theorem sum_counts_tables (T : Token) (ws : List Token) (order : List Nat) :
    ((order.map (local_table ws)).flatMap (counts_of T)).sum
      = (((order.map (fun i => (chunk ws i).count T)).sum : Nat) : Int) := by
  induction order with
  | nil => simp
  | cons i order ih =>
    rw [List.map_cons, List.flatMap_cons, List.sum_append, ih, List.map_cons, List.sum_cons]
    unfold local_table
    rw [sum_counts_of_counted]
    push_cast
    rfl

theorem counts_tables_nil (T : Token) (ws : List Token) (order : List Nat) (hT : T ∉ ws) :
    (order.map (local_table ws)).flatMap (counts_of T) = [] := by
  induction order with
  | nil => simp
  | cons i order ih =>
    rw [List.map_cons, List.flatMap_cons, ih]
    unfold local_table
    rw [counts_of_counted]
    have hnot : T ∉ chunk ws i := fun h => hT ((slice_sublist ws _ _).subset h)
    simp [hnot]

/-- The entries of token `T` in the shared table once the workers of `order` have
merged, for an order that lists each of the 8 workers once. -/
theorem entries_of_threaded (T : Token) (ws : List Token) (order : List Nat)
    (horder : order.Perm (List.range NUM_THREADS)) :
    entries_of T (merge_all [] (order.map (local_table ws)))
      = if T ∈ ws then [{ word := T, frequency := (ws.count T : Int) }] else [] := by
  rw [entries_of_merge_all]
  have h0 : entries_of T [] = [] := rfl
  rw [h0, bump_all_nil]
  have hsum := sum_counts_tables T ws order
  rw [count_chunks_perm T ws order horder] at hsum
  by_cases hT : T ∈ ws
  · have hpos : 0 < ws.count T := List.count_pos_iff.mpr hT
    have hne : ¬ (order.map (local_table ws)).flatMap (counts_of T) = [] := by
      intro h
      rw [h] at hsum
      simp at hsum
      omega
    simp only [hne, hT, if_true, if_false, hsum]
  · simp [counts_tables_nil T ws order hT, hT]

theorem order_lt_of_perm {order : List Nat} (horder : order.Perm (List.range NUM_THREADS)) :
    ∀ i ∈ order, i < NUM_THREADS := by
  intro i hi
  exact List.mem_range.mp (horder.subset hi)

/-- C2: for every token sequence and every order in which the 8 workers run their
locked merge passes one after another, the threaded pipeline ends with a shared
table in which every token `T` of the sequence has exactly one entry, holding the
number of occurrences of `T` in the whole sequence (the count a scan finds), and a
token that does not occur has none. -/
theorem threaded_table_counts (ws : List Token) (order : List Nat)
    (horder : order.Perm (List.range NUM_THREADS)) :
    ∃ t, run_threads ws order = some t
      ∧ ∀ T, entries_of T t.data
            = (if T ∈ ws then [{ word := T, frequency := (ws.count T : Int) }] else [])
          ∧ stored_count T t.data = (if T ∈ ws then some (ws.count T : Int) else none) := by
  obtain ⟨t, h1, h2⟩ := run_workers_eq ws order (order_lt_of_perm horder) create_word_freq_array
  refine ⟨t, h1, ?_⟩
  intro T
  have h3 : t.data = merge_all [] (order.map (local_table ws)) := h2
  have h := entries_of_threaded T ws order horder
  rw [← h3] at h
  refine ⟨h, ?_⟩
  rw [stored_count_eq, h]
  by_cases hT : T ∈ ws <;> simp [hT]

theorem threaded_table_counts_witness :
    ([3, 0, 7, 1, 6, 2, 5, 4] : List Nat).Perm (List.range NUM_THREADS)
      ∧ ∃ t, run_threads [['a'], ['b'], ['a']] [3, 0, 7, 1, 6, 2, 5, 4] = some t
        ∧ ∀ T, entries_of T t.data
              = (if T ∈ [['a'], ['b'], ['a']]
                  then [{ word := T, frequency := (([['a'], ['b'], ['a']] : List Token).count T : Int) }]
                  else [])
            ∧ stored_count T t.data
              = (if T ∈ [['a'], ['b'], ['a']]
                  then some (([['a'], ['b'], ['a']] : List Token).count T : Int) else none) :=
  ⟨by decide, threaded_table_counts [['a'], ['b'], ['a']] [3, 0, 7, 1, 6, 2, 5, 4] (by decide)⟩

/-- C4: the words stored in the final table are exactly the tokens of the source
sequence, for the naive table built by `count_word_frequencies` and for the threaded
shared table after all merge passes (in any order of the 8 workers). -/
theorem table_words_are_tokens (ws : List Token) (order : List Nat)
    (horder : order.Perm (List.range NUM_THREADS)) :
    (∀ T, T ∈ words_of (count_word_frequencies ws create_word_freq_array).data ↔ T ∈ ws)
      ∧ ∃ t, run_threads ws order = some t ∧ ∀ T, T ∈ words_of t.data ↔ T ∈ ws := by
  constructor
  · intro T
    rw [mem_words_of_iff, count_word_frequencies_data]
    have h : create_word_freq_array.data = [] := rfl
    rw [h, entries_of_counted]
    by_cases hT : T ∈ ws <;> simp [hT]
  · obtain ⟨t, h1, h2⟩ :=
      run_workers_eq ws order (order_lt_of_perm horder) create_word_freq_array
    refine ⟨t, h1, ?_⟩
    intro T
    have h3 : t.data = merge_all [] (order.map (local_table ws)) := h2
    rw [mem_words_of_iff, h3, entries_of_threaded T ws order horder]
    by_cases hT : T ∈ ws <;> simp [hT]

theorem table_words_are_tokens_witness :
    ([7, 6, 5, 4, 3, 2, 1, 0] : List Nat).Perm (List.range NUM_THREADS)
      ∧ ∃ t, run_threads [['x'], ['y'], ['x'], ['z']] [7, 6, 5, 4, 3, 2, 1, 0] = some t
        ∧ ∀ T, T ∈ words_of t.data ↔ T ∈ [['x'], ['y'], ['x'], ['z']] :=
  ⟨by decide,
    (table_words_are_tokens [['x'], ['y'], ['x'], ['z']] [7, 6, 5, 4, 3, 2, 1, 0] (by decide)).2⟩


/-! ## Merging local tables -/

theorem merge_fold_data (tables : List (List WordFreq)) (g : WordFreqArray) :
    (tables.foldl merge_pass g).data = merge_all g.data tables := by
  induction tables generalizing g with
  | nil => rfl
  | cons L tables ih =>
    rw [List.foldl_cons, ih, merge_pass_data]
    simp [merge_all]

theorem entries_of_length_le_one (T : Token) (L : List WordFreq)
    (h : (words_of L).Nodup) : (entries_of T L).length ≤ 1 := by
  induction L with
  | nil => simp [entries_of]
  | cons e L ih =>
    have hcons : (e.word :: words_of L).Nodup := h
    rw [List.nodup_cons] at hcons
    by_cases hT : e.word = T
    · have hnil : entries_of T L = [] := entries_of_eq_nil.mpr (hT ▸ hcons.1)
      simp only [entries_of] at hnil
      simp [entries_of, List.filter_cons, hT, hnil]
    · have := ih hcons.2
      simp only [entries_of] at this
      simp [entries_of, List.filter_cons, hT, this]

theorem counts_of_nodup (T : Token) (L : List WordFreq) (h : (words_of L).Nodup) :
    counts_of T L = (stored_count T L).toList := by
  have hlen := entries_of_length_le_one T L h
  rw [stored_count_eq]
  unfold counts_of
  cases hE : entries_of T L with
  | nil => rfl
  | cons e rest =>
    rw [hE] at hlen
    have hr : rest = [] := by
      cases rest with
      | nil => rfl
      | cons _ _ => simp at hlen
    subst hr
    rfl

theorem sum_counts_of_nodup (T : Token) (L : List WordFreq) (h : (words_of L).Nodup) :
    (counts_of T L).sum = (stored_count T L).getD 0 := by
  rw [counts_of_nodup T L h]
  cases stored_count T L <;> simp

theorem counts_of_eq_nil {T : Token} {L : List WordFreq} :
    counts_of T L = [] ↔ T ∉ words_of L := by
  unfold counts_of
  rw [List.map_eq_nil_iff, entries_of_eq_nil]

theorem bump_all_comm (T : Token) (cs ds : List Int) (acc : List WordFreq) :
    bump_all T ds (bump_all T cs acc) = bump_all T cs (bump_all T ds acc) := by
  cases acc with
  | cons e rest =>
    rw [bump_all_cons, bump_all_cons, bump_all_cons, bump_all_cons]
    simp [add_assoc, add_comm cs.sum ds.sum]
  | nil =>
    by_cases hc : cs = []
    · subst hc
      simp [bump_all]
    · by_cases hd : ds = []
      · subst hd
        simp [bump_all]
      · rw [bump_all_nil, bump_all_nil]
        simp only [hc, hd, if_false]
        rw [bump_all_cons, bump_all_cons]
        simp [add_comm]

/-- Folding local tables with pairwise distinct words into an empty global table with
the thread merge pass, counts added exactly, leaves, for every token `T` stored in
at least one local table, exactly one global entry for `T`, whose count is the sum
over the local tables of the count stored for `T` (nothing for a table without
`T`), and no entry for a token stored in none of them. -/
theorem merge_fold_counts_exact (tables : List (List WordFreq)) (capacity : Int)
    (hdistinct : ∀ L ∈ tables, (words_of L).Nodup) (T : Token) :
    entries_of T (tables.foldl merge_pass { data := [], capacity := capacity }).data
      = if ∃ L ∈ tables, T ∈ words_of L
        then [{ word := T,
                frequency := (tables.map (fun L => (stored_count T L).getD 0)).sum }]
        else [] := by
  rw [merge_fold_data, entries_of_merge_all]
  have h0 : entries_of T ([] : List WordFreq) = [] := rfl
  simp only [h0]
  rw [bump_all_nil]
  have hsum : (tables.flatMap (counts_of T)).sum
      = (tables.map (fun L => (stored_count T L).getD 0)).sum := by
    induction tables with
    | nil => simp
    | cons L tables ih =>
      rw [List.flatMap_cons, List.sum_append, List.map_cons, List.sum_cons,
        ih (fun M hM => hdistinct M (by simp [hM])),
        sum_counts_of_nodup T L (hdistinct L (by simp))]
  have hnil : tables.flatMap (counts_of T) = [] ↔ ¬ ∃ L ∈ tables, T ∈ words_of L := by
    rw [List.flatMap_eq_nil_iff]
    constructor
    · rintro h ⟨L, hL, hT⟩
      exact counts_of_eq_nil.mp (h L hL) hT
    · intro h L hL
      exact counts_of_eq_nil.mpr (fun hT => h ⟨L, hL, hT⟩)
  by_cases hex : ∃ L ∈ tables, T ∈ words_of L
  · have hne : ¬ tables.flatMap (counts_of T) = [] := fun h => hnil.mp h hex
    simp only [hne, hex, if_true, if_false, hsum]
  · have he : tables.flatMap (counts_of T) = [] := hnil.mpr hex
    simp only [he, hex, if_true, if_false]

/-- C6: merge order does not matter for counts.  For every global table `G` and local
tables `A`, `B` with pairwise distinct words, merging `A` then `B` into `G` and
merging `B` then `A` into `G` give every token the same entries, hence the same
stored count. -/
theorem merge_order_irrelevant (G : WordFreqArray) (A B : List WordFreq)
    (_hG : (words_of G.data).Nodup) (_hA : (words_of A).Nodup) (_hB : (words_of B).Nodup)
    (T : Token) :
    entries_of T (merge_pass (merge_pass G A) B).data
        = entries_of T (merge_pass (merge_pass G B) A).data
      ∧ stored_count T (merge_pass (merge_pass G A) B).data
        = stored_count T (merge_pass (merge_pass G B) A).data := by
  have h : entries_of T (merge_pass (merge_pass G A) B).data
      = entries_of T (merge_pass (merge_pass G B) A).data := by
    simp only [merge_pass_data, entries_of_find_or_append_all]
    exact bump_all_comm T (counts_of T A) (counts_of T B) (entries_of T G.data)
  exact ⟨h, by rw [stored_count_eq, stored_count_eq, h]⟩

theorem merge_order_irrelevant_witness :
    (words_of ([⟨['a'], 2⟩, ⟨['b'], 1⟩] : List WordFreq)).Nodup
      ∧ (words_of ([⟨['b'], 4⟩, ⟨['c'], 1⟩] : List WordFreq)).Nodup
      ∧ (words_of ([⟨['c'], 1⟩, ⟨['a'], 3⟩] : List WordFreq)).Nodup
      ∧ stored_count ['c']
          (merge_pass (merge_pass ⟨[⟨['a'], 2⟩, ⟨['b'], 1⟩], 2⟩ [⟨['b'], 4⟩, ⟨['c'], 1⟩])
            [⟨['c'], 1⟩, ⟨['a'], 3⟩]).data
        = stored_count ['c']
          (merge_pass (merge_pass ⟨[⟨['a'], 2⟩, ⟨['b'], 1⟩], 2⟩ [⟨['c'], 1⟩, ⟨['a'], 3⟩])
            [⟨['b'], 4⟩, ⟨['c'], 1⟩]).data :=
  ⟨by decide, by decide, by decide,
    (merge_order_irrelevant ⟨[⟨['a'], 2⟩, ⟨['b'], 1⟩], 2⟩ [⟨['b'], 4⟩, ⟨['c'], 1⟩]
      [⟨['c'], 1⟩, ⟨['a'], 3⟩] (by decide) (by decide) (by decide) ['c']).2⟩


/-! ## Sorting -/

theorem merge_loop_perm (fuel : Nat) (xs ys : List WordFreq) :
    (merge_loop fuel xs ys).Perm (xs ++ ys) := by
  induction fuel generalizing xs ys with
  | zero => simp [merge_loop]
  | succ fuel ih =>
    cases xs with
    | nil => simp [merge_loop]
    | cons x xs =>
      cases ys with
      | nil => simp [merge_loop]
      | cons y ys =>
        simp only [merge_loop]
        split
        · exact (ih xs (y :: ys)).cons x
        · have h1 := (ih (x :: xs) ys).cons y
          exact h1.trans (List.perm_middle.symm)

theorem merge_loop_descending (fuel : Nat) (xs ys : List WordFreq)
    (hf : xs.length + ys.length ≤ fuel) (hx : Descending xs) (hy : Descending ys) :
    Descending (merge_loop fuel xs ys) := by
  induction fuel generalizing xs ys with
  | zero =>
    have h1 : xs = [] := List.length_eq_zero.mp (by omega)
    have h2 : ys = [] := List.length_eq_zero.mp (by omega)
    subst h1 h2
    simp [merge_loop, Descending]
  | succ fuel ih =>
    cases xs with
    | nil => simpa [merge_loop] using hy
    | cons x xs =>
      cases ys with
      | nil => simpa [merge_loop] using hx
      | cons y ys =>
        have hx2 := List.pairwise_cons.mp hx
        have hy2 := List.pairwise_cons.mp hy
        simp only [List.length_cons] at hf
        simp only [merge_loop]
        split
        · rename_i hxy
          refine List.Pairwise.cons ?_ (ih xs (y :: ys) (by simp; omega) hx2.2 hy)
          intro z hz
          have hz2 := (merge_loop_perm fuel xs (y :: ys)).mem_iff.mp hz
          rcases List.mem_append.mp hz2 with h | h
          · exact hx2.1 z h
          · rcases List.mem_cons.mp h with h | h
            · subst h
              exact hxy
            · have := hy2.1 z h
              unfold freq_ge at this ⊢
              omega
        · rename_i hxy
          refine List.Pairwise.cons ?_ (ih (x :: xs) ys (by simp; omega) hx hy2.2)
          intro z hz
          have hz2 := (merge_loop_perm fuel (x :: xs) ys).mem_iff.mp hz
          rcases List.mem_append.mp hz2 with h | h
          · rcases List.mem_cons.mp h with h | h
            · subst h
              unfold freq_ge
              omega
            · have := hx2.1 z h
              unfold freq_ge at this ⊢
              omega
          · exact hy2.1 z h

theorem merge_parts (P S1 S2 Q : List WordFreq) :
    merge (P ++ S1 ++ S2 ++ Q) (P.length : Int) ((P.length : Int) + S1.length - 1)
        ((P.length : Int) + S1.length + S2.length - 1)
      = P ++ merge_loop (S1.length + S2.length) S1 S2 ++ Q := by
  have e1 : ((P.length : Int)).toNat = P.length := by omega
  have e2 : ((P.length : Int) + S1.length - 1 - P.length + 1).toNat = S1.length := by omega
  have e3 : ((P.length : Int) + S1.length + S2.length - 1
      - ((P.length : Int) + S1.length - 1)).toNat = S2.length := by omega
  have e4 : ((P.length : Int) + S1.length - 1 + 1).toNat = (P ++ S1).length := by
    simp only [List.length_append]; omega
  have e5 : ((P.length : Int) + S1.length + S2.length - 1 + 1).toNat
      = (P ++ S1 ++ S2).length := by
    simp only [List.length_append]; omega
  unfold merge
  simp only [e1, e2, e3, e4, e5]
  have t1 : (P ++ S1 ++ S2 ++ Q).take P.length = P := by
    rw [List.append_assoc, List.append_assoc]
    exact List.take_left' rfl
  have t2 : ((P ++ S1 ++ S2 ++ Q).drop P.length).take S1.length = S1 := by
    rw [List.append_assoc, List.append_assoc, List.drop_left' rfl]
    exact List.take_left' rfl
  have t3 : ((P ++ S1 ++ S2 ++ Q).drop (P ++ S1).length).take S2.length = S2 := by
    rw [List.append_assoc (P ++ S1), List.drop_left' rfl]
    exact List.take_left' rfl
  have t4 : (P ++ S1 ++ S2 ++ Q).drop (P ++ S1 ++ S2).length = Q := List.drop_left' rfl
  rw [t1, t2, t3, t4]

theorem descending_of_length_le_one (X : List WordFreq) (h : X.length ≤ 1) :
    Descending X := by
  cases X with
  | nil => simp [Descending]
  | cons x X =>
    cases X with
    | nil => simp [Descending]
    | cons _ _ => simp at h

theorem merge_sort_depth_parts (depth : Nat) (P X Q : List WordFreq)
    (hd : X.length ≤ depth) :
    ∃ S, merge_sort_depth depth (P ++ X ++ Q) (P.length : Int)
          ((P.length : Int) + X.length - 1) = P ++ S ++ Q
      ∧ S.Perm X ∧ Descending S := by
  induction depth generalizing P X Q with
  | zero =>
    have h1 : X = [] := List.length_eq_zero.mp (by omega)
    subst h1
    exact ⟨[], rfl, List.Perm.refl _, by simp [Descending]⟩
  | succ depth ih =>
    by_cases hsmall : X.length ≤ 1
    · refine ⟨X, ?_, List.Perm.refl _, descending_of_length_le_one X hsmall⟩
      have hge : (P.length : Int) ≥ (P.length : Int) + X.length - 1 := by omega
      simp only [merge_sort_depth, hge, if_true]
    · have hlt : ¬ (P.length : Int) ≥ (P.length : Int) + X.length - 1 := by omega
      obtain ⟨S1, hS1, hp1, hs1⟩ :=
        ih P (X.take ((X.length - 1) / 2 + 1)) (X.drop ((X.length - 1) / 2 + 1) ++ Q)
          (by rw [List.length_take]; omega)
      have hlen1 : (X.take ((X.length - 1) / 2 + 1)).length = (X.length - 1) / 2 + 1 := by
        rw [List.length_take]; omega
      have hS1len : S1.length = (X.length - 1) / 2 + 1 := by rw [hp1.length_eq, hlen1]
      obtain ⟨S2, hS2, hp2, hs2⟩ :=
        ih (P ++ S1) (X.drop ((X.length - 1) / 2 + 1)) Q
          (by rw [List.length_drop]; omega)
      have hlen2 : (X.drop ((X.length - 1) / 2 + 1)).length
          = X.length - ((X.length - 1) / 2 + 1) := List.length_drop _ _
      have hS2len : S2.length = X.length - ((X.length - 1) / 2 + 1) := by
        rw [hp2.length_eq, hlen2]
      have hmid : (P.length : Int) + ((P.length : Int) + X.length - 1 - P.length) / 2
          = (P.length : Int) + (X.take ((X.length - 1) / 2 + 1)).length - 1 := by
        rw [hlen1]; omega
      have harr : P ++ X ++ Q
          = P ++ X.take ((X.length - 1) / 2 + 1) ++ (X.drop ((X.length - 1) / 2 + 1) ++ Q) := by
        simp only [List.append_assoc]
        rw [← List.append_assoc (X.take _), List.take_append_drop]
      have hcall2 : P ++ S1 ++ (X.drop ((X.length - 1) / 2 + 1) ++ Q)
          = P ++ S1 ++ X.drop ((X.length - 1) / 2 + 1) ++ Q := by
        simp only [List.append_assoc]
      have hl2 : (P.length : Int) + (X.take ((X.length - 1) / 2 + 1)).length - 1 + 1
          = ((P ++ S1).length : Int) := by
        rw [hlen1, List.length_append, hS1len]; push_cast; omega
      have hr2 : (P.length : Int) + X.length - 1
          = ((P ++ S1).length : Int) + (X.drop ((X.length - 1) / 2 + 1)).length - 1 := by
        rw [hlen2, List.length_append, hS1len]; push_cast; omega
      have hm1 : (P.length : Int) + (X.take ((X.length - 1) / 2 + 1)).length - 1
          = (P.length : Int) + S1.length - 1 := by
        rw [hlen1, hS1len]
      have hm2 : ((P ++ S1).length : Int) + (X.drop ((X.length - 1) / 2 + 1)).length - 1
          = (P.length : Int) + S1.length + S2.length - 1 := by
        rw [hlen2, List.length_append, hS2len]; push_cast; omega
      refine ⟨merge_loop (S1.length + S2.length) S1 S2, ?_, ?_, ?_⟩
      · simp only [merge_sort_depth, hlt, if_false]
        rw [hmid]
        conv_lhs => rw [harr]
        rw [hS1, hcall2, hl2]
        conv_lhs =>
          arg 1
          rw [hr2, hS2]
        rw [hm1, hr2, hm2]
        exact merge_parts P S1 S2 Q
      · refine (merge_loop_perm _ S1 S2).trans ?_
        have := hp1.append hp2
        rwa [List.take_append_drop] at this
      · exact merge_loop_descending _ S1 S2 (le_refl _) hs1 hs2


theorem merge_sort_spec (arr : List WordFreq) :
    (merge_sort arr 0 ((arr.length : Int) - 1)).Perm arr
      ∧ Descending (merge_sort arr 0 ((arr.length : Int) - 1)) := by
  obtain ⟨S, hS, hp, hs⟩ := merge_sort_depth_parts arr.length [] arr [] (le_refl _)
  have hfuel : ((arr.length : Int) - 1 - 0 + 1).toNat = arr.length := by omega
  have hcall : merge_sort arr 0 ((arr.length : Int) - 1) = S := by
    unfold merge_sort
    rw [hfuel]
    simpa using hS
  rw [hcall]
  exact ⟨hp, hs⟩

theorem sort_table_perm (t : WordFreqArray) : (sort_table t).data.Perm t.data :=
  (merge_sort_spec t.data).1

theorem sort_table_descending (t : WordFreqArray) : Descending (sort_table t).data :=
  (merge_sort_spec t.data).2

theorem top_k_eq (t : WordFreqArray) : top_k t = t.data.take (min TOP_K t.data.length) := by
  unfold top_k WordFreqArray.size
  by_cases h : (TOP_K : Int) < (t.data.length : Int)
  · have h2 : min TOP_K t.data.length = TOP_K := by omega
    simp only [h, if_true, h2, Int.toNat_ofNat]
  · have h2 : min TOP_K t.data.length = t.data.length := by omega
    simp only [h, if_false, h2, Int.toNat_ofNat]

theorem perm_of_entries_eq (d1 d2 : List WordFreq)
    (h : ∀ T, entries_of T d1 = entries_of T d2) : d1.Perm d2 := by
  rw [List.perm_iff_count]
  intro e
  have c1 : List.count e (entries_of e.word d1) = List.count e d1 :=
    List.count_filter (by simp)
  have c2 : List.count e (entries_of e.word d2) = List.count e d2 :=
    List.count_filter (by simp)
  rw [← c1, ← c2, h e.word]

theorem frequencies_eq_of_perm (S1 S2 : List WordFreq) (hp : S1.Perm S2)
    (h1 : Descending S1) (h2 : Descending S2) :
    S1.map WordFreq.frequency = S2.map WordFreq.frequency := by
  have hge : ∀ S : List WordFreq, Descending S →
      List.Pairwise (fun a b : Int => a ≥ b) (S.map WordFreq.frequency) := by
    intro S hS
    rw [List.pairwise_map]
    exact hS
  exact List.Perm.eq_of_sorted (fun a b _ _ hab hba => le_antisymm hba hab)
    (hge S1 h1) (hge S2 h2) (hp.map _)

theorem mem_entries_of {e : WordFreq} {d : List WordFreq} (h : e ∈ d) :
    e ∈ entries_of e.word d := by
  simp [entries_of, h]

/-- For every token sequence and every two orders of the 8 merge passes, both runs
report a list; the two sorted tables are permutations of each other; the two top-K
lists hold the same counts in the same positions; every reported entry carries the
number of occurrences of its word; and the two lists are the same list whenever no
two different tokens occur equally often. -/
theorem ranking_counts_agree (ws : List Token) (o1 o2 : List Nat)
    (h1 : o1.Perm (List.range NUM_THREADS)) (h2 : o2.Perm (List.range NUM_THREADS)) :
    ∃ t1 t2, run_threads ws o1 = some t1 ∧ run_threads ws o2 = some t2
      ∧ threaded_top_k ws o1 = some (top_k (sort_table t1))
      ∧ threaded_top_k ws o2 = some (top_k (sort_table t2))
      ∧ (sort_table t1).data.Perm (sort_table t2).data
      ∧ (top_k (sort_table t1)).map WordFreq.frequency
          = (top_k (sort_table t2)).map WordFreq.frequency
      ∧ (∀ e ∈ top_k (sort_table t1), e.frequency = (ws.count e.word : Int))
      ∧ ((∀ a ∈ ws, ∀ b ∈ ws, ws.count a = ws.count b → a = b) →
          top_k (sort_table t1) = top_k (sort_table t2)) := by
  obtain ⟨t1, r1, d1⟩ := run_workers_eq ws o1 (order_lt_of_perm h1) create_word_freq_array
  obtain ⟨t2, r2, d2⟩ := run_workers_eq ws o2 (order_lt_of_perm h2) create_word_freq_array
  have e1 : ∀ T, entries_of T t1.data
      = if T ∈ ws then [{ word := T, frequency := (ws.count T : Int) }] else [] := by
    intro T
    rw [d1]
    exact entries_of_threaded T ws o1 h1
  have e2 : ∀ T, entries_of T t2.data
      = if T ∈ ws then [{ word := T, frequency := (ws.count T : Int) }] else [] := by
    intro T
    rw [d2]
    exact entries_of_threaded T ws o2 h2
  have hperm : t1.data.Perm t2.data :=
    perm_of_entries_eq _ _ (fun T => (e1 T).trans (e2 T).symm)
  have hsp : (sort_table t1).data.Perm (sort_table t2).data :=
    ((sort_table_perm t1).trans hperm).trans (sort_table_perm t2).symm
  have hlen : (sort_table t1).data.length = (sort_table t2).data.length := hsp.length_eq
  have hentry : ∀ (t : WordFreqArray), (∀ T, entries_of T t.data
      = if T ∈ ws then [{ word := T, frequency := (ws.count T : Int) }] else []) →
      ∀ e ∈ (sort_table t).data, e.word ∈ ws ∧ e.frequency = (ws.count e.word : Int) := by
    intro t ht e he
    have hmem : e ∈ t.data := (sort_table_perm t).mem_iff.mp he
    have hin := mem_entries_of hmem
    rw [ht e.word] at hin
    by_cases hw : e.word ∈ ws
    · simp only [hw, if_true, List.mem_singleton] at hin
      refine ⟨hw, ?_⟩
      have := congrArg WordFreq.frequency hin
      simpa using this
    · simp [hw] at hin
  refine ⟨t1, t2, r1, r2, ?_, ?_, hsp, ?_, ?_, ?_⟩
  · have r : run_threads ws o1 = some t1 := r1
    unfold threaded_top_k
    rw [r]
    rfl
  · have r : run_threads ws o2 = some t2 := r2
    unfold threaded_top_k
    rw [r]
    rfl
  · rw [top_k_eq, top_k_eq, List.map_take, List.map_take, hlen,
      frequencies_eq_of_perm _ _ hsp (sort_table_descending t1) (sort_table_descending t2)]
  · intro e he
    rw [top_k_eq] at he
    exact (hentry t1 e1 e (List.mem_of_mem_take he)).2
  · intro hinj
    have heq : (sort_table t1).data = (sort_table t2).data := by
      refine List.Perm.eq_of_sorted ?_ (sort_table_descending t1) (sort_table_descending t2) hsp
      intro a b ha hb hab hba
      obtain ⟨wa, fa⟩ := hentry t1 e1 a ha
      obtain ⟨wb, fb⟩ := hentry t2 e2 b hb
      have hf : a.frequency = b.frequency := le_antisymm hba hab
      have hc : ws.count a.word = ws.count b.word := by
        rw [fa, fb] at hf
        exact_mod_cast hf
      have hw : a.word = b.word := hinj _ wa _ wb hc
      cases a
      cases b
      simp_all
    rw [top_k_eq, top_k_eq, heq]

/-- C7 fails as stated: for the two-token sequence `a b` the worker orders
`0,1,2,...,7` and `1,0,2,...,7` report the words in different positions. -/
theorem threaded_ranking_order_dependent :
    ([0, 1, 2, 3, 4, 5, 6, 7] : List Nat).Perm (List.range NUM_THREADS)
      ∧ ([1, 0, 2, 3, 4, 5, 6, 7] : List Nat).Perm (List.range NUM_THREADS)
      ∧ threaded_top_k [['a'], ['b']] [0, 1, 2, 3, 4, 5, 6, 7]
          = some [{ word := ['a'], frequency := 1 }, { word := ['b'], frequency := 1 }]
      ∧ threaded_top_k [['a'], ['b']] [1, 0, 2, 3, 4, 5, 6, 7]
          = some [{ word := ['b'], frequency := 1 }, { word := ['a'], frequency := 1 }]
      ∧ threaded_top_k [['a'], ['b']] [0, 1, 2, 3, 4, 5, 6, 7]
          ≠ threaded_top_k [['a'], ['b']] [1, 0, 2, 3, 4, 5, 6, 7] := by
  decide


/-! ## The shared region of the process variant -/

theorem words_of_scan_add {w : Token} {c : Int} {d d1 : List WordFreq}
    (h : scan_add w c d = some d1) : words_of d1 = words_of d := by
  induction d generalizing d1 with
  | nil => simp [scan_add] at h
  | cons e rest ih =>
    by_cases he : e.word = w
    · simp only [scan_add, he, if_true, Option.some.injEq] at h
      rw [← h]
      simp [words_of, he]
    · simp only [scan_add, he, if_false, Option.map_eq_some'] at h
      obtain ⟨d2, h2, rfl⟩ := h
      have := ih h2
      simp only [words_of] at this
      simp [words_of, this]

theorem total_frequency_scan_add {w : Token} {c : Int} {d d1 : List WordFreq}
    (h : scan_add w c d = some d1) : total_frequency d1 = total_frequency d + c := by
  induction d generalizing d1 with
  | nil => simp [scan_add] at h
  | cons e rest ih =>
    by_cases he : e.word = w
    · simp only [scan_add, he, if_true, Option.some.injEq] at h
      subst h
      simp only [total_frequency, List.map_cons, List.sum_cons]
      omega
    · simp only [scan_add, he, if_false, Option.map_eq_some'] at h
      obtain ⟨d2, h2, rfl⟩ := h
      have := ih h2
      simp only [total_frequency, List.map_cons, List.sum_cons] at this ⊢
      omega

theorem frequency_pos_scan_add {w : Token} {c : Int} {d d1 : List WordFreq}
    (h : scan_add w c d = some d1) (hc : 0 ≤ c) (hd : ∀ e ∈ d, 1 ≤ e.frequency) :
    ∀ e ∈ d1, 1 ≤ e.frequency := by
  induction d generalizing d1 with
  | nil => simp [scan_add] at h
  | cons e rest ih =>
    by_cases he : e.word = w
    · simp only [scan_add, he, if_true, Option.some.injEq] at h
      subst h
      intro x hx
      rcases List.mem_cons.mp hx with hx | hx
      · subst hx
        have := hd e (by simp)
        simp only
        omega
      · exact hd x (by simp [hx])
    · simp only [scan_add, he, if_false, Option.map_eq_some'] at h
      obtain ⟨d2, h2, rfl⟩ := h
      intro x hx
      rcases List.mem_cons.mp hx with hx | hx
      · subst hx
        exact hd x (by simp)
      · exact ih h2 (fun y hy => hd y (by simp [hy])) x hx

theorem words_of_append (d1 d2 : List WordFreq) :
    words_of (d1 ++ d2) = words_of d1 ++ words_of d2 := by
  simp [words_of]

theorem total_frequency_append (d1 d2 : List WordFreq) :
    total_frequency (d1 ++ d2) = total_frequency d1 + total_frequency d2 := by
  simp [total_frequency]

theorem transfer_pass_cons (g : SharedFreqData) (e : WordFreq) (E : List WordFreq) :
    transfer_pass g (e :: E) = transfer_pass (transfer_entry g e) E := rfl

theorem transfer_pass_append (g : SharedFreqData) (E1 E2 : List WordFreq) :
    transfer_pass g (E1 ++ E2) = transfer_pass (transfer_pass g E1) E2 := by
  simp [transfer_pass, List.foldl_append]

/-- With room left for every distinct word that can be offered, a transfer step adds
the offered count and keeps the stored words distinct and within the offered set. -/
theorem transfer_entry_exact (S : List Token) (hS : S.dedup.length ≤ INITIAL_CAPACITY)
    (g : SharedFreqData) (e : WordFreq) (hnd : (words_of g.data).Nodup)
    (hsub : ∀ x ∈ words_of g.data, x ∈ S) (he : e.word ∈ S) :
    total_frequency (transfer_entry g e).data = total_frequency g.data + e.frequency
      ∧ (words_of (transfer_entry g e).data).Nodup
      ∧ (∀ x ∈ words_of (transfer_entry g e).data, x ∈ S) := by
  unfold transfer_entry
  cases hs : scan_add e.word e.frequency g.data with
  | some d1 =>
    simp only
    rw [words_of_scan_add hs]
    exact ⟨total_frequency_scan_add hs, hnd, hsub⟩
  | none =>
    have hnot : e.word ∉ words_of g.data := scan_add_eq_none.mp hs
    have hnd2 : (e.word :: words_of g.data).Nodup := List.nodup_cons.mpr ⟨hnot, hnd⟩
    have hsub2 : e.word :: words_of g.data ⊆ S.dedup := by
      intro x hx
      rw [List.mem_dedup]
      rcases List.mem_cons.mp hx with hx | hx
      · rw [hx]; exact he
      · exact hsub x hx
    have hlen := (List.Nodup.subperm hnd2 hsub2).length_le
    have hlen2 : (words_of g.data).length = g.data.length := by simp [words_of]
    simp only [List.length_cons, hlen2] at hlen
    have hroom : g.size < (INITIAL_CAPACITY : Int) := by
      unfold SharedFreqData.size
      omega
    simp only [hroom, if_true]
    refine ⟨?_, ?_, ?_⟩
    · rw [total_frequency_append]
      simp [total_frequency]
    · rw [words_of_append]
      have : words_of [({ word := e.word, frequency := e.frequency } : WordFreq)] = [e.word] := rfl
      rw [this, List.nodup_append]
      refine ⟨hnd, List.nodup_singleton _, ?_⟩
      intro x hx hx2
      rw [List.mem_singleton] at hx2
      subst hx2
      exact hnot hx
    · intro x hx
      rw [words_of_append, List.mem_append] at hx
      rcases hx with hx | hx
      · exact hsub x hx
      · have : x = e.word := by simpa [words_of] using hx
        rw [this]; exact he

theorem transfer_pass_exact (S : List Token) (hS : S.dedup.length ≤ INITIAL_CAPACITY)
    (E : List WordFreq) (g : SharedFreqData) (hnd : (words_of g.data).Nodup)
    (hsub : ∀ x ∈ words_of g.data, x ∈ S) (hE : ∀ e ∈ E, e.word ∈ S) :
    total_frequency (transfer_pass g E).data = total_frequency g.data + total_frequency E := by
  induction E generalizing g with
  | nil => simp [transfer_pass, total_frequency]
  | cons e E ih =>
    obtain ⟨h1, h2, h3⟩ := transfer_entry_exact S hS g e hnd hsub (hE e (by simp))
    rw [transfer_pass_cons, ih (transfer_entry g e) h2 h3 (fun x hx => hE x (by simp [hx])), h1]
    simp only [total_frequency, List.map_cons, List.sum_cons]
    omega


theorem add_word_cases (a : WordFreqArray) (w : Token) :
    (∃ d1, scan_add w 1 a.data = some d1 ∧ (add_word_to_freq_array a w).data = d1)
      ∨ (scan_add w 1 a.data = none
          ∧ (add_word_to_freq_array a w).data
              = a.data ++ [{ word := truncate w, frequency := 1 }]) := by
  unfold add_word_to_freq_array
  cases hs : scan_add w 1 a.data with
  | some d1 => exact Or.inl ⟨d1, rfl, rfl⟩
  | none =>
    right
    refine ⟨rfl, ?_⟩
    by_cases h : a.size ≥ a.capacity <;> simp [h, truncate]

theorem add_word_total (a : WordFreqArray) (w : Token) :
    total_frequency (add_word_to_freq_array a w).data = total_frequency a.data + 1 := by
  rcases add_word_cases a w with ⟨d1, hs, hd⟩ | ⟨_, hd⟩
  · rw [hd, total_frequency_scan_add hs]
  · rw [hd, total_frequency_append]
    simp [total_frequency]

theorem add_word_words (a : WordFreqArray) (w : Token) :
    ∀ x ∈ words_of (add_word_to_freq_array a w).data,
      x ∈ words_of a.data ∨ x = truncate w := by
  intro x hx
  rcases add_word_cases a w with ⟨d1, hs, hd⟩ | ⟨_, hd⟩
  · rw [hd, words_of_scan_add hs] at hx
    exact Or.inl hx
  · rw [hd, words_of_append, List.mem_append] at hx
    rcases hx with hx | hx
    · exact Or.inl hx
    · right
      simpa [words_of] using hx

theorem add_word_frequency_pos (a : WordFreqArray) (w : Token)
    (ha : ∀ e ∈ a.data, 1 ≤ e.frequency) :
    ∀ e ∈ (add_word_to_freq_array a w).data, 1 ≤ e.frequency := by
  rcases add_word_cases a w with ⟨d1, hs, hd⟩ | ⟨_, hd⟩
  · rw [hd]
    exact frequency_pos_scan_add hs (by omega) ha
  · rw [hd]
    intro e he
    rcases List.mem_append.mp he with he | he
    · exact ha e he
    · have : e = { word := truncate w, frequency := 1 } := by simpa using he
      rw [this]

theorem child_fold_total (c : List Token) (a : WordFreqArray) :
    total_frequency (c.foldl add_word_to_freq_array a).data
      = total_frequency a.data + c.length := by
  induction c generalizing a with
  | nil => simp
  | cons w c ih =>
    rw [List.foldl_cons, ih, add_word_total]
    simp only [List.length_cons]
    push_cast
    omega

theorem child_fold_words (c : List Token) (a : WordFreqArray) :
    ∀ x ∈ words_of (c.foldl add_word_to_freq_array a).data,
      x ∈ words_of a.data ∨ x ∈ c.map truncate := by
  induction c generalizing a with
  | nil =>
    intro x hx
    exact Or.inl hx
  | cons w c ih =>
    intro x hx
    rw [List.foldl_cons] at hx
    rcases ih _ x hx with h | h
    · rcases add_word_words a w x h with h2 | h2
      · exact Or.inl h2
      · right
        simp [h2]
    · right
      simp only [List.map_cons, List.mem_cons]
      exact Or.inr h

theorem child_fold_frequency_pos (c : List Token) (a : WordFreqArray)
    (ha : ∀ e ∈ a.data, 1 ≤ e.frequency) :
    ∀ e ∈ (c.foldl add_word_to_freq_array a).data, 1 ≤ e.frequency := by
  induction c generalizing a with
  | nil => exact ha
  | cons w c ih =>
    rw [List.foldl_cons]
    exact ih _ (add_word_frequency_pos a w ha)

theorem child_table_total (ws : List Token) (i : Nat) :
    total_frequency (child_table ws i) = ((chunk ws i).length : Int) := by
  unfold child_table
  rw [child_fold_total]
  simp [init_word_freq_array, total_frequency]

theorem child_table_words (ws : List Token) (i : Nat) :
    ∀ x ∈ words_of (child_table ws i), x ∈ ws.map truncate := by
  intro x hx
  unfold child_table at hx
  rcases child_fold_words _ _ x hx with h | h
  · simp [init_word_freq_array, words_of] at h
  · obtain ⟨w, hw, rfl⟩ := List.mem_map.mp h
    exact List.mem_map.mpr ⟨w, (slice_sublist ws _ _).subset hw, rfl⟩

theorem child_process_eq (words : List Token) (shared : SharedFreqData) (i : Nat)
    (hi : i < NUM_PROCESSES) :
    child_process words shared i = some (transfer_pass shared (child_table words i)) := by
  have hle := chunk_start_le_end NUM_PROCESSES words.length i
  have hn : chunk_end NUM_PROCESSES words.length i ≤ words.length :=
    chunk_end_le_total words.length i hi
  unfold child_process
  rw [child_count_eq words _ _ hle hn]
  rfl

theorem run_children_eq (words : List Token) (order : List Nat)
    (horder : ∀ i ∈ order, i < NUM_PROCESSES) (shared : SharedFreqData) :
    order.foldlM (child_process words) shared
      = some (transfer_pass shared (offered words order)) := by
  induction order generalizing shared with
  | nil => rfl
  | cons i order ih =>
    rw [List.foldlM_cons, child_process_eq words shared i (horder i (by simp))]
    have := ih (fun j hj => horder j (by simp [hj])) (transfer_pass shared (child_table words i))
    simp only [Option.some_bind, Option.bind_eq_bind]
    rw [this]
    simp [offered, transfer_pass_append]

theorem length_chunks_upto (ws : List Token) (k : Nat) :
    ((List.range k).map (fun i => (chunk ws i).length)).sum
      = (ws.take (chunk_start NUM_THREADS ws.length k)).length := by
  induction k with
  | zero => simp [chunk_start_zero]
  | succ k ih =>
    rw [List.sum_range_succ, ih, ← chunk_end_eq_next,
      ← take_append_slice ws (chunk_start_le_end NUM_THREADS ws.length k), List.length_append]
    rfl

theorem length_chunks_perm (ws : List Token) (order : List Nat)
    (horder : order.Perm (List.range NUM_THREADS)) :
    (order.map (fun i => (chunk ws i).length)).sum = ws.length := by
  have h8 : chunk_start NUM_THREADS ws.length NUM_THREADS = ws.length := by
    have e1 : chunk_end 8 ws.length 7 = chunk_start 8 ws.length 8 :=
      chunk_end_eq_next 8 ws.length 7
    have e2 := chunk_end_last ws.length
    simp only [NUM_THREADS]
    omega
  rw [(horder.map _).sum_eq, length_chunks_upto, h8, List.take_length]

theorem offered_total (ws : List Token) (order : List Nat) :
    total_frequency (offered ws order)
      = (((order.map (fun i => (chunk ws i).length)).sum : Nat) : Int) := by
  induction order with
  | nil => simp [offered, total_frequency]
  | cons i order ih =>
    have h1 : offered ws (i :: order) = child_table ws i ++ offered ws order := by
      simp [offered]
    rw [h1, total_frequency_append, ih, child_table_total]
    simp

theorem offered_words (ws : List Token) (order : List Nat) :
    ∀ e ∈ offered ws order, e.word ∈ ws.map truncate := by
  intro e he
  obtain ⟨i, _, hi⟩ := List.mem_flatMap.mp he
  exact child_table_words ws i e.word (List.mem_map.mpr ⟨e, hi, rfl⟩)

theorem dedup_map_length_le (ws : List Token) (f : Token → Token) :
    (ws.map f).dedup.length ≤ ws.dedup.length := by
  have hsub : (ws.map f).dedup ⊆ ws.dedup.map f := by
    intro x hx
    rw [List.mem_dedup] at hx
    obtain ⟨w, hw, rfl⟩ := List.mem_map.mp hx
    exact List.mem_map.mpr ⟨w, List.mem_dedup.mpr hw, rfl⟩
  have := (List.Nodup.subperm (List.nodup_dedup _) hsub).length_le
  simpa using this

/-- C3, as amended: for every input with at most `INITIAL_CAPACITY` distinct tokens,
once the 8 children have each run their local aggregation and their transfer into
the shared region to completion one after another (in any order), the `frequency`
fields of the shared entries sum to the total token count. -/
theorem process_sum_is_total (ws : List Token) (order : List Nat)
    (horder : order.Perm (List.range NUM_PROCESSES))
    (hdistinct : ws.dedup.length ≤ INITIAL_CAPACITY) :
    ∃ shared, run_processes ws order = some shared
      ∧ total_frequency shared.data = (ws.length : Int) := by
  refine ⟨transfer_pass { data := [] } (offered ws order), ?_, ?_⟩
  · exact run_children_eq ws order (order_lt_of_perm horder) _
  · have hS : (ws.map truncate).dedup.length ≤ INITIAL_CAPACITY :=
      le_trans (dedup_map_length_le ws truncate) hdistinct
    rw [transfer_pass_exact (ws.map truncate) hS (offered ws order) { data := [] }
      (by simp [words_of]) (by simp [words_of]) (offered_words ws order), offered_total,
      length_chunks_perm ws order horder]
    simp [total_frequency]

theorem process_sum_is_total_witness :
    ([2, 0, 1, 3, 4, 5, 6, 7] : List Nat).Perm (List.range NUM_PROCESSES)
      ∧ ([['a'], ['b'], ['a'], ['c'], ['a']] : List Token).dedup.length ≤ INITIAL_CAPACITY
      ∧ ∃ shared, run_processes [['a'], ['b'], ['a'], ['c'], ['a']] [2, 0, 1, 3, 4, 5, 6, 7]
            = some shared
          ∧ total_frequency shared.data
            = (([['a'], ['b'], ['a'], ['c'], ['a']] : List Token).length : Int) :=
  ⟨by decide, by decide,
    process_sum_is_total [['a'], ['b'], ['a'], ['c'], ['a']] [2, 0, 1, 3, 4, 5, 6, 7]
      (by decide) (by decide)⟩

theorem transfer_entry_le (g : SharedFreqData) (e : WordFreq) (he : 1 ≤ e.frequency) :
    total_frequency (transfer_entry g e).data ≤ total_frequency g.data + e.frequency
      ∧ (∀ x ∈ words_of g.data, x ∈ words_of (transfer_entry g e).data)
      ∧ (total_frequency (transfer_entry g e).data = total_frequency g.data + e.frequency →
          e.word ∈ words_of (transfer_entry g e).data)
      ∧ (g.data.length ≤ INITIAL_CAPACITY →
          (transfer_entry g e).data.length ≤ INITIAL_CAPACITY) := by
  unfold transfer_entry
  cases hs : scan_add e.word e.frequency g.data with
  | some d1 =>
    have hw := words_of_scan_add hs
    have hmem : e.word ∈ words_of g.data := by
      by_contra hnot
      rw [scan_add_eq_none.mpr hnot] at hs
      cases hs
    have hlen : d1.length = g.data.length := by
      have := congrArg List.length hw
      simpa [words_of] using this
    simp only
    rw [hw, hlen]
    exact ⟨le_of_eq (total_frequency_scan_add hs), fun x hx => hx, fun _ => hmem, fun h => h⟩
  | none =>
    by_cases hroom : g.size < (INITIAL_CAPACITY : Int)
    · simp only [hroom, if_true]
      refine ⟨?_, ?_, ?_, ?_⟩
      · rw [total_frequency_append]
        simp [total_frequency]
      · intro x hx
        rw [words_of_append]
        exact List.mem_append_left _ hx
      · intro _
        rw [words_of_append]
        exact List.mem_append_right _ (by simp [words_of])
      · intro _
        unfold SharedFreqData.size at hroom
        simp only [List.length_append, List.length_singleton]
        omega
    · simp only [hroom, if_false]
      refine ⟨by omega, fun x hx => hx, ?_, fun h => h⟩
      intro h
      omega

theorem transfer_pass_le (E : List WordFreq) (g : SharedFreqData)
    (hE : ∀ e ∈ E, 1 ≤ e.frequency) :
    total_frequency (transfer_pass g E).data ≤ total_frequency g.data + total_frequency E
      ∧ (∀ x ∈ words_of g.data, x ∈ words_of (transfer_pass g E).data)
      ∧ (total_frequency (transfer_pass g E).data
            = total_frequency g.data + total_frequency E →
          ∀ e ∈ E, e.word ∈ words_of (transfer_pass g E).data)
      ∧ (g.data.length ≤ INITIAL_CAPACITY →
          (transfer_pass g E).data.length ≤ INITIAL_CAPACITY) := by
  induction E generalizing g with
  | nil =>
    refine ⟨by simp [transfer_pass, total_frequency], fun x hx => hx, ?_, fun h => h⟩
    intro _ e he
    simp at he
  | cons e E ih =>
    obtain ⟨a1, a2, a3, a4⟩ := transfer_entry_le g e (hE e (by simp))
    obtain ⟨b1, b2, b3, b4⟩ := ih (transfer_entry g e) (fun x hx => hE x (by simp [hx]))
    have hcons : total_frequency (e :: E) = e.frequency + total_frequency E := by
      simp [total_frequency]
    rw [transfer_pass_cons, hcons]
    refine ⟨by omega, fun x hx => b2 x (a2 x hx), ?_, fun h => b4 (a4 h)⟩
    intro heq x hx
    rcases List.mem_cons.mp hx with hx | hx
    · subst hx
      exact b2 _ (a3 (by omega))
    · exact b3 (by omega) x hx

theorem add_word_mem (a : WordFreqArray) (w : Token)
    (ha : ∀ x ∈ words_of a.data, x.length ≤ MAX_WORD_LENGTH - 1) :
    truncate w ∈ words_of (add_word_to_freq_array a w).data
      ∧ (∀ x ∈ words_of a.data, x ∈ words_of (add_word_to_freq_array a w).data)
      ∧ (∀ x ∈ words_of (add_word_to_freq_array a w).data, x.length ≤ MAX_WORD_LENGTH - 1) := by
  rcases add_word_cases a w with ⟨d1, hs, hd⟩ | ⟨_, hd⟩
  · have hmem : w ∈ words_of a.data := by
      by_contra hnot
      rw [scan_add_eq_none.mpr hnot] at hs
      cases hs
    have htr : truncate w = w := List.take_of_length_le (ha w hmem)
    rw [hd, words_of_scan_add hs, htr]
    exact ⟨hmem, fun x hx => hx, ha⟩
  · rw [hd, words_of_append]
    have hone : words_of [({ word := truncate w, frequency := 1 } : WordFreq)] = [truncate w] :=
      rfl
    rw [hone]
    refine ⟨by simp, fun x hx => List.mem_append_left _ hx, ?_⟩
    intro x hx
    rcases List.mem_append.mp hx with hx | hx
    · exact ha x hx
    · rw [List.mem_singleton] at hx
      rw [hx]
      unfold truncate
      rw [List.length_take]
      exact Nat.min_le_left _ _

theorem child_fold_mem (c : List Token) (a : WordFreqArray)
    (ha : ∀ x ∈ words_of a.data, x.length ≤ MAX_WORD_LENGTH - 1) :
    (∀ w ∈ c, truncate w ∈ words_of (c.foldl add_word_to_freq_array a).data)
      ∧ (∀ x ∈ words_of a.data, x ∈ words_of (c.foldl add_word_to_freq_array a).data) := by
  induction c generalizing a with
  | nil =>
    refine ⟨?_, fun x hx => hx⟩
    intro w hw
    simp at hw
  | cons v c ih =>
    obtain ⟨a1, a2, a3⟩ := add_word_mem a v ha
    obtain ⟨b1, b2⟩ := ih (add_word_to_freq_array a v) a3
    rw [List.foldl_cons]
    refine ⟨?_, fun x hx => b2 x (a2 x hx)⟩
    intro w hw
    rcases List.mem_cons.mp hw with hw | hw
    · subst hw
      exact b2 _ a1
    · exact b1 w hw

theorem mem_some_chunk (ws : List Token) (order : List Nat)
    (horder : order.Perm (List.range NUM_THREADS)) (w : Token) (hw : w ∈ ws) :
    ∃ i ∈ order, w ∈ chunk ws i := by
  by_contra hnone
  have hzero : (order.map (fun i => (chunk ws i).count w)).sum = 0 := by
    apply List.sum_eq_zero
    intro x hx
    obtain ⟨i, hi, rfl⟩ := List.mem_map.mp hx
    exact List.count_eq_zero_of_not_mem (fun h => hnone ⟨i, hi, h⟩)
  rw [count_chunks_perm w ws order horder] at hzero
  exact (List.count_pos_iff.mpr hw).ne' hzero

theorem offered_mem (ws : List Token) (order : List Nat)
    (horder : order.Perm (List.range NUM_THREADS)) :
    ∀ w ∈ ws, truncate w ∈ words_of (offered ws order) := by
  intro w hw
  obtain ⟨i, hi, hc⟩ := mem_some_chunk ws order horder w hw
  have h1 : truncate w ∈ words_of (child_table ws i) :=
    (child_fold_mem (chunk ws i) init_word_freq_array
      (by simp [init_word_freq_array, words_of])).1 w hc
  obtain ⟨e, he, hword⟩ := List.mem_map.mp h1
  exact List.mem_map.mpr ⟨e, List.mem_flatMap.mpr ⟨i, hi, he⟩, hword⟩

theorem offered_frequency_pos (ws : List Token) (order : List Nat) :
    ∀ e ∈ offered ws order, 1 ≤ e.frequency := by
  intro e he
  obtain ⟨i, _, hi⟩ := List.mem_flatMap.mp he
  exact child_fold_frequency_pos (chunk ws i) init_word_freq_array
    (by simp [init_word_freq_array]) e hi

/-- With more distinct (truncated) tokens than the shared region has slots, the sum
of the shared counts falls short of the token count. -/
theorem process_sum_short (ws : List Token) (order : List Nat)
    (horder : order.Perm (List.range NUM_PROCESSES))
    (hnd : (ws.map truncate).Nodup) (hmany : INITIAL_CAPACITY < ws.length) :
    ∃ shared, run_processes ws order = some shared
      ∧ total_frequency shared.data < (ws.length : Int) := by
  refine ⟨transfer_pass { data := [] } (offered ws order),
    run_children_eq ws order (order_lt_of_perm horder) _, ?_⟩
  obtain ⟨h1, _, h3, h4⟩ := transfer_pass_le (offered ws order) { data := [] }
    (offered_frequency_pos ws order)
  have htot : total_frequency (offered ws order) = (ws.length : Int) := by
    rw [offered_total, length_chunks_perm ws order horder]
  have hzero : total_frequency ({ data := [] } : SharedFreqData).data = 0 := rfl
  rw [htot, hzero] at h1 h3
  rcases lt_or_eq_of_le h1 with hlt | heq
  · simpa using hlt
  · exfalso
    have hall := h3 heq
    have hsub : ws.map truncate
        ⊆ words_of (transfer_pass { data := [] } (offered ws order)).data := by
      intro x hx
      obtain ⟨w, hw, rfl⟩ := List.mem_map.mp hx
      obtain ⟨e, he, hword⟩ := List.mem_map.mp (offered_mem ws order horder w hw)
      rw [← hword]
      exact hall e he
    have hlen := (List.Nodup.subperm hnd hsub).length_le
    have hcap := h4 (by simp)
    simp only [List.length_map, words_of] at hlen
    omega

theorem numeral_token_length (width n : Nat) : (numeral_token width n).length = width := by
  induction width generalizing n with
  | zero => rfl
  | succ width ih => simp [numeral_token, ih]

theorem numeral_token_inj (width : Nat) :
    ∀ n m, n < 2 ^ width → m < 2 ^ width →
      numeral_token width n = numeral_token width m → n = m := by
  induction width with
  | zero =>
    intro n m hn hm _
    simp at hn hm
    omega
  | succ width ih =>
    intro n m hn hm h
    simp only [numeral_token, List.cons.injEq] at h
    have hrest := ih (n / 2) (m / 2) (by rw [pow_succ] at hn; omega)
      (by rw [pow_succ] at hm; omega) h.2
    have hbit : n % 2 = m % 2 := by
      have h1 := h.1
      by_cases hn0 : n % 2 = 0 <;> by_cases hm0 : m % 2 = 0
      · omega
      · simp [hn0, hm0] at h1
      · simp [hn0, hm0] at h1
      · omega
    omega

theorem many_distinct_tokens_length : many_distinct_tokens.length = 18000001 := by
  unfold many_distinct_tokens
  rw [List.length_map, List.length_range]

theorem many_distinct_tokens_nodup : (many_distinct_tokens.map truncate).Nodup := by
  have htr : many_distinct_tokens.map truncate = many_distinct_tokens := by
    unfold many_distinct_tokens
    rw [List.map_map]
    apply List.map_congr_left
    intro i _
    exact List.take_of_length_le (by rw [numeral_token_length]; decide)
  rw [htr]
  unfold many_distinct_tokens
  refine List.Nodup.map_on ?_ (List.nodup_range _)
  intro i hi j hj h
  rw [List.mem_range] at hi hj
  exact numeral_token_inj 25 i j (by norm_num; omega) (by norm_num; omega) h

/-- C3 fails as stated: on 18000001 pairwise distinct tokens the shared region, which
holds at most `INITIAL_CAPACITY` entries, ends with counts that sum to less than the
token count. -/
theorem process_sum_drops_entries :
    many_distinct_tokens.length = 18000001
      ∧ (List.range NUM_PROCESSES).Perm (List.range NUM_PROCESSES)
      ∧ ∃ shared, run_processes many_distinct_tokens (List.range NUM_PROCESSES) = some shared
          ∧ total_frequency shared.data < 18000001 := by
  refine ⟨many_distinct_tokens_length, List.Perm.refl _, ?_⟩
  obtain ⟨shared, h1, h2⟩ := process_sum_short many_distinct_tokens (List.range NUM_PROCESSES)
    (List.Perm.refl _) many_distinct_tokens_nodup
    (by rw [many_distinct_tokens_length]; decide)
  refine ⟨shared, h1, ?_⟩
  rw [many_distinct_tokens_length] at h2
  exact_mod_cast h2


/-! ## What `merge_sort` computes -/

theorem sort_run_perm (depth : Nat) (X : List WordFreq) : (sort_run depth X).Perm X := by
  induction depth generalizing X with
  | zero => exact List.Perm.refl _
  | succ depth ih =>
    simp only [sort_run]
    split
    · exact List.Perm.refl _
    · refine (merge_loop_perm _ _ _).trans ?_
      have := (ih (X.take ((X.length - 1) / 2 + 1))).append
        (ih (X.drop ((X.length - 1) / 2 + 1)))
      rwa [List.take_append_drop] at this

theorem sort_run_length (depth : Nat) (X : List WordFreq) :
    (sort_run depth X).length = X.length :=
  (sort_run_perm depth X).length_eq

theorem sort_run_descending (depth : Nat) (X : List WordFreq) (hd : X.length ≤ depth) :
    Descending (sort_run depth X) := by
  induction depth generalizing X with
  | zero =>
    have h1 : X = [] := List.length_eq_zero.mp (by omega)
    subst h1
    simp [sort_run, Descending]
  | succ depth ih =>
    simp only [sort_run]
    split
    · rename_i hsmall
      exact descending_of_length_le_one X hsmall
    · rename_i hbig
      refine merge_loop_descending _ _ _ ?_
        (ih _ (by rw [List.length_take]; omega)) (ih _ (by rw [List.length_drop]; omega))
      rw [sort_run_length, sort_run_length, List.length_take, List.length_drop]
      omega

theorem with_count_append (c : Int) (d1 d2 : List WordFreq) :
    with_count c (d1 ++ d2) = with_count c d1 ++ with_count c d2 := by
  simp [with_count]

theorem with_count_eq_nil_of_lt (c : Int) (d : List WordFreq)
    (h : ∀ e ∈ d, e.frequency < c) : with_count c d = [] := by
  simp only [with_count, List.filter_eq_nil_iff]
  intro e he
  have := h e he
  simp only [decide_eq_true_eq]
  omega

/-- Merging keeps, for every count, the entries of that count in the order left run
first, then right run, provided the left run is in non-increasing order. -/
theorem merge_loop_stable (c : Int) (fuel : Nat) (xs ys : List WordFreq)
    (hx : Descending xs) :
    with_count c (merge_loop fuel xs ys) = with_count c xs ++ with_count c ys := by
  induction fuel generalizing xs ys with
  | zero => simp [merge_loop, with_count]
  | succ fuel ih =>
    cases xs with
    | nil => simp [merge_loop, with_count]
    | cons x xs =>
      cases ys with
      | nil => simp [merge_loop, with_count]
      | cons y ys =>
        have hx2 := List.pairwise_cons.mp hx
        simp only [merge_loop]
        split
        · have h1 := ih xs (y :: ys) hx2.2
          simp only [with_count] at h1 ⊢
          simp only [List.filter_cons, h1]
          split <;> simp
        · rename_i hxy
          have h1 := ih (x :: xs) ys hx
          by_cases hy : y.frequency = c
          · have hnil : with_count c (x :: xs) = [] := by
              apply with_count_eq_nil_of_lt
              intro e he
              rcases List.mem_cons.mp he with he | he
              · subst he
                omega
              · have := hx2.1 e he
                unfold freq_ge at this
                omega
            simp only [with_count] at h1 hnil ⊢
            rw [List.filter_cons, h1, hnil]
            simp [hy]
          · simp only [with_count] at h1 ⊢
            rw [List.filter_cons, h1]
            simp [hy, List.filter_cons]

theorem sort_run_stable (c : Int) (depth : Nat) (X : List WordFreq)
    (hd : X.length ≤ depth) : with_count c (sort_run depth X) = with_count c X := by
  induction depth generalizing X with
  | zero => rfl
  | succ depth ih =>
    simp only [sort_run]
    split
    · rfl
    · rename_i hbig
      rw [merge_loop_stable c _ _ _
          (sort_run_descending depth _ (by rw [List.length_take]; omega)),
        ih _ (by rw [List.length_take]; omega), ih _ (by rw [List.length_drop]; omega),
        ← with_count_append, List.take_append_drop]

theorem merge_sort_depth_eq_run (depth : Nat) (P X Q : List WordFreq) :
    merge_sort_depth depth (P ++ X ++ Q) (P.length : Int) ((P.length : Int) + X.length - 1)
      = P ++ sort_run depth X ++ Q := by
  induction depth generalizing P X Q with
  | zero => rfl
  | succ depth ih =>
    by_cases hsmall : X.length ≤ 1
    · have hge : (P.length : Int) ≥ (P.length : Int) + X.length - 1 := by omega
      simp only [merge_sort_depth, hge, if_true, sort_run, hsmall]
    · have hlt : ¬ (P.length : Int) ≥ (P.length : Int) + X.length - 1 := by omega
      have hlen1 : (X.take ((X.length - 1) / 2 + 1)).length = (X.length - 1) / 2 + 1 := by
        rw [List.length_take]; omega
      have hlen2 : (X.drop ((X.length - 1) / 2 + 1)).length
          = X.length - ((X.length - 1) / 2 + 1) := List.length_drop _ _
      have hS1len : (sort_run depth (X.take ((X.length - 1) / 2 + 1))).length
          = (X.length - 1) / 2 + 1 := by rw [sort_run_length, hlen1]
      have hS2len : (sort_run depth (X.drop ((X.length - 1) / 2 + 1))).length
          = X.length - ((X.length - 1) / 2 + 1) := by rw [sort_run_length, hlen2]
      have hS1 := ih P (X.take ((X.length - 1) / 2 + 1)) (X.drop ((X.length - 1) / 2 + 1) ++ Q)
      have hS2 := ih (P ++ sort_run depth (X.take ((X.length - 1) / 2 + 1)))
        (X.drop ((X.length - 1) / 2 + 1)) Q
      have hmid : (P.length : Int) + ((P.length : Int) + X.length - 1 - P.length) / 2
          = (P.length : Int) + (X.take ((X.length - 1) / 2 + 1)).length - 1 := by
        rw [hlen1]; omega
      have harr : P ++ X ++ Q
          = P ++ X.take ((X.length - 1) / 2 + 1) ++ (X.drop ((X.length - 1) / 2 + 1) ++ Q) := by
        simp only [List.append_assoc]
        rw [← List.append_assoc (X.take _), List.take_append_drop]
      have hcall2 : P ++ sort_run depth (X.take ((X.length - 1) / 2 + 1))
            ++ (X.drop ((X.length - 1) / 2 + 1) ++ Q)
          = P ++ sort_run depth (X.take ((X.length - 1) / 2 + 1))
            ++ X.drop ((X.length - 1) / 2 + 1) ++ Q := by
        simp only [List.append_assoc]
      have hl2 : (P.length : Int) + (X.take ((X.length - 1) / 2 + 1)).length - 1 + 1
          = ((P ++ sort_run depth (X.take ((X.length - 1) / 2 + 1))).length : Int) := by
        rw [hlen1, List.length_append, hS1len]; push_cast; omega
      have hr2 : (P.length : Int) + X.length - 1
          = ((P ++ sort_run depth (X.take ((X.length - 1) / 2 + 1))).length : Int)
            + (X.drop ((X.length - 1) / 2 + 1)).length - 1 := by
        rw [hlen2, List.length_append, hS1len]; push_cast; omega
      have hm1 : (P.length : Int) + (X.take ((X.length - 1) / 2 + 1)).length - 1
          = (P.length : Int) + (sort_run depth (X.take ((X.length - 1) / 2 + 1))).length - 1 := by
        rw [hlen1, hS1len]
      have hm2 : ((P ++ sort_run depth (X.take ((X.length - 1) / 2 + 1))).length : Int)
            + (X.drop ((X.length - 1) / 2 + 1)).length - 1
          = (P.length : Int) + (sort_run depth (X.take ((X.length - 1) / 2 + 1))).length
            + (sort_run depth (X.drop ((X.length - 1) / 2 + 1))).length - 1 := by
        rw [hlen2, List.length_append, hS2len]; push_cast; omega
      have hfuel : (sort_run depth (X.take ((X.length - 1) / 2 + 1))).length
          + (sort_run depth (X.drop ((X.length - 1) / 2 + 1))).length = X.length := by
        rw [hS1len, hS2len]; omega
      simp only [merge_sort_depth, hlt, if_false, sort_run, hsmall]
      rw [hmid]
      conv_lhs => rw [harr]
      rw [hS1, hcall2, hl2]
      conv_lhs =>
        arg 1
        rw [hr2, hS2]
      rw [hm1, hr2, hm2, merge_parts, hfuel]

theorem merge_sort_eq_run (arr : List WordFreq) :
    merge_sort arr 0 ((arr.length : Int) - 1) = sort_run arr.length arr := by
  have hfuel : ((arr.length : Int) - 1 - 0 + 1).toNat = arr.length := by omega
  have h := merge_sort_depth_eq_run arr.length [] arr []
  unfold merge_sort
  rw [hfuel]
  simpa using h

theorem merge_word_freq_eq (arr : List WordFreq) (left mid right : Int) :
    merge_word_freq arr left mid right = merge arr left mid right := rfl

theorem merge_sort_word_freq_depth_eq (depth : Nat) (arr : List WordFreq) (left right : Int) :
    merge_sort_word_freq_depth depth arr left right = merge_sort_depth depth arr left right := by
  induction depth generalizing arr left right with
  | zero => rfl
  | succ depth ih =>
    simp only [merge_sort_word_freq_depth, merge_sort_depth, ih, merge_word_freq_eq]

theorem merge_sort_word_freq_eq (arr : List WordFreq) (left right : Int) :
    merge_sort_word_freq arr left right = merge_sort arr left right := by
  unfold merge_sort_word_freq merge_sort
  exact merge_sort_word_freq_depth_eq _ _ _ _


/-! ## The ranker -/

/-- C11: for every array, `merge_sort(arr, 0, D - 1)` with `D` the number of entries
leaves a permutation of the original entries (each word still with its own count)
whose counts are in non-increasing order; `merge_sort_word_freq` of the process
variant computes the same array. -/
theorem merge_sort_sorts (arr : List WordFreq) :
    (merge_sort arr 0 ((arr.length : Int) - 1)).Perm arr
      ∧ Descending (merge_sort arr 0 ((arr.length : Int) - 1))
      ∧ List.Pairwise (fun a b : Int => a ≥ b)
          ((merge_sort arr 0 ((arr.length : Int) - 1)).map WordFreq.frequency)
      ∧ merge_sort_word_freq arr 0 ((arr.length : Int) - 1)
          = merge_sort arr 0 ((arr.length : Int) - 1) := by
  rw [merge_sort_eq_run]
  have hd := sort_run_descending arr.length arr (le_refl _)
  refine ⟨sort_run_perm _ _, hd, ?_, ?_⟩
  · rw [List.pairwise_map]
    exact hd
  · rw [merge_sort_word_freq_eq, merge_sort_eq_run]

theorem sublist_pair_of_with_count (a b : WordFreq) (d1 d2 : List WordFreq)
    (hab : [a, b].Sublist d1) (heq : a.frequency = b.frequency)
    (h : with_count a.frequency d2 = with_count a.frequency d1) : [a, b].Sublist d2 := by
  have h1 : ([a, b].filter (fun e => decide (e.frequency = a.frequency))).Sublist
      (with_count a.frequency d1) := hab.filter _
  have h2 : [a, b].filter (fun e => decide (e.frequency = a.frequency)) = [a, b] := by
    simp [List.filter_cons, heq]
  rw [h2, ← h] at h1
  exact h1.trans (List.filter_sublist _)

/-- C12: the ranker is stable.  For every array and every count `c`, the entries of
count `c` stand in the output of `merge_sort` in the same order as in the input, so
two entries of equal count keep their relative order (also for
`merge_sort_word_freq`); counts `5, 5, 3` for tokens `A, B, C` give `A, B, C`. -/
theorem merge_sort_stable (arr : List WordFreq) :
    (∀ c, with_count c (merge_sort arr 0 ((arr.length : Int) - 1)) = with_count c arr)
      ∧ (∀ a b, [a, b].Sublist arr → a.frequency = b.frequency →
          [a, b].Sublist (merge_sort arr 0 ((arr.length : Int) - 1)))
      ∧ (∀ c, with_count c (merge_sort_word_freq arr 0 ((arr.length : Int) - 1))
          = with_count c arr)
      ∧ merge_sort [⟨['A'], 5⟩, ⟨['B'], 5⟩, ⟨['C'], 3⟩] 0 2
          = [⟨['A'], 5⟩, ⟨['B'], 5⟩, ⟨['C'], 3⟩]
      ∧ merge_sort [⟨['C'], 3⟩, ⟨['A'], 5⟩, ⟨['B'], 5⟩] 0 2
          = [⟨['A'], 5⟩, ⟨['B'], 5⟩, ⟨['C'], 3⟩] := by
  have hst : ∀ c, with_count c (merge_sort arr 0 ((arr.length : Int) - 1))
      = with_count c arr := by
    intro c
    rw [merge_sort_eq_run]
    exact sort_run_stable c arr.length arr (le_refl _)
  refine ⟨hst, ?_, ?_, by decide, by decide⟩
  · intro a b hab heq
    exact sublist_pair_of_with_count a b arr _ hab heq (hst a.frequency)
  · intro c
    rw [merge_sort_word_freq_eq]
    exact hst c


/-! ## The naive ranking -/

theorem words_of_find_or_append (d : List WordFreq) (w : Token) (c : Int) :
    words_of (find_or_append d w c)
      = if w ∈ words_of d then words_of d else words_of d ++ [w] := by
  unfold find_or_append
  cases hs : scan_add w c d with
  | some d1 =>
    have hmem : w ∈ words_of d := by
      by_contra hnot
      rw [scan_add_eq_none.mpr hnot] at hs
      cases hs
    simp only [hmem, if_true]
    exact words_of_scan_add hs
  | none =>
    have hnot := scan_add_eq_none.mp hs
    simp only [hnot, if_false, words_of_append]
    rfl

theorem counted_snoc (ws : List Token) (w : Token) :
    find_or_append_all [] (unit_events (ws ++ [w]))
      = find_or_append (find_or_append_all [] (unit_events ws)) w 1 := by
  simp [find_or_append_all, unit_events, List.foldl_append]

theorem mem_words_of_counted (ws : List Token) (T : Token) :
    T ∈ words_of (find_or_append_all [] (unit_events ws)) ↔ T ∈ ws := by
  rw [mem_words_of_iff, entries_of_counted]
  by_cases hT : T ∈ ws <;> simp [hT]

theorem first_index_append_of_mem {w : Token} {l1 : List Token} (l2 : List Token)
    (h : w ∈ l1) : first_index w (l1 ++ l2) = first_index w l1 := by
  induction l1 with
  | nil => simp at h
  | cons x l1 ih =>
    by_cases hx : x = w
    · simp [first_index, hx]
    · have hw : w ∈ l1 := by
        rcases List.mem_cons.mp h with h1 | h1
        · exact absurd h1.symm hx
        · exact h1
      simp [first_index, hx, ih hw]

theorem first_index_of_not_mem {w : Token} {l : List Token} (h : w ∉ l) :
    first_index w l = l.length := by
  induction l with
  | nil => rfl
  | cons x l ih =>
    have hx : ¬ x = w := fun hx => h (by simp [hx])
    have hw : w ∉ l := fun hw => h (by simp [hw])
    simp [first_index, hx, ih hw]

theorem first_index_append_of_not_mem {w : Token} {l1 : List Token} (l2 : List Token)
    (h : w ∉ l1) : first_index w (l1 ++ l2) = l1.length + first_index w l2 := by
  induction l1 with
  | nil => simp
  | cons x l1 ih =>
    have hx : ¬ x = w := fun hx => h (by simp [hx])
    have hw : w ∉ l1 := fun hw => h (by simp [hw])
    simp [first_index, hx, ih hw]
    omega

theorem first_index_lt_length {w : Token} {l : List Token} (h : w ∈ l) :
    first_index w l < l.length := by
  induction l with
  | nil => simp at h
  | cons x l ih =>
    by_cases hx : x = w
    · simp [first_index, hx]
    · have hw : w ∈ l := by
        rcases List.mem_cons.mp h with h1 | h1
        · exact absurd h1.symm hx
        · exact h1
      simp [first_index, hx, ih hw]

/-- The naive table lists the words in the order of their first occurrence. -/
theorem counted_first_seen_order (ws : List Token) :
    (words_of (find_or_append_all [] (unit_events ws))).Pairwise
      (fun a b => first_index a ws < first_index b ws) := by
  induction ws using List.reverseRecOn with
  | nil => simp [find_or_append_all, unit_events, words_of]
  | append_singleton ws w ih =>
    rw [counted_snoc, words_of_find_or_append]
    have hold : (words_of (find_or_append_all [] (unit_events ws))).Pairwise
        (fun a b => first_index a (ws ++ [w]) < first_index b (ws ++ [w])) := by
      refine List.Pairwise.imp_of_mem ?_ ih
      intro a b ha hb hab
      rw [first_index_append_of_mem _ ((mem_words_of_counted ws a).mp ha),
        first_index_append_of_mem _ ((mem_words_of_counted ws b).mp hb)]
      exact hab
    by_cases hw : w ∈ words_of (find_or_append_all [] (unit_events ws))
    · simp only [hw, if_true]
      exact hold
    · simp only [hw, if_false]
      rw [List.pairwise_append]
      refine ⟨hold, List.pairwise_singleton _ _, ?_⟩
      intro a ha b hb
      rw [List.mem_singleton] at hb
      subst hb
      have ha2 : a ∈ ws := (mem_words_of_counted ws a).mp ha
      have hb2 : b ∉ ws := fun h => hw ((mem_words_of_counted ws b).mpr h)
      rw [first_index_append_of_mem _ ha2, first_index_append_of_not_mem _ hb2]
      have := first_index_lt_length ha2
      omega

theorem ranked_of_descending_stable (Q : WordFreq → WordFreq → Prop) (S : List WordFreq)
    (hd : Descending S) (hq : ∀ c, (with_count c S).Pairwise Q) :
    S.Pairwise (fun a b => a.frequency > b.frequency ∨ (a.frequency = b.frequency ∧ Q a b)) := by
  induction S with
  | nil => exact List.Pairwise.nil
  | cons a S ih =>
    have hd2 := List.pairwise_cons.mp hd
    refine List.Pairwise.cons ?_ (ih hd2.2 ?_)
    · intro b hb
      have hge := hd2.1 b hb
      unfold freq_ge at hge
      by_cases heq : a.frequency = b.frequency
      · right
        refine ⟨heq, ?_⟩
        have h1 := hq a.frequency
        simp only [with_count, List.filter_cons, decide_True, if_true] at h1
        have h2 := List.pairwise_cons.mp h1
        exact h2.1 b (by simp [hb, heq])
      · left
        omega
    · intro c
      have h1 := hq c
      simp only [with_count, List.filter_cons] at h1
      by_cases hc : a.frequency = c
      · simp only [hc, decide_True, if_true] at h1
        exact (List.pairwise_cons.mp h1).2
      · simpa [hc] using h1

/-- C13: the naive pipeline (`count_word_frequencies`, then `merge_sort`) orders the
table by count descending and, among tokens of equal count, by ascending position of
the first occurrence in the input, every entry holding the number of occurrences of
its word; for `the cat sat on the mat the cat ran` the sorted table is
`the:3, cat:2, sat:1, on:1, mat:1, ran:1` and its first three entries are
`the:3, cat:2, sat:1`. -/
theorem naive_ranking_order (ws : List Token) :
    (sort_table (count_word_frequencies ws create_word_freq_array)).data.Pairwise
        (ranked_before ws)
      ∧ (∀ e ∈ (sort_table (count_word_frequencies ws create_word_freq_array)).data,
          e.word ∈ ws ∧ e.frequency = (ws.count e.word : Int))
      ∧ (sort_table (count_word_frequencies example_sentence create_word_freq_array)).data
          = [⟨"the".toList, 3⟩, ⟨"cat".toList, 2⟩, ⟨"sat".toList, 1⟩, ⟨"on".toList, 1⟩,
              ⟨"mat".toList, 1⟩, ⟨"ran".toList, 1⟩]
      ∧ (sort_table (count_word_frequencies example_sentence
            create_word_freq_array)).data.take 3
          = [⟨"the".toList, 3⟩, ⟨"cat".toList, 2⟩, ⟨"sat".toList, 1⟩]
      ∧ naive_top_k example_sentence
          = [⟨"the".toList, 3⟩, ⟨"cat".toList, 2⟩, ⟨"sat".toList, 1⟩, ⟨"on".toList, 1⟩,
              ⟨"mat".toList, 1⟩, ⟨"ran".toList, 1⟩] := by
  have hdata : (count_word_frequencies ws create_word_freq_array).data
      = find_or_append_all [] (unit_events ws) := count_word_frequencies_data ws _
  have hsort : (sort_table (count_word_frequencies ws create_word_freq_array)).data
      = sort_run (find_or_append_all [] (unit_events ws)).length
          (find_or_append_all [] (unit_events ws)) := by
    unfold sort_table WordFreqArray.size
    simp only [hdata]
    exact merge_sort_eq_run _
  refine ⟨?_, ?_, by decide, by decide, by decide⟩
  · rw [hsort]
    refine ranked_of_descending_stable
      (fun a b => first_index a.word ws < first_index b.word ws) _
      (sort_run_descending _ _ (le_refl _)) ?_
    intro c
    rw [sort_run_stable c _ _ (le_refl _)]
    have h1 := counted_first_seen_order ws
    unfold words_of at h1
    rw [List.pairwise_map] at h1
    exact h1.sublist (List.filter_sublist _)
  · intro e he
    rw [hsort] at he
    have hmem : e ∈ find_or_append_all [] (unit_events ws) :=
      (sort_run_perm _ _).mem_iff.mp he
    have hin := mem_entries_of hmem
    rw [entries_of_counted] at hin
    by_cases hw : e.word ∈ ws
    · simp only [hw, if_true, List.mem_singleton] at hin
      refine ⟨hw, ?_⟩
      have := congrArg WordFreq.frequency hin
      simpa using this
    · simp [hw] at hin


/-! ## The reported list -/

theorem shared_top_k_eq (s : SharedFreqData) :
    shared_top_k s = s.data.take (min TOP_K s.data.length) := by
  unfold shared_top_k SharedFreqData.size
  by_cases h : (TOP_K : Int) < (s.data.length : Int)
  · have h2 : min TOP_K s.data.length = TOP_K := by omega
    simp only [h, if_true, h2, Int.toNat_ofNat]
  · have h2 : min TOP_K s.data.length = s.data.length := by omega
    simp only [h, if_false, h2, Int.toNat_ofNat]

theorem sort_shared_data (s : SharedFreqData) :
    (sort_shared s).data = sort_run s.data.length s.data := by
  unfold sort_shared SharedFreqData.size
  simp only
  rw [merge_sort_word_freq_eq, merge_sort_eq_run]

theorem sort_table_data (t : WordFreqArray) :
    (sort_table t).data = sort_run t.data.length t.data := by
  unfold sort_table WordFreqArray.size
  simp only
  rw [merge_sort_eq_run]

theorem take_ge_drop (S : List WordFreq) (hS : Descending S) (k : Nat) :
    ∀ e ∈ S.take k, ∀ r ∈ S.drop k, e.frequency ≥ r.frequency := by
  have h : Descending (S.take k ++ S.drop k) := by
    rw [List.take_append_drop]
    exact hS
  exact (List.pairwise_append.mp h).2.2

/-- C14: the reported ranked list has exactly `min(K, D)` entries with `K = TOP_K = 10`
and `D` the number of entries of the global table; it is the first `min(K, D)`
entries of the sorted table; and every reported entry has a count at least as large
as that of every entry that is not reported (naive and threaded `main` on a
`WordFreqArray`, process `main` on the shared region). -/
theorem ranked_list_is_top (t : WordFreqArray) (s : SharedFreqData) :
    TOP_K = 10
      ∧ (top_k (sort_table t)).length = min TOP_K t.data.length
      ∧ top_k (sort_table t) = (sort_table t).data.take (min TOP_K t.data.length)
      ∧ top_k (sort_table t) = (sort_table t).data.take (print_limit t.size).toNat
      ∧ (∀ e ∈ top_k (sort_table t),
          ∀ r ∈ (sort_table t).data.drop (min TOP_K t.data.length),
            e.frequency ≥ r.frequency)
      ∧ (shared_top_k (sort_shared s)).length = min TOP_K s.data.length
      ∧ shared_top_k (sort_shared s) = (sort_shared s).data.take (min TOP_K s.data.length)
      ∧ (∀ e ∈ shared_top_k (sort_shared s),
          ∀ r ∈ (sort_shared s).data.drop (min TOP_K s.data.length),
            e.frequency ≥ r.frequency) := by
  have hlen : (sort_table t).data.length = t.data.length := by
    rw [sort_table_data, sort_run_length]
  have hlen2 : (sort_shared s).data.length = s.data.length := by
    rw [sort_shared_data, sort_run_length]
  have htop : top_k (sort_table t) = (sort_table t).data.take (min TOP_K t.data.length) := by
    rw [top_k_eq, hlen]
  have htop2 : shared_top_k (sort_shared s)
      = (sort_shared s).data.take (min TOP_K s.data.length) := by
    rw [shared_top_k_eq, hlen2]
  refine ⟨rfl, ?_, htop, ?_, ?_, ?_, htop2, ?_⟩
  · rw [htop, List.length_take, hlen]
    omega
  · have : (sort_table t).size = t.size := by
      unfold WordFreqArray.size
      rw [hlen]
    unfold top_k print_limit
    rw [this]
  · rw [htop]
    exact take_ge_drop _ (sort_table_descending t) _
  · rw [htop2, List.length_take, hlen2]
    omega
  · rw [htop2]
    refine take_ge_drop _ ?_ _
    rw [sort_shared_data]
    exact sort_run_descending _ _ (le_refl _)

/-! ## The empty source -/

theorem run_threads_nil (order : List Nat) (shared : WordFreqArray) :
    order.foldlM (thread_worker []) shared = some shared := by
  induction order with
  | nil => rfl
  | cons i order ih =>
    rw [List.foldlM_cons]
    have h : thread_worker [] shared i = some shared := by
      simp [thread_worker, process_word_chunk, local_count, chunk_start, chunk_end, merge_pass]
    rw [h]
    exact ih

theorem run_processes_nil (order : List Nat) (shared : SharedFreqData) :
    order.foldlM (child_process []) shared = some shared := by
  induction order with
  | nil => rfl
  | cons i order ih =>
    rw [List.foldlM_cons]
    have h : child_process [] shared i = some shared := by
      simp [child_process, child_count, chunk_start, chunk_end, transfer_pass,
        init_word_freq_array]
    rw [h]
    exact ih

/-- C15: for the empty source every variant yields total token count 0, an empty
global table and an empty ranked list, with no read outside the sequence: all chunks
are `[0, 0)`, no entry is merged, `merge_sort(arr, 0, -1)` returns `arr` as it is,
and the print limit is 0. -/
theorem empty_source (order : List Nat) (arr : List WordFreq) :
    ([] : List Token).length = 0
      ∧ (∀ i, chunk_start NUM_THREADS 0 i = 0 ∧ chunk_end NUM_THREADS 0 i = 0
          ∧ chunk_start NUM_PROCESSES 0 i = 0 ∧ chunk_end NUM_PROCESSES 0 i = 0)
      ∧ (count_word_frequencies [] create_word_freq_array).data = []
      ∧ (∀ i, (local_count [] (chunk_start NUM_THREADS 0 i)
            (chunk_end NUM_THREADS 0 i)).map WordFreqArray.data = some []
          ∧ (child_count [] (chunk_start NUM_PROCESSES 0 i)
            (chunk_end NUM_PROCESSES 0 i)).map WordFreqArray.data = some [])
      ∧ run_threads [] order = some create_word_freq_array
      ∧ run_processes [] order = some { data := [] }
      ∧ merge_sort arr 0 (-1) = arr
      ∧ (∀ depth, merge_sort_depth depth arr 0 (-1) = arr)
      ∧ merge_sort_word_freq arr 0 (-1) = arr
      ∧ print_limit 0 = 0
      ∧ naive_top_k [] = []
      ∧ threaded_top_k [] order = some []
      ∧ process_top_k [] order = some [] := by
  have hchunk : ∀ i, chunk_start NUM_THREADS 0 i = 0 ∧ chunk_end NUM_THREADS 0 i = 0
      ∧ chunk_start NUM_PROCESSES 0 i = 0 ∧ chunk_end NUM_PROCESSES 0 i = 0 := by
    intro i
    simp [chunk_start, chunk_end]
  have ht : run_threads [] order = some create_word_freq_array := run_threads_nil order _
  have hp : run_processes [] order = some { data := [] } := run_processes_nil order _
  refine ⟨rfl, hchunk, rfl, ?_, ht, hp, rfl, ?_, rfl, by decide, by decide, ?_, ?_⟩
  · intro i
    rw [(hchunk i).1, (hchunk i).2.1, (hchunk i).2.2.1, (hchunk i).2.2.2]
    exact ⟨rfl, rfl⟩
  · intro depth
    cases depth with
    | zero => rfl
    | succ depth => simp [merge_sort_depth]
  · unfold threaded_top_k
    rw [ht]
    decide
  · unfold process_top_k
    rw [hp]
    decide



/-! ## One find-or-append step -/

theorem add_at_length (d : List WordFreq) (k : Nat) (c : Int) :
    (add_at d k c).length = d.length := by
  induction d generalizing k with
  | nil => rfl
  | cons e rest ih =>
    cases k with
    | zero => rfl
    | succ k => simp [add_at, ih]

theorem add_at_words (d : List WordFreq) (k : Nat) (c : Int) :
    words_of (add_at d k c) = words_of d := by
  induction d generalizing k with
  | nil => rfl
  | cons e rest ih =>
    cases k with
    | zero => rfl
    | succ k =>
      have := ih k
      simp only [words_of] at this
      simp [add_at, words_of, this]

theorem add_at_getElem_same (d : List WordFreq) (k : Nat) (c : Int) :
    (add_at d k c)[k]?
      = (d[k]?).map (fun x => { x with frequency := x.frequency + c }) := by
  induction d generalizing k with
  | nil => simp [add_at]
  | cons e rest ih =>
    cases k with
    | zero => simp [add_at]
    | succ k => simp [add_at, ih]

theorem add_at_getElem_other (d : List WordFreq) (k j : Nat) (c : Int) (h : j ≠ k) :
    (add_at d k c)[j]? = d[j]? := by
  induction d generalizing k j with
  | nil => simp [add_at]
  | cons e rest ih =>
    cases k with
    | zero =>
      cases j with
      | zero => exact absurd rfl h
      | succ j => simp [add_at]
    | succ k =>
      cases j with
      | zero => simp [add_at]
      | succ j => simp [add_at, ih k j (by omega)]

theorem scan_add_at (w : Token) (c : Int) (d : List WordFreq) (k : Nat)
    (hd : (words_of d).Nodup) (hk : (d[k]?).map WordFreq.word = some w) :
    scan_add w c d = some (add_at d k c) := by
  induction d generalizing k with
  | nil => simp at hk
  | cons e rest ih =>
    have hcons : (e.word :: words_of rest).Nodup := hd
    rw [List.nodup_cons] at hcons
    cases k with
    | zero =>
      have he : e.word = w := by simpa using hk
      simp [scan_add, add_at, he]
    | succ k =>
      have hk2 : (rest[k]?).map WordFreq.word = some w := by simpa using hk
      have hmem : w ∈ words_of rest := by
        rw [Option.map_eq_some'] at hk2
        obtain ⟨x, hx, hw⟩ := hk2
        exact List.mem_map.mpr ⟨x, List.mem_iff_getElem?.mpr ⟨k, hx⟩, hw⟩
      have he : ¬ e.word = w := fun h => hcons.1 (h ▸ hmem)
      simp [scan_add, add_at, he, ih k hcons.2 hk2]

theorem merge_entry_cases (G : WordFreqArray) (e : WordFreq) :
    (∃ d1, scan_add e.word e.frequency G.data = some d1
        ∧ merge_entry G e = { G with data := d1 })
      ∨ (scan_add e.word e.frequency G.data = none
          ∧ (merge_entry G e).data
              = G.data ++ [{ word := e.word, frequency := e.frequency }]) := by
  unfold merge_entry
  cases hs : scan_add e.word e.frequency G.data with
  | some d1 => exact Or.inl ⟨d1, rfl, rfl⟩
  | none =>
    right
    refine ⟨rfl, ?_⟩
    by_cases h : G.size ≥ G.capacity <;> simp [h, resize_word_freq_array]

/-- Find-or-append of one incoming entry `(t, c)` into a table with pairwise distinct
words, with counts added exactly.  If `t` is stored at index `k`, the result is the
table with only the count at index `k` increased by `c` (size, capacity, every word
and every other entry unchanged), in the thread merge loop and in the process
transfer loop.  If `t` is not stored, the thread merge loop appends `(t, c)` at the
end and leaves every existing entry as it is; the process transfer loop does so
while `size < INITIAL_CAPACITY`. -/
theorem find_or_append_frame_exact (G : WordFreqArray) (e : WordFreq)
    (hG : (words_of G.data).Nodup) :
    (∀ k, (G.data[k]?).map WordFreq.word = some e.word →
        (merge_entry G e).data = add_at G.data k e.frequency
          ∧ (merge_entry G e).capacity = G.capacity
          ∧ (transfer_entry { data := G.data } e).data = add_at G.data k e.frequency
          ∧ (add_at G.data k e.frequency).length = G.data.length
          ∧ words_of (add_at G.data k e.frequency) = words_of G.data
          ∧ (add_at G.data k e.frequency)[k]?
              = (G.data[k]?).map (fun x => { x with frequency := x.frequency + e.frequency })
          ∧ ∀ j, j ≠ k → (add_at G.data k e.frequency)[j]? = G.data[j]?)
      ∧ (e.word ∉ words_of G.data →
          (merge_entry G e).data = G.data ++ [{ word := e.word, frequency := e.frequency }]
            ∧ ((G.data.length : Int) < INITIAL_CAPACITY →
                (transfer_entry { data := G.data } e).data
                  = G.data ++ [{ word := e.word, frequency := e.frequency }])) := by
  constructor
  · intro k hk
    have hs := scan_add_at e.word e.frequency G.data k hG hk
    refine ⟨?_, ?_, ?_, add_at_length _ _ _, add_at_words _ _ _, add_at_getElem_same _ _ _,
      fun j hj => add_at_getElem_other _ _ _ _ hj⟩
    · simp [merge_entry, hs]
    · simp [merge_entry, hs]
    · simp [transfer_entry, hs]
  · intro hnot
    have hs : scan_add e.word e.frequency G.data = none := scan_add_eq_none.mpr hnot
    constructor
    · rcases merge_entry_cases G e with ⟨d1, h1, _⟩ | ⟨_, h2⟩
      · rw [hs] at h1
        cases h1
      · exact h2
    · intro hroom
      have hroom2 : ({ data := G.data } : SharedFreqData).size < (INITIAL_CAPACITY : Int) :=
        hroom
      simp [transfer_entry, hs, hroom2]

theorem full_region_size : full_region.size = 18000000 := by
  unfold full_region SharedFreqData.size
  simp only [List.length_map, List.length_range]
  rfl

theorem full_region_words :
    words_of full_region.data = (List.range 18000000).map (numeral_token 25) := by
  unfold full_region words_of
  simp only [List.map_map]
  rfl

theorem full_region_nodup : (words_of full_region.data).Nodup := by
  rw [full_region_words]
  refine List.Nodup.map_on ?_ (List.nodup_range _)
  intro i hi j hj h
  rw [List.mem_range] at hi hj
  exact numeral_token_inj 25 i j (by norm_num; omega) (by norm_num; omega) h

theorem extra_entry_not_stored : extra_entry.word ∉ words_of full_region.data := by
  rw [full_region_words]
  intro h
  obtain ⟨i, hi, heq⟩ := List.mem_map.mp h
  rw [List.mem_range] at hi
  have := numeral_token_inj 25 i 18000000 (by norm_num; omega) (by norm_num) heq
  omega

theorem transfer_entry_full (g : SharedFreqData) (e : WordFreq)
    (hnot : e.word ∉ words_of g.data) (hfull : (INITIAL_CAPACITY : Int) ≤ g.size) :
    transfer_entry g e = g := by
  have hs : scan_add e.word e.frequency g.data = none := scan_add_eq_none.mpr hnot
  have hroom : ¬ g.size < (INITIAL_CAPACITY : Int) := by omega
  simp [transfer_entry, hs, hroom]

theorem ne_append_singleton (d : List WordFreq) (e : WordFreq) : d ≠ d ++ [e] := by
  intro h
  have := congrArg List.length h
  simp only [List.length_append, List.length_singleton] at this
  omega

/-! ## The ceiling of the shared region -/

theorem transfer_entry_size_le (g : SharedFreqData) (e : WordFreq)
    (h : g.size ≤ (INITIAL_CAPACITY : Int)) :
    (transfer_entry g e).size ≤ (INITIAL_CAPACITY : Int) := by
  unfold transfer_entry
  cases hs : scan_add e.word e.frequency g.data with
  | some d1 =>
    have hlen : d1.length = g.data.length := by
      have := congrArg List.length (words_of_scan_add hs)
      simpa [words_of] using this
    unfold SharedFreqData.size at h ⊢
    simp only [hlen]
    exact h
  | none =>
    by_cases hroom : g.size < (INITIAL_CAPACITY : Int)
    · simp only [hroom, if_true]
      unfold SharedFreqData.size at hroom ⊢
      simp only [List.length_append, List.length_singleton]
      push_cast
      omega
    · simp only [hroom, if_false]
      exact h

theorem transfer_pass_size_le (E : List WordFreq) (g : SharedFreqData)
    (h : g.size ≤ (INITIAL_CAPACITY : Int)) :
    (transfer_pass g E).size ≤ (INITIAL_CAPACITY : Int) := by
  induction E generalizing g with
  | nil => exact h
  | cons e E ih =>
    rw [transfer_pass_cons]
    exact ih _ (transfer_entry_size_le g e h)

theorem stored_count_scan_add {w : Token} {c : Int} {d d1 : List WordFreq}
    (h : scan_add w c d = some d1) :
    stored_count w d1 = (stored_count w d).map (fun x => x + c) := by
  rw [stored_count_eq, stored_count_eq, entries_of_scan_add h]
  simp only [if_true]
  cases hE : entries_of w d with
  | nil =>
    have hnot : w ∉ words_of d := entries_of_eq_nil.mp hE
    rw [scan_add_eq_none.mpr hnot] at h
    cases h
  | cons x rest => simp [bump]

/-- When the transfer steps do not overlap (each runs from its scan to its `size++`
before the next begins, the children one after another), `size` never exceeds the
ceiling after a transfer step, after a whole transfer pass, or after a run of the 8
children; transferring an entry whose token is not stored into a region already at
the ceiling leaves the region as it is; an entry whose token is stored has its count
added (exactly), the stored words staying the same, whatever the size. -/
theorem shared_region_ceiling (g : SharedFreqData) (e : WordFreq)
    (hsize : g.size ≤ (INITIAL_CAPACITY : Int)) :
    (transfer_entry g e).size ≤ (INITIAL_CAPACITY : Int)
      ∧ (∀ E, (transfer_pass g E).size ≤ (INITIAL_CAPACITY : Int))
      ∧ (∀ ws order, order.Perm (List.range NUM_PROCESSES) →
          ∃ s, run_processes ws order = some s ∧ s.size ≤ (INITIAL_CAPACITY : Int))
      ∧ (e.word ∉ words_of g.data → g.size = (INITIAL_CAPACITY : Int) →
          transfer_entry g e = g)
      ∧ (e.word ∈ words_of g.data →
          stored_count e.word (transfer_entry g e).data
              = (stored_count e.word g.data).map (fun x => x + e.frequency)
            ∧ words_of (transfer_entry g e).data = words_of g.data
            ∧ total_frequency (transfer_entry g e).data
              = total_frequency g.data + e.frequency) := by
  refine ⟨transfer_entry_size_le g e hsize, fun E => transfer_pass_size_le E g hsize, ?_, ?_, ?_⟩
  · intro ws order horder
    refine ⟨_, run_children_eq ws order (order_lt_of_perm horder) _, ?_⟩
    exact transfer_pass_size_le _ _ (by decide)
  · intro hnot hfull
    exact transfer_entry_full g e hnot (by omega)
  · intro hmem
    cases hs : scan_add e.word e.frequency g.data with
    | none => exact absurd hmem (scan_add_eq_none.mp hs)
    | some d1 =>
      have hres : (transfer_entry g e).data = d1 := by simp [transfer_entry, hs]
      rw [hres]
      exact ⟨stored_count_scan_add hs, words_of_scan_add hs, total_frequency_scan_add hs⟩

theorem shared_region_ceiling_witness :
    full_region.size ≤ (INITIAL_CAPACITY : Int)
      ∧ full_region.size = (INITIAL_CAPACITY : Int)
      ∧ transfer_entry full_region extra_entry = full_region :=
  ⟨by rw [full_region_size]; decide, by rw [full_region_size]; decide,
    (shared_region_ceiling full_region extra_entry (by rw [full_region_size]; decide)).2.2.2.1
      extra_entry_not_stored (by rw [full_region_size]; decide)⟩


/-! ## One entry per distinct token -/

theorem nodup_find_or_append (d : List WordFreq) (w : Token) (c : Int)
    (hd : (words_of d).Nodup) : (words_of (find_or_append d w c)).Nodup := by
  rw [words_of_find_or_append]
  by_cases hw : w ∈ words_of d
  · simp only [hw, if_true]
    exact hd
  · simp only [hw, if_false]
    rw [List.nodup_append]
    refine ⟨hd, List.nodup_singleton _, ?_⟩
    intro x hx hx2
    rw [List.mem_singleton] at hx2
    subst hx2
    exact hw hx

theorem nodup_find_or_append_all (evs d : List WordFreq) (hd : (words_of d).Nodup) :
    (words_of (find_or_append_all d evs)).Nodup := by
  induction evs generalizing d with
  | nil => exact hd
  | cons e evs ih =>
    have h1 : find_or_append_all d (e :: evs)
        = find_or_append_all (find_or_append d e.word e.frequency) evs := by
      simp [find_or_append_all]
    rw [h1]
    exact ih _ (nodup_find_or_append d e.word e.frequency hd)

/-- C19: one entry per distinct token is an invariant of the pointer-based tables.
Every step of `count_word_frequencies`, of the local aggregation loop and of the merge
loop of `process_word_chunk` maps a table with pairwise distinct words to a table
with pairwise distinct words, and so do the whole loops (the merge loop for every
local table, in particular one with pairwise distinct words). -/
theorem distinct_words_invariant (t : WordFreqArray) (hdistinct : (words_of t.data).Nodup) :
    (∀ w, (words_of (count_word_step t w).data).Nodup)
      ∧ (∀ w, (words_of (local_count_step t w).data).Nodup)
      ∧ (∀ e, (words_of (merge_entry t e).data).Nodup)
      ∧ (∀ ws, (words_of (count_word_frequencies ws t).data).Nodup)
      ∧ (∀ ws : List Token, (words_of (ws.foldl local_count_step t).data).Nodup)
      ∧ (∀ L, (words_of L).Nodup → (words_of (merge_pass t L).data).Nodup) := by
  refine ⟨?_, ?_, ?_, ?_, ?_, ?_⟩
  · intro w
    rw [count_word_step_data]
    exact nodup_find_or_append _ _ _ hdistinct
  · intro w
    rw [local_count_step_data]
    exact nodup_find_or_append _ _ _ hdistinct
  · intro e
    rw [merge_entry_data]
    exact nodup_find_or_append _ _ _ hdistinct
  · intro ws
    rw [count_word_frequencies_data]
    exact nodup_find_or_append_all _ _ hdistinct
  · intro ws
    rw [local_fold_data]
    exact nodup_find_or_append_all _ _ hdistinct
  · intro L _
    rw [merge_pass_data]
    exact nodup_find_or_append_all _ _ hdistinct

theorem distinct_words_invariant_witness :
    (words_of ([⟨['a'], 2⟩, ⟨['b'], 1⟩] : List WordFreq)).Nodup
      ∧ (words_of (merge_entry ⟨[⟨['a'], 2⟩, ⟨['b'], 1⟩], 2⟩ ⟨['c'], 4⟩).data).Nodup :=
  ⟨by decide,
    (distinct_words_invariant ⟨[⟨['a'], 2⟩, ⟨['b'], 1⟩], 2⟩ (by decide)).2.2.1 ⟨['c'], 4⟩⟩

/-! ## `add_word_to_freq_array` and long words -/

theorem truncate_eq_take_min (w : Token) :
    truncate w = w.take (min w.length (MAX_WORD_LENGTH - 1)) := by
  unfold truncate
  by_cases h : w.length ≤ MAX_WORD_LENGTH - 1
  · rw [Nat.min_eq_left h, List.take_of_length_le h, List.take_of_length_le (le_refl _)]
  · rw [Nat.min_eq_right (by omega)]

theorem truncate_short (w : Token) (h : w.length ≤ MAX_WORD_LENGTH - 1) : truncate w = w :=
  List.take_of_length_le h

theorem add_word_data_short (t : WordFreqArray) (w : Token)
    (h : w.length ≤ MAX_WORD_LENGTH - 1) :
    (add_word_to_freq_array t w).data = find_or_append t.data w 1 := by
  rcases add_word_cases t w with ⟨d1, hs, hd⟩ | ⟨hs, hd⟩
  · rw [hd]
    simp [find_or_append, hs]
  · rw [hd, truncate_short w h]
    simp [find_or_append, hs]

/-- For every table with pairwise distinct stored words and every word `w` of at most
59 characters, the table after `add_word_to_freq_array(arr, w)` has pairwise distinct
stored words, and adding `w` a second time increments its entry (counts added
exactly) instead of appending another; a word of any length that is not stored is
appended as its first `min(len, 59)` characters with count 1. -/
theorem add_word_keeps_distinct (t : WordFreqArray) (w : Token)
    (hdistinct : (words_of t.data).Nodup) (hshort : w.length ≤ MAX_WORD_LENGTH - 1) :
    (words_of (add_word_to_freq_array t w).data).Nodup
      ∧ (∀ v, v ∉ words_of t.data →
          (add_word_to_freq_array t v).data
            = t.data ++ [{ word := v.take (min v.length 59), frequency := 1 }])
      ∧ w ∈ words_of (add_word_to_freq_array t w).data
      ∧ words_of (add_word_to_freq_array (add_word_to_freq_array t w) w).data
          = words_of (add_word_to_freq_array t w).data
      ∧ (add_word_to_freq_array (add_word_to_freq_array t w) w).data.length
          = (add_word_to_freq_array t w).data.length
      ∧ stored_count w (add_word_to_freq_array (add_word_to_freq_array t w) w).data
          = (stored_count w (add_word_to_freq_array t w).data).map (fun x => x + 1) := by
  have hmem : w ∈ words_of (add_word_to_freq_array t w).data := by
    rw [add_word_data_short t w hshort, words_of_find_or_append]
    by_cases hw : w ∈ words_of t.data <;> simp [hw]
  have hfound : ∃ d1, scan_add w 1 (add_word_to_freq_array t w).data = some d1
      ∧ (add_word_to_freq_array (add_word_to_freq_array t w) w).data = d1 := by
    rcases add_word_cases (add_word_to_freq_array t w) w with h | ⟨hs, _⟩
    · exact h
    · exact absurd hmem (scan_add_eq_none.mp hs)
  obtain ⟨d1, hs, hd⟩ := hfound
  refine ⟨?_, ?_, hmem, ?_, ?_, ?_⟩
  · rw [add_word_data_short t w hshort]
    exact nodup_find_or_append _ _ _ hdistinct
  · intro v hv
    rcases add_word_cases t v with ⟨d2, hs2, _⟩ | ⟨_, hd2⟩
    · rw [scan_add_eq_none.mpr hv] at hs2
      cases hs2
    · rw [hd2, truncate_eq_take_min]
      rfl
  · rw [hd]
    exact words_of_scan_add hs
  · rw [hd]
    have := congrArg List.length (words_of_scan_add hs)
    simpa [words_of] using this
  · rw [hd]
    exact stored_count_scan_add hs

theorem add_word_keeps_distinct_witness :
    (words_of ([⟨['a'], 2⟩] : List WordFreq)).Nodup
      ∧ (['b'] : Token).length ≤ MAX_WORD_LENGTH - 1
      ∧ stored_count ['b']
          (add_word_to_freq_array (add_word_to_freq_array ⟨[⟨['a'], 2⟩], 4⟩ ['b']) ['b']).data
        = (stored_count ['b'] (add_word_to_freq_array ⟨[⟨['a'], 2⟩], 4⟩ ['b']).data).map
            (fun x => x + 1) :=
  ⟨by decide, by decide,
    (add_word_keeps_distinct ⟨[⟨['a'], 2⟩], 4⟩ ['b'] (by decide) (by decide)).2.2.2.2.2⟩

theorem total_frequency_find_or_append (d : List WordFreq) (w : Token) (c : Int) :
    total_frequency (find_or_append d w c) = total_frequency d + c := by
  unfold find_or_append
  cases hs : scan_add w c d with
  | some d1 => exact total_frequency_scan_add hs
  | none =>
    simp only
    rw [total_frequency_append]
    simp [total_frequency]

theorem frequency_pos_find_or_append (d : List WordFreq) (w : Token) (c : Int) (hc : 1 ≤ c)
    (hd : ∀ e ∈ d, 1 ≤ e.frequency) : ∀ e ∈ find_or_append d w c, 1 ≤ e.frequency := by
  unfold find_or_append
  cases hs : scan_add w c d with
  | some d1 => exact frequency_pos_scan_add hs (by omega) hd
  | none =>
    intro e he
    rcases List.mem_append.mp he with he | he
    · exact hd e he
    · have : e = { word := w, frequency := c } := by simpa using he
      rw [this]
      exact hc

theorem total_frequency_cons (e : WordFreq) (d : List WordFreq) :
    total_frequency (e :: d) = e.frequency + total_frequency d := by
  simp [total_frequency]

theorem find_or_append_all_cons (d : List WordFreq) (e : WordFreq) (evs : List WordFreq) :
    find_or_append_all d (e :: evs)
      = find_or_append_all (find_or_append d e.word e.frequency) evs := rfl

theorem total_frequency_find_or_append_all (evs d : List WordFreq) :
    total_frequency (find_or_append_all d evs) = total_frequency d + total_frequency evs := by
  induction evs generalizing d with
  | nil => simp [find_or_append_all, total_frequency]
  | cons e evs ih =>
    rw [find_or_append_all_cons, ih, total_frequency_find_or_append, total_frequency_cons]
    omega

theorem frequency_pos_find_or_append_all (evs d : List WordFreq)
    (hevs : ∀ e ∈ evs, 1 ≤ e.frequency) (hd : ∀ e ∈ d, 1 ≤ e.frequency) :
    ∀ e ∈ find_or_append_all d evs, 1 ≤ e.frequency := by
  induction evs generalizing d with
  | nil => exact hd
  | cons e evs ih =>
    rw [find_or_append_all_cons]
    exact ih _ (fun x hx => hevs x (by simp [hx]))
      (frequency_pos_find_or_append d e.word e.frequency (hevs e (by simp)) hd)

theorem frequency_le_total (d : List WordFreq) (hd : ∀ e ∈ d, 1 ≤ e.frequency) :
    0 ≤ total_frequency d ∧ ∀ e ∈ d, e.frequency ≤ total_frequency d := by
  induction d with
  | nil => simp [total_frequency]
  | cons x d ih =>
    obtain ⟨h0, hle⟩ := ih (fun e he => hd e (by simp [he]))
    have hx := hd x (by simp)
    rw [total_frequency_cons]
    refine ⟨by omega, ?_⟩
    intro e he
    rcases List.mem_cons.mp he with he | he
    · subst he
      omega
    · have := hle e he
      omega

theorem total_frequency_take_le (d : List WordFreq) (hd : ∀ e ∈ d, 1 ≤ e.frequency)
    (j : Nat) : total_frequency (d.take j) ≤ total_frequency d := by
  have h := total_frequency_append (d.take j) (d.drop j)
  rw [List.take_append_drop] at h
  have h0 := (frequency_le_total (d.drop j)
    (fun e he => hd e (List.mem_of_mem_drop he))).1
  omega

theorem total_frequency_unit_events (ws : List Token) :
    total_frequency (unit_events ws) = (ws.length : Int) := by
  induction ws with
  | nil => rfl
  | cons w ws ih =>
    have : unit_events (w :: ws) = { word := w, frequency := 1 } :: unit_events ws := rfl
    rw [this, total_frequency_cons, ih]
    simp only [List.length_cons]
    push_cast
    omega

theorem unit_events_pos (ws : List Token) : ∀ e ∈ unit_events ws, 1 ≤ e.frequency := by
  intro e he
  obtain ⟨w, _, rfl⟩ := List.mem_map.mp he
  exact le_refl _

theorem counted_pos (ws : List Token) :
    ∀ e ∈ find_or_append_all [] (unit_events ws), 1 ≤ e.frequency :=
  frequency_pos_find_or_append_all _ _ (unit_events_pos ws) (by simp)

theorem counted_total (ws : List Token) :
    total_frequency (find_or_append_all [] (unit_events ws)) = (ws.length : Int) := by
  rw [total_frequency_find_or_append_all, total_frequency_unit_events]
  simp [total_frequency]

theorem count_in_range_of_total (n : Nat) (hn : (n : Int) ≤ 2147483647) (d : List WordFreq)
    (hpos : ∀ e ∈ d, 1 ≤ e.frequency) (htot : total_frequency d ≤ (n : Int)) :
    ∀ e ∈ d, count_in_range n e := by
  intro e he
  have h1 := hpos e he
  have h2 := (frequency_le_total d hpos).2 e he
  refine ⟨h1, by omega, ?_⟩
  unfold wrap_int32
  omega

theorem merge_all_pos (tables : List (List WordFreq)) (d : List WordFreq)
    (ht : ∀ L ∈ tables, ∀ e ∈ L, 1 ≤ e.frequency) (hd : ∀ e ∈ d, 1 ≤ e.frequency) :
    ∀ e ∈ merge_all d tables, 1 ≤ e.frequency := by
  induction tables generalizing d with
  | nil => exact hd
  | cons L tables ih =>
    have h1 : merge_all d (L :: tables) = merge_all (find_or_append_all d L) tables := rfl
    rw [h1]
    exact ih _ (fun M hM => ht M (by simp [hM]))
      (frequency_pos_find_or_append_all L d (ht L (by simp)) hd)

theorem merge_all_total (tables : List (List WordFreq)) (d : List WordFreq) :
    total_frequency (merge_all d tables)
      = total_frequency d + (tables.map total_frequency).sum := by
  induction tables generalizing d with
  | nil => simp [merge_all]
  | cons L tables ih =>
    have h1 : merge_all d (L :: tables) = merge_all (find_or_append_all d L) tables := rfl
    rw [h1, ih, total_frequency_find_or_append_all, List.map_cons, List.sum_cons]
    omega

theorem local_table_total (ws : List Token) (i : Nat) :
    total_frequency (local_table ws i) = ((chunk ws i).length : Int) :=
  counted_total _

theorem local_tables_total (ws : List Token) (l : List Nat) :
    ((l.map (local_table ws)).map total_frequency).sum
      = (((l.map (fun i => (chunk ws i).length)).sum : Nat) : Int) := by
  induction l with
  | nil => simp
  | cons i l ih =>
    simp only [List.map_cons, List.sum_cons, ih, local_table_total]
    push_cast
    rfl

theorem slice_length_le (ws : List Token) (a b : Nat) : (slice ws a b).length ≤ ws.length :=
  (slice_sublist ws a b).length_le

theorem local_count_chunk (ws : List Token) (i : Nat) (hi : i < NUM_THREADS) :
    ∃ loc, local_count ws (chunk_start NUM_THREADS ws.length i)
        (chunk_end NUM_THREADS ws.length i) = some loc
      ∧ loc.data = local_table ws i := by
  have hle := chunk_start_le_end NUM_THREADS ws.length i
  have hn : chunk_end NUM_THREADS ws.length i ≤ ws.length := chunk_end_le_total ws.length i hi
  refine ⟨_, local_count_eq ws _ _ hle hn, ?_⟩
  rw [local_fold_data]
  rfl

/-- C18: counts are never negative and never overflow.  For every token sequence of
length `n ≤ 2^31 - 1`, every count stored at any point of the naive loop (after any
number of tokens), of the local aggregation of a worker (after any part of its
chunk) and of the shared table of the threaded pipeline (after any number of
complete merge passes, in any order of the workers, and any number of steps of the
next pass) is at least 1, at most `n`, and equal to its own 32-bit value, so no
increment or addition of counts wraps around. -/
theorem counts_stay_in_range (ws : List Token) (hn : (ws.length : Int) ≤ 2147483647) :
    (∀ i, ∀ e ∈ (count_word_frequencies (ws.take i) create_word_freq_array).data,
        count_in_range ws.length e)
      ∧ (∀ w m, w < NUM_THREADS → chunk_start NUM_THREADS ws.length w ≤ m →
          m ≤ chunk_end NUM_THREADS ws.length w →
          ∃ loc, local_count ws (chunk_start NUM_THREADS ws.length w) m = some loc
            ∧ ∀ e ∈ loc.data, count_in_range ws.length e)
      ∧ (∀ order done cur rest j, order.Perm (List.range NUM_THREADS) →
          order = done ++ cur :: rest →
          ∃ t loc, run_threads ws done = some t
            ∧ local_count ws (chunk_start NUM_THREADS ws.length cur)
                (chunk_end NUM_THREADS ws.length cur) = some loc
            ∧ ∀ e ∈ (merge_pass t (loc.data.take j)).data, count_in_range ws.length e) := by
  refine ⟨?_, ?_, ?_⟩
  · intro i
    rw [count_word_frequencies_data]
    refine count_in_range_of_total _ hn _ (counted_pos _) ?_
    have h0 : create_word_freq_array.data = [] := rfl
    rw [h0, counted_total]
    have : (ws.take i).length ≤ ws.length := (List.take_sublist i ws).length_le
    exact_mod_cast this
  · intro w m hw h1 h2
    have hle : m ≤ ws.length := le_trans h2 (chunk_end_le_total ws.length w hw)
    refine ⟨_, local_count_eq ws _ m h1 hle, ?_⟩
    rw [local_fold_data]
    refine count_in_range_of_total _ hn _ (counted_pos _) ?_
    rw [counted_total]
    have := slice_length_le ws (chunk_start NUM_THREADS ws.length w) m
    exact_mod_cast this
  · intro order done cur rest j horder hsplit
    have hlt := order_lt_of_perm horder
    have hdone : ∀ i ∈ done, i < NUM_THREADS := by
      intro i hi
      exact hlt i (by rw [hsplit]; simp [hi])
    have hcur : cur < NUM_THREADS := hlt cur (by rw [hsplit]; simp)
    obtain ⟨t, ht, htd⟩ := run_workers_eq ws done hdone create_word_freq_array
    obtain ⟨loc, hloc, hld⟩ := local_count_chunk ws cur hcur
    refine ⟨t, loc, ht, hloc, ?_⟩
    have h0 : create_word_freq_array.data = [] := rfl
    rw [h0] at htd
    rw [merge_pass_data, htd, hld]
    have hpos_t : ∀ e ∈ merge_all [] (done.map (local_table ws)), 1 ≤ e.frequency := by
      refine merge_all_pos _ _ ?_ (by simp)
      intro L hL
      obtain ⟨i, _, rfl⟩ := List.mem_map.mp hL
      exact counted_pos _
    have hpos_l : ∀ e ∈ local_table ws cur, 1 ≤ e.frequency := counted_pos _
    refine count_in_range_of_total _ hn _
      (frequency_pos_find_or_append_all _ _
        (fun e he => hpos_l e (List.mem_of_mem_take he)) hpos_t) ?_
    rw [total_frequency_find_or_append_all, merge_all_total, local_tables_total]
    have htake := total_frequency_take_le (local_table ws cur) hpos_l j
    rw [local_table_total] at htake
    have hsum := length_chunks_perm ws order horder
    rw [hsplit, List.map_append, List.sum_append, List.map_cons, List.sum_cons] at hsum
    have hz : total_frequency ([] : List WordFreq) = 0 := rfl
    rw [hz]
    have hnat : (List.map (fun i => (chunk ws i).length) done).sum + (chunk ws cur).length
        ≤ ws.length := by omega
    have hint : (((List.map (fun i => (chunk ws i).length) done).sum : Nat) : Int)
        + ((chunk ws cur).length : Int) ≤ (ws.length : Int) := by exact_mod_cast hnat
    omega

theorem counts_stay_in_range_witness :
    ((([['a'], ['b'], ['a']] : List Token).length : Int) ≤ 2147483647)
      ∧ ∀ i, ∀ e ∈ (count_word_frequencies (([['a'], ['b'], ['a']] : List Token).take i)
            create_word_freq_array).data,
          count_in_range ([['a'], ['b'], ['a']] : List Token).length e :=
  ⟨by decide, (counts_stay_in_range [['a'], ['b'], ['a']] (by decide)).1⟩


/-! ## The range of `merge_sort` -/

theorem sort_run_depth_irrelevant (d1 d2 : Nat) (X : List WordFreq)
    (h1 : X.length ≤ d1) (h2 : X.length ≤ d2) : sort_run d1 X = sort_run d2 X := by
  induction d1 generalizing d2 X with
  | zero =>
    have hX : X = [] := List.length_eq_zero.mp (by omega)
    subst hX
    cases d2 <;> simp [sort_run]
  | succ d1 ih =>
    cases d2 with
    | zero =>
      have hX : X = [] := List.length_eq_zero.mp (by omega)
      subst hX
      simp [sort_run]
    | succ d2 =>
      simp only [sort_run]
      split
      · rfl
      · rw [ih d2 (X.take ((X.length - 1) / 2 + 1)) (by rw [List.length_take]; omega)
            (by rw [List.length_take]; omega),
          ih d2 (X.drop ((X.length - 1) / 2 + 1)) (by rw [List.length_drop]; omega)
            (by rw [List.length_drop]; omega)]

theorem parts_of_range (arr : List WordFreq) (l r : Nat) (hlr : l ≤ r + 1)
    (hr : r < arr.length) :
    arr = arr.take l ++ segment arr l r ++ arr.drop (r + 1)
      ∧ (arr.take l).length = l ∧ (segment arr l r).length = r + 1 - l := by
  refine ⟨?_, ?_, ?_⟩
  · have h1 : arr.drop (r + 1) = (arr.drop l).drop (r + 1 - l) := by
      rw [List.drop_drop]
      congr 1
      omega
    unfold segment
    rw [h1, List.append_assoc, List.take_append_drop, List.take_append_drop]
  · rw [List.length_take]
    omega
  · unfold segment
    rw [List.length_take, List.length_drop]
    omega

theorem getElem?_parts_outside (P X S Q : List WordFreq) (hlen : S.length = X.length)
    (k : Nat) (hk : k < P.length ∨ P.length + X.length ≤ k) :
    (P ++ S ++ Q)[k]? = (P ++ X ++ Q)[k]? := by
  rcases hk with hk | hk
  · rw [List.append_assoc, List.append_assoc, List.getElem?_append_left hk,
      List.getElem?_append_left hk]
  · rw [List.getElem?_append_right (by rw [List.length_append]; omega),
      List.getElem?_append_right (by rw [List.length_append]; omega)]
    simp only [List.length_append, hlen]

theorem getElem?_parts_inside (P P2 S Q Q2 : List WordFreq) (hP : P2.length = P.length)
    (k : Nat) (hk1 : P.length ≤ k) (hk : k < P.length + S.length) :
    (P2 ++ S ++ Q2)[k]? = (P ++ S ++ Q)[k]? := by
  have e1 : (P2 ++ S ++ Q2)[k]? = (P2 ++ S)[k]? :=
    List.getElem?_append_left (by rw [List.length_append]; omega)
  have e2 : (P ++ S ++ Q)[k]? = (P ++ S)[k]? :=
    List.getElem?_append_left (by rw [List.length_append]; omega)
  have e3 : (P2 ++ S)[k]? = S[k - P2.length]? := List.getElem?_append_right (by omega)
  have e4 : (P ++ S)[k]? = S[k - P.length]? := List.getElem?_append_right hk1
  rw [e1, e2, e3, e4, hP]

theorem segment_eq_of_agree (arr arr2 : List WordFreq) (l r : Nat)
    (h : ∀ k, l ≤ k → k ≤ r → arr2[k]? = arr[k]?) : segment arr2 l r = segment arr l r := by
  apply List.ext_getElem?
  intro n
  unfold segment
  rw [List.getElem?_take, List.getElem?_take]
  by_cases hn : n < r + 1 - l
  · simp only [hn, if_true, List.getElem?_drop]
    exact h (l + n) (by omega) (by omega)
  · simp only [hn, if_false]

theorem merge_sort_depth_of_ge (depth : Nat) (arr : List WordFreq) (left right : Int)
    (h : left ≥ right) : merge_sort_depth depth arr left right = arr := by
  cases depth with
  | zero => rfl
  | succ depth => simp [merge_sort_depth, h]

/-- The result of `merge_sort` on a range inside the array, at every depth bound that
is at least the length of the range. -/
theorem merge_sort_depth_range (depth : Nat) (arr : List WordFreq) (l r : Nat)
    (hlr : l ≤ r) (hr : r < arr.length) (hd : r + 1 - l ≤ depth) :
    merge_sort_depth depth arr (l : Int) (r : Int)
      = arr.take l ++ sort_run (r + 1 - l) (segment arr l r) ++ arr.drop (r + 1) := by
  obtain ⟨harr, hP, hX⟩ := parts_of_range arr l r (by omega) hr
  have hright : (r : Int) = ((arr.take l).length : Int) + (segment arr l r).length - 1 := by
    rw [hP, hX]
    omega
  have hcall : merge_sort_depth depth arr (l : Int) (r : Int)
      = merge_sort_depth depth (arr.take l ++ segment arr l r ++ arr.drop (r + 1))
          ((arr.take l).length : Int)
          (((arr.take l).length : Int) + (segment arr l r).length - 1) := by
    rw [← harr, ← hright, hP]
  rw [hcall, merge_sort_depth_eq_run,
    sort_run_depth_irrelevant depth (r + 1 - l) _ (by rw [hX]; exact hd) (by rw [hX])]

theorem merge_range (arr : List WordFreq) (l m r : Nat) (hlm : l ≤ m) (hmr : m < r)
    (hr : r < arr.length) :
    merge arr (l : Int) (m : Int) (r : Int)
      = arr.take l ++ merge_loop (r + 1 - l) (segment arr l m) (segment arr (m + 1) r)
          ++ arr.drop (r + 1) := by
  obtain ⟨h1, hP1, hX1⟩ := parts_of_range arr l m (by omega) (by omega)
  obtain ⟨h2, hP2, hX2⟩ := parts_of_range arr (m + 1) r (by omega) hr
  have htake : arr.take (m + 1) = arr.take l ++ segment arr l m := by
    have h3 : arr.take (m + 1)
        = (arr.take l ++ segment arr l m ++ arr.drop (m + 1)).take (m + 1) := by
      rw [← h1]
    rw [h3]
    exact List.take_left' (by rw [List.length_append, hP1, hX1]; omega)
  have harr : arr
      = arr.take l ++ segment arr l m ++ segment arr (m + 1) r ++ arr.drop (r + 1) := by
    rw [← htake]
    exact h2
  have hmid : (m : Int) = ((arr.take l).length : Int) + (segment arr l m).length - 1 := by
    rw [hP1, hX1]
    omega
  have hright : (r : Int) = ((arr.take l).length : Int) + (segment arr l m).length
      + (segment arr (m + 1) r).length - 1 := by
    rw [hP1, hX1, hX2]
    omega
  have hfuel : (segment arr l m).length + (segment arr (m + 1) r).length = r + 1 - l := by
    rw [hX1, hX2]
    omega
  have hcall : merge arr (l : Int) (m : Int) (r : Int)
      = merge (arr.take l ++ segment arr l m ++ segment arr (m + 1) r ++ arr.drop (r + 1))
          ((arr.take l).length : Int)
          (((arr.take l).length : Int) + (segment arr l m).length - 1)
          (((arr.take l).length : Int) + (segment arr l m).length
            + (segment arr (m + 1) r).length - 1) := by
    rw [← harr, ← hmid, ← hright, hP1]
  rw [hcall, merge_parts, hfuel]


theorem range_frame (arr S : List WordFreq) (l r : Nat) (hlr : l ≤ r) (hr : r < arr.length)
    (hS : S.length = r + 1 - l) :
    (arr.take l ++ S ++ arr.drop (r + 1)).length = arr.length
      ∧ ∀ k, (k < l ∨ r < k) → (arr.take l ++ S ++ arr.drop (r + 1))[k]? = arr[k]? := by
  obtain ⟨harr, hP, hX⟩ := parts_of_range arr l r (by omega) hr
  constructor
  · simp only [List.length_append, List.length_take, List.length_drop, hS]
    omega
  · intro k hk
    have h := getElem?_parts_outside (arr.take l) (segment arr l r) S (arr.drop (r + 1))
      (by rw [hS, hX]) k (by rw [hP, hX]; omega)
    rw [h, ← harr]

theorem range_inside (arr arr2 S : List WordFreq) (l r : Nat) (hlr : l ≤ r)
    (hr : r < arr.length) (hlen : arr2.length = arr.length) (hS : S.length = r + 1 - l) :
    ∀ k, l ≤ k → k ≤ r →
      (arr2.take l ++ S ++ arr2.drop (r + 1))[k]? = (arr.take l ++ S ++ arr.drop (r + 1))[k]? := by
  intro k hk1 hk2
  have hP : (arr.take l).length = l := by rw [List.length_take]; omega
  have hP2 : (arr2.take l).length = l := by rw [List.length_take]; omega
  exact getElem?_parts_inside (arr.take l) (arr2.take l) S (arr.drop (r + 1))
    (arr2.drop (r + 1)) (by rw [hP, hP2]) k (by rw [hP]; exact hk1) (by rw [hP, hS]; omega)

theorem merge_sort_range (arr : List WordFreq) (l r : Nat) (hlr : l ≤ r)
    (hr : r < arr.length) :
    merge_sort arr (l : Int) (r : Int)
      = arr.take l ++ sort_run (r + 1 - l) (segment arr l r) ++ arr.drop (r + 1) := by
  unfold merge_sort
  exact merge_sort_depth_range _ arr l r hlr hr (by omega)

theorem merge_loop_length (fuel : Nat) (xs ys : List WordFreq) :
    (merge_loop fuel xs ys).length = xs.length + ys.length := by
  rw [(merge_loop_perm fuel xs ys).length_eq, List.length_append]

/-- C24: `merge_sort` terminates and stays inside its range.  For every `left`,
`right` with `0 ≤ left` and `right < D`: when `left < right` the midpoint satisfies
`left ≤ mid < right` and both recursive calls get strictly shorter ranges; every
depth bound of at least `right - left + 1` gives the same result; the result has
`D` entries, those outside `[left, right]` unchanged, and its entries inside
`[left, right]` depend only on the entries of `arr` inside `[left, right]`; the same
holds for one call of `merge`, and for `merge_sort_word_freq` and `merge_word_freq`,
which compute the same arrays. -/
theorem merge_sort_stays_in_range (arr : List WordFreq) (left right : Int)
    (hleft : 0 ≤ left) (hright : right < (arr.length : Int)) :
    (left < right →
        left ≤ left + (right - left) / 2 ∧ left + (right - left) / 2 < right
          ∧ (left + (right - left) / 2) - left + 1 < right - left + 1
          ∧ right - (left + (right - left) / 2 + 1) + 1 < right - left + 1)
      ∧ (∀ depth, (right - left + 1).toNat ≤ depth →
          merge_sort_depth depth arr left right = merge_sort arr left right)
      ∧ (merge_sort arr left right).length = arr.length
      ∧ (∀ k : Nat, ((k : Int) < left ∨ right < (k : Int)) →
          (merge_sort arr left right)[k]? = arr[k]?)
      ∧ (∀ arr2 : List WordFreq, arr2.length = arr.length →
          (∀ k : Nat, left ≤ (k : Int) → (k : Int) ≤ right → arr2[k]? = arr[k]?) →
          ∀ k : Nat, left ≤ (k : Int) → (k : Int) ≤ right →
            (merge_sort arr2 left right)[k]? = (merge_sort arr left right)[k]?)
      ∧ (∀ mid : Int, left ≤ mid → mid < right →
          (merge arr left mid right).length = arr.length
            ∧ (∀ k : Nat, ((k : Int) < left ∨ right < (k : Int)) →
                (merge arr left mid right)[k]? = arr[k]?)
            ∧ (∀ arr2 : List WordFreq, arr2.length = arr.length →
                (∀ k : Nat, left ≤ (k : Int) → (k : Int) ≤ right → arr2[k]? = arr[k]?) →
                ∀ k : Nat, left ≤ (k : Int) → (k : Int) ≤ right →
                  (merge arr2 left mid right)[k]? = (merge arr left mid right)[k]?))
      ∧ merge_sort_word_freq arr left right = merge_sort arr left right
      ∧ (∀ mid, merge_word_freq arr left mid right = merge arr left mid right) := by
  refine ⟨fun h => by omega, ?_, ?_, ?_, ?_, ?_, merge_sort_word_freq_eq arr left right,
    fun mid => rfl⟩
  · intro depth hd
    by_cases hlr : left ≤ right
    · lift left to Nat using hleft with l
      lift right to Nat using (by omega) with r
      have hlr2 : l ≤ r := by omega
      have hr : r < arr.length := by omega
      rw [merge_sort_range arr l r hlr2 hr,
        merge_sort_depth_range depth arr l r hlr2 hr (by omega)]
    · unfold merge_sort
      rw [merge_sort_depth_of_ge _ _ _ _ (by omega), merge_sort_depth_of_ge _ _ _ _ (by omega)]
  · by_cases hlr : left ≤ right
    · lift left to Nat using hleft with l
      lift right to Nat using (by omega) with r
      have hlr2 : l ≤ r := by omega
      have hr : r < arr.length := by omega
      rw [merge_sort_range arr l r hlr2 hr]
      exact (range_frame arr _ l r hlr2 hr (by rw [sort_run_length,
        (parts_of_range arr l r (by omega) hr).2.2])).1
    · unfold merge_sort
      rw [merge_sort_depth_of_ge _ _ _ _ (by omega)]
  · intro k hk
    by_cases hlr : left ≤ right
    · lift left to Nat using hleft with l
      lift right to Nat using (by omega) with r
      have hlr2 : l ≤ r := by omega
      have hr : r < arr.length := by omega
      rw [merge_sort_range arr l r hlr2 hr]
      exact (range_frame arr _ l r hlr2 hr (by rw [sort_run_length,
        (parts_of_range arr l r (by omega) hr).2.2])).2 k (by omega)
    · unfold merge_sort
      rw [merge_sort_depth_of_ge _ _ _ _ (by omega)]
  · intro arr2 hlen hagree k hk1 hk2
    have hlr : left ≤ right := le_trans hk1 hk2
    lift left to Nat using hleft with l
    lift right to Nat using (by omega) with r
    have hlr2 : l ≤ r := by omega
    have hr : r < arr.length := by omega
    have hseg : segment arr2 l r = segment arr l r :=
      segment_eq_of_agree arr arr2 l r
        (fun j hj1 hj2 => hagree j (by omega) (by omega))
    rw [merge_sort_range arr l r hlr2 hr, merge_sort_range arr2 l r hlr2 (by omega), hseg]
    exact range_inside arr arr2 _ l r hlr2 hr hlen (by rw [sort_run_length,
      (parts_of_range arr l r (by omega) hr).2.2]) k (by omega) (by omega)
  · intro mid hm1 hm2
    lift left to Nat using hleft with l
    lift mid to Nat using (by omega) with m
    lift right to Nat using (by omega) with r
    have hlm : l ≤ m := by omega
    have hmr : m < r := by omega
    have hr : r < arr.length := by omega
    have hS : ∀ a : List WordFreq, a.length = arr.length →
        (merge_loop (r + 1 - l) (segment a l m) (segment a (m + 1) r)).length = r + 1 - l := by
      intro a ha
      rw [merge_loop_length, (parts_of_range a l m (by omega) (by omega)).2.2,
        (parts_of_range a (m + 1) r (by omega) (by omega)).2.2]
      omega
    refine ⟨?_, ?_, ?_⟩
    · rw [merge_range arr l m r hlm hmr hr]
      exact (range_frame arr _ l r (by omega) hr (hS arr rfl)).1
    · intro k hk
      rw [merge_range arr l m r hlm hmr hr]
      exact (range_frame arr _ l r (by omega) hr (hS arr rfl)).2 k (by omega)
    · intro arr2 hlen hagree k hk1 hk2
      have hseg1 : segment arr2 l m = segment arr l m :=
        segment_eq_of_agree arr arr2 l m
          (fun j hj1 hj2 => hagree j (by omega) (by omega))
      have hseg2 : segment arr2 (m + 1) r = segment arr (m + 1) r :=
        segment_eq_of_agree arr arr2 (m + 1) r
          (fun j hj1 hj2 => hagree j (by omega) (by omega))
      rw [merge_range arr l m r hlm hmr hr, merge_range arr2 l m r hlm hmr (by omega),
        hseg1, hseg2]
      exact range_inside arr arr2 _ l r (by omega) hr hlen (hS arr rfl) k (by omega)
        (by omega)

theorem merge_sort_stays_in_range_witness :
    (0 : Int) ≤ 1
      ∧ (2 : Int) < (([⟨['a'], 9⟩, ⟨['b'], 1⟩, ⟨['c'], 5⟩, ⟨['d'], 7⟩] : List WordFreq).length : Int)
      ∧ merge_sort [⟨['a'], 9⟩, ⟨['b'], 1⟩, ⟨['c'], 5⟩, ⟨['d'], 7⟩] 1 2
          = [⟨['a'], 9⟩, ⟨['c'], 5⟩, ⟨['b'], 1⟩, ⟨['d'], 7⟩]
      ∧ (merge_sort [⟨['a'], 9⟩, ⟨['b'], 1⟩, ⟨['c'], 5⟩, ⟨['d'], 7⟩] 1 2).length
          = ([⟨['a'], 9⟩, ⟨['b'], 1⟩, ⟨['c'], 5⟩, ⟨['d'], 7⟩] : List WordFreq).length :=
  ⟨by decide, by decide, by decide,
    (merge_sort_stays_in_range [⟨['a'], 9⟩, ⟨['b'], 1⟩, ⟨['c'], 5⟩, ⟨['d'], 7⟩] 1 2
      (by decide) (by decide)).2.2.1⟩


/-! ## Growing a table -/

theorem count_word_step_eq_merge_entry (t : WordFreqArray) (w : Token) :
    count_word_step t w = merge_entry t { word := w, frequency := 1 } := rfl

theorem count_word_frequencies_eq_merge_pass (ws : List Token) (t : WordFreqArray) :
    count_word_frequencies ws t = merge_pass t (unit_events ws) := by
  unfold count_word_frequencies merge_pass unit_events
  rw [List.foldl_map]
  rfl

theorem merge_pass_append (t : WordFreqArray) (A B : List WordFreq) :
    merge_pass (merge_pass t A) B = merge_pass t (A ++ B) := by
  simp [merge_pass, List.foldl_append]

theorem merge_pass_cons (t : WordFreqArray) (e : WordFreq) (E : List WordFreq) :
    merge_pass t (e :: E) = merge_pass (merge_entry t e) E := rfl

theorem merge_entry_length_le (t : WordFreqArray) (e : WordFreq) :
    t.data.length ≤ (merge_entry t e).data.length := by
  rcases merge_entry_cases t e with ⟨d1, hs, hd⟩ | ⟨_, hd⟩
  · rw [hd]
    have := congrArg List.length (words_of_scan_add hs)
    simp only [words_of, List.length_map] at this
    simp only
    omega
  · rw [hd, List.length_append]
    omega

theorem merge_pass_length_le (E : List WordFreq) (t : WordFreqArray) :
    t.data.length ≤ (merge_pass t E).data.length := by
  induction E generalizing t with
  | nil => exact le_refl _
  | cons e E ih =>
    rw [merge_pass_cons]
    exact le_trans (merge_entry_length_le t e) (ih _)

/-- One find-or-append step keeps `size ≤ capacity` when a resize, if one is needed,
starts from a capacity of at least 1 whose double fits an `int`. -/
theorem merge_entry_sized (t : WordFreqArray) (e : WordFreq) (hsize : t.size ≤ t.capacity)
    (hfit : t.size ≥ t.capacity → 1 ≤ t.capacity ∧ fits_int32 (t.capacity * GROWTH_FACTOR)) :
    (merge_entry t e).size ≤ (merge_entry t e).capacity := by
  unfold merge_entry
  cases hs : scan_add e.word e.frequency t.data with
  | some d1 =>
    have hlen : d1.length = t.data.length := by
      have := congrArg List.length (words_of_scan_add hs)
      simpa [words_of] using this
    unfold WordFreqArray.size at hsize ⊢
    simp only [hlen]
    exact hsize
  | none =>
    by_cases hfull : t.size ≥ t.capacity
    · obtain ⟨h1, h2, h3⟩ := hfit hfull
      simp only [hfull, if_true, resize_word_freq_array]
      unfold WordFreqArray.size at hsize hfull ⊢
      simp only [List.length_append, List.length_singleton, GROWTH_FACTOR] at h2 h3 ⊢
      unfold wrap_int32
      push_cast at h2 h3 ⊢
      omega
    · simp only [hfull, if_false]
      unfold WordFreqArray.size at hfull ⊢
      simp only [List.length_append, List.length_singleton]
      push_cast
      omega

theorem merge_entry_well_sized (t : WordFreqArray) (e : WordFreq) (ht : well_sized t)
    (hlen : (merge_entry t e).data.length ≤ LARGEST_CAPACITY) :
    well_sized (merge_entry t e) := by
  obtain ⟨hsize, hcap⟩ := ht
  rcases merge_entry_cases t e with ⟨d1, hs, hd⟩ | ⟨hs, hd⟩
  · have hl : d1.length = t.data.length := by
      have := congrArg List.length (words_of_scan_add hs)
      simpa [words_of] using this
    rw [hd]
    unfold well_sized WordFreqArray.size
    unfold WordFreqArray.size at hsize
    simp only [hl]
    exact ⟨hsize, hcap⟩
  · rw [hd, List.length_append, List.length_singleton] at hlen
    unfold merge_entry
    simp only [hs]
    unfold WordFreqArray.size at hsize
    unfold LARGEST_CAPACITY at hlen
    by_cases hfull : t.size ≥ t.capacity
    · simp only [hfull, if_true, resize_word_freq_array]
      unfold well_sized WordFreqArray.size
      unfold WordFreqArray.size at hfull
      simp only [List.length_append, List.length_singleton, GROWTH_FACTOR]
      unfold wrap_int32
      unfold doubled_capacity at hcap ⊢
      push_cast
      omega
    · simp only [hfull, if_false]
      unfold well_sized WordFreqArray.size
      unfold WordFreqArray.size at hfull
      simp only [List.length_append, List.length_singleton]
      push_cast
      exact ⟨by omega, hcap⟩

theorem merge_pass_well_sized (E : List WordFreq) (t : WordFreqArray) (ht : well_sized t)
    (hlen : (merge_pass t E).data.length ≤ LARGEST_CAPACITY) :
    well_sized (merge_pass t E) := by
  induction E generalizing t with
  | nil => exact ht
  | cons e E ih =>
    rw [merge_pass_cons] at hlen ⊢
    exact ih _ (merge_entry_well_sized t e ht
      (le_trans (merge_pass_length_le E _) hlen)) hlen

theorem create_well_sized : well_sized create_word_freq_array := by
  unfold well_sized doubled_capacity create_word_freq_array WordFreqArray.size INITIAL_CAPACITY
  simp


theorem thread_worker_struct (ws : List Token) (shared : WordFreqArray) (i : Nat)
    (hi : i < NUM_THREADS) :
    thread_worker ws shared i = some (merge_pass shared (local_table ws i)) := by
  obtain ⟨loc, hloc, hld⟩ := local_count_chunk ws i hi
  unfold thread_worker process_word_chunk
  rw [hloc, Option.map_some', hld]

theorem run_workers_struct (ws : List Token) (order : List Nat)
    (horder : ∀ i ∈ order, i < NUM_THREADS) (shared : WordFreqArray) :
    order.foldlM (thread_worker ws) shared
      = some (merge_pass shared (order.flatMap (local_table ws))) := by
  induction order generalizing shared with
  | nil => rfl
  | cons i order ih =>
    rw [List.foldlM_cons, thread_worker_struct ws shared i (horder i (by simp))]
    simp only [Option.some_bind, Option.bind_eq_bind]
    rw [ih (fun j hj => horder j (by simp [hj])), merge_pass_append, List.flatMap_cons]

theorem words_of_find_or_append_all_subset (E d : List WordFreq) :
    ∀ x ∈ words_of (find_or_append_all d E), x ∈ words_of d ∨ x ∈ words_of E := by
  induction E generalizing d with
  | nil =>
    intro x hx
    exact Or.inl hx
  | cons e E ih =>
    intro x hx
    rw [find_or_append_all_cons] at hx
    rcases ih _ x hx with h | h
    · rw [words_of_find_or_append] at h
      by_cases he : e.word ∈ words_of d
      · simp only [he, if_true] at h
        exact Or.inl h
      · simp only [he, if_false, List.mem_append, List.mem_singleton] at h
        rcases h with h | h
        · exact Or.inl h
        · right
          rw [h]
          simp [words_of]
    · right
      simp only [words_of, List.map_cons, List.mem_cons]
      exact Or.inr h

theorem length_le_distinct (ws : List Token) (d : List WordFreq)
    (hnd : (words_of d).Nodup) (hsub : ∀ x ∈ words_of d, x ∈ ws) :
    d.length ≤ ws.dedup.length := by
  have hsub2 : words_of d ⊆ ws.dedup := fun x hx => List.mem_dedup.mpr (hsub x hx)
  have := (List.Nodup.subperm hnd hsub2).length_le
  simpa [words_of] using this

/-- Every table that find-or-append builds from the empty table out of entries whose
words are tokens of `ws` is within its capacity, when `ws` has at most
`LARGEST_CAPACITY` distinct tokens. -/
theorem reachable_well_sized (ws : List Token) (E : List WordFreq)
    (hE : ∀ e ∈ E, e.word ∈ ws) (hcap : ws.dedup.length ≤ LARGEST_CAPACITY) :
    well_sized (merge_pass create_word_freq_array E) := by
  refine merge_pass_well_sized E _ create_well_sized ?_
  rw [merge_pass_data]
  have h0 : create_word_freq_array.data = [] := rfl
  rw [h0]
  refine le_trans (length_le_distinct ws _ (nodup_find_or_append_all E [] (by simp [words_of]))
    ?_) hcap
  intro x hx
  rcases words_of_find_or_append_all_subset E [] x hx with h | h
  · simp [words_of] at h
  · obtain ⟨e, he, rfl⟩ := List.mem_map.mp h
    exact hE e he

theorem local_table_words (ws : List Token) (i : Nat) :
    ∀ e ∈ local_table ws i, e.word ∈ ws := by
  intro e he
  have h1 : e.word ∈ words_of (local_table ws i) := List.mem_map.mpr ⟨e, he, rfl⟩
  have h2 : e.word ∈ chunk ws i := (mem_words_of_counted _ _).mp h1
  exact (slice_sublist ws _ _).subset h2

/-- C23: growing a table loses no data.  Whenever `capacity * 2` fits a signed 32-bit
`int`, `resize_word_freq_array` exactly doubles the capacity and leaves the size and
every stored entry as they are.  An insertion step of `count_word_frequencies` or of
the thread merge pass leaves `size ≤ capacity` when it starts from `size ≤ capacity`
and its resize, if one is needed, doubles a capacity of at least 1 within `int`; and
for every input with at most `LARGEST_CAPACITY` distinct tokens `size ≤ capacity`
holds at every point of the naive loop and of the threaded merge passes. -/
theorem resize_keeps_data (arr : WordFreqArray)
    (hfit : fits_int32 (arr.capacity * GROWTH_FACTOR)) :
    (resize_word_freq_array arr).capacity = arr.capacity * 2
      ∧ (resize_word_freq_array arr).data = arr.data
      ∧ (resize_word_freq_array arr).size = arr.size
      ∧ (arr.size ≤ arr.capacity → 1 ≤ arr.capacity →
          (∀ w, (count_word_step arr w).size ≤ (count_word_step arr w).capacity)
            ∧ (∀ e, (merge_entry arr e).size ≤ (merge_entry arr e).capacity))
      ∧ (∀ ws : List Token, ws.dedup.length ≤ LARGEST_CAPACITY →
          (∀ i, (count_word_frequencies (ws.take i) create_word_freq_array).size
              ≤ (count_word_frequencies (ws.take i) create_word_freq_array).capacity)
            ∧ (∀ order done cur rest j, order.Perm (List.range NUM_THREADS) →
                order = done ++ cur :: rest →
                ∃ t loc, run_threads ws done = some t
                  ∧ local_count ws (chunk_start NUM_THREADS ws.length cur)
                      (chunk_end NUM_THREADS ws.length cur) = some loc
                  ∧ (merge_pass t (loc.data.take j)).size
                      ≤ (merge_pass t (loc.data.take j)).capacity)) := by
  refine ⟨?_, rfl, rfl, ?_, ?_⟩
  · obtain ⟨h1, h2⟩ := hfit
    simp only [resize_word_freq_array, GROWTH_FACTOR] at h1 h2 ⊢
    unfold wrap_int32
    push_cast at h1 h2 ⊢
    omega
  · intro hsize hcap
    constructor
    · intro w
      rw [count_word_step_eq_merge_entry]
      exact merge_entry_sized arr _ hsize (fun _ => ⟨hcap, hfit⟩)
    · intro e
      exact merge_entry_sized arr e hsize (fun _ => ⟨hcap, hfit⟩)
  · intro ws hcap
    constructor
    · intro i
      rw [count_word_frequencies_eq_merge_pass]
      refine (reachable_well_sized ws _ ?_ hcap).1
      intro e he
      obtain ⟨w, hw, rfl⟩ := List.mem_map.mp he
      exact List.mem_of_mem_take hw
    · intro order done cur rest j horder hsplit
      have hlt := order_lt_of_perm horder
      have hdone : ∀ i ∈ done, i < NUM_THREADS := by
        intro i hi
        exact hlt i (by rw [hsplit]; simp [hi])
      have hcur : cur < NUM_THREADS := hlt cur (by rw [hsplit]; simp)
      obtain ⟨loc, hloc, hld⟩ := local_count_chunk ws cur hcur
      refine ⟨_, loc, run_workers_struct ws done hdone create_word_freq_array, hloc, ?_⟩
      rw [merge_pass_append, hld]
      refine (reachable_well_sized ws _ ?_ hcap).1
      intro e he
      rcases List.mem_append.mp he with he | he
      · obtain ⟨i, _, hi⟩ := List.mem_flatMap.mp he
        exact local_table_words ws i e hi
      · exact local_table_words ws cur e (List.mem_of_mem_take he)

theorem resize_keeps_data_witness :
    fits_int32 (create_word_freq_array.capacity * GROWTH_FACTOR)
      ∧ (resize_word_freq_array create_word_freq_array).capacity
          = create_word_freq_array.capacity * 2
      ∧ (resize_word_freq_array create_word_freq_array).data = create_word_freq_array.data :=
  ⟨by unfold fits_int32; decide,
    (resize_keeps_data create_word_freq_array (by unfold fits_int32; decide)).1,
    (resize_keeps_data create_word_freq_array (by unfold fits_int32; decide)).2.1⟩


/-! ## Partitioning refines the direct scan -/

theorem table_ext (d1 d2 : List WordFreq) (hw : words_of d1 = words_of d2)
    (he : ∀ T, entries_of T d1 = entries_of T d2) : d1 = d2 := by
  induction d1 generalizing d2 with
  | nil =>
    cases d2 with
    | nil => rfl
    | cons e2 r2 => simp [words_of] at hw
  | cons e1 r1 ih =>
    cases d2 with
    | nil => simp [words_of] at hw
    | cons e2 r2 =>
      simp only [words_of, List.map_cons, List.cons.injEq] at hw
      obtain ⟨hword, hrest⟩ := hw
      have h1 := he e1.word
      simp only [entries_of, List.filter_cons, decide_True, if_true, ← hword] at h1
      simp only [List.cons.injEq] at h1
      have hrest2 : ∀ T, entries_of T r1 = entries_of T r2 := by
        intro T
        by_cases hT : e1.word = T
        · subst hT
          exact h1.2
        · have h2 := he T
          have hT2 : ¬ e2.word = T := by rw [← hword]; exact hT
          simpa [entries_of, List.filter_cons, hT, hT2] using h2
      rw [h1.1, ih r2 hrest hrest2]

theorem words_of_find_or_append_all (E d : List WordFreq) :
    words_of (find_or_append_all d E) = append_new (words_of d) (words_of E) := by
  induction E generalizing d with
  | nil => rfl
  | cons e E ih =>
    rw [find_or_append_all_cons, ih, words_of_find_or_append]
    simp [append_new, words_of]

theorem words_of_unit_events (c : List Token) : words_of (unit_events c) = c := by
  induction c with
  | nil => rfl
  | cons w c ih =>
    have h : words_of (unit_events (w :: c)) = w :: words_of (unit_events c) := rfl
    rw [h, ih]

theorem append_new_snoc (W c : List Token) (x : Token) :
    append_new W (c ++ [x])
      = if x ∈ append_new W c then append_new W c else append_new W c ++ [x] := by
  simp [append_new, List.foldl_append]

theorem mem_append_new (W c : List Token) (y : Token) :
    y ∈ append_new W c ↔ y ∈ W ∨ y ∈ c := by
  induction c using List.reverseRecOn with
  | nil => simp [append_new]
  | append_singleton c x ih =>
    rw [append_new_snoc]
    by_cases hx : x ∈ append_new W c
    · simp only [hx, if_true, List.mem_append, List.mem_singleton]
      constructor
      · intro h
        rcases ih.mp h with h | h
        · exact Or.inl h
        · exact Or.inr (Or.inl h)
      · rintro (h | h | h)
        · exact ih.mpr (Or.inl h)
        · exact ih.mpr (Or.inr h)
        · rw [h]
          exact hx
    · simp only [hx, if_false, List.mem_append, List.mem_singleton, ih]
      tauto

theorem append_new_counted (W c : List Token) :
    append_new W (append_new [] c) = append_new W c := by
  induction c using List.reverseRecOn with
  | nil => rfl
  | append_singleton c x ih =>
    rw [append_new_snoc [] c x]
    by_cases hx : x ∈ append_new [] c
    · have hxc : x ∈ c := by
        rcases (mem_append_new [] c x).mp hx with h | h
        · simp at h
        · exact h
      have hxW : x ∈ append_new W c := (mem_append_new W c x).mpr (Or.inr hxc)
      rw [append_new_snoc W c x]
      simp only [hx, hxW, if_true]
      exact ih
    · have hxc : x ∉ c := fun h => hx ((mem_append_new [] c x).mpr (Or.inr h))
      simp only [hx, if_false]
      rw [append_new_snoc W (append_new [] c) x, append_new_snoc W c x, ih]

theorem bump_all_eq_of_sum (T : Token) (cs ds : List Int) (acc : List WordFreq)
    (hsum : cs.sum = ds.sum) (hnil : cs = [] ↔ ds = []) :
    bump_all T cs acc = bump_all T ds acc := by
  cases acc with
  | cons e rest => rw [bump_all_cons, bump_all_cons, hsum]
  | nil =>
    rw [bump_all_nil, bump_all_nil, hsum]
    by_cases h : cs = []
    · simp [h, hnil.mp h]
    · have h2 : ¬ ds = [] := fun hd => h (hnil.mpr hd)
      simp [h, h2]

/-- Merging the local table of a chunk into a table gives the same entries, in the
same positions, as counting the tokens of the chunk directly into that table. -/
theorem merge_counted_eq (G : List WordFreq) (c : List Token) :
    find_or_append_all G (find_or_append_all [] (unit_events c))
      = find_or_append_all G (unit_events c) := by
  apply table_ext
  · rw [words_of_find_or_append_all, words_of_find_or_append_all,
      words_of_find_or_append_all, words_of_unit_events]
    have h0 : words_of ([] : List WordFreq) = [] := rfl
    rw [h0, append_new_counted]
  · intro T
    rw [entries_of_find_or_append_all, entries_of_find_or_append_all]
    apply bump_all_eq_of_sum
    · rw [sum_counts_of_counted, counts_of_unit_events]
      simp
    · rw [counts_of_counted, counts_of_unit_events]
      by_cases hT : T ∈ c
      · have hpos : 0 < c.count T := List.count_pos_iff.mpr hT
        simp [hT]
        omega
      · simp [hT, List.count_eq_zero_of_not_mem hT]

theorem counted_append (G : List WordFreq) (a b : List Token) :
    find_or_append_all (find_or_append_all G (unit_events a)) (unit_events b)
      = find_or_append_all G (unit_events (a ++ b)) := by
  simp [find_or_append_all, unit_events, List.foldl_append]

theorem merge_all_snoc (d : List WordFreq) (A : List (List WordFreq)) (L : List WordFreq) :
    merge_all d (A ++ [L]) = find_or_append_all (merge_all d A) L := by
  simp [merge_all, List.foldl_append]

theorem merge_chunks_upto (ws : List Token) (k : Nat) :
    merge_all [] ((List.range k).map (local_table ws))
      = find_or_append_all [] (unit_events (ws.take (chunk_start NUM_THREADS ws.length k))) := by
  induction k with
  | zero =>
    rw [chunk_start_zero]
    rfl
  | succ k ih =>
    rw [List.range_succ, List.map_append, List.map_singleton, merge_all_snoc, ih]
    unfold local_table
    rw [merge_counted_eq, counted_append, ← chunk_end_eq_next]
    unfold chunk
    rw [take_append_slice ws (chunk_start_le_end NUM_THREADS ws.length k)]

theorem merge_chunks_all (ws : List Token) :
    merge_all [] ((List.range NUM_THREADS).map (local_table ws))
      = find_or_append_all [] (unit_events ws) := by
  rw [merge_chunks_upto]
  have h8 : chunk_start NUM_THREADS ws.length NUM_THREADS = ws.length := by
    have e1 : chunk_end 8 ws.length 7 = chunk_start 8 ws.length 8 :=
      chunk_end_eq_next 8 ws.length 7
    have e2 := chunk_end_last ws.length
    simp only [NUM_THREADS]
    omega
  rw [h8, List.take_length]


theorem child_fold_data_short (c : List Token) (a : WordFreqArray)
    (hshort : ∀ w ∈ c, w.length ≤ MAX_WORD_LENGTH - 1) :
    (c.foldl add_word_to_freq_array a).data = find_or_append_all a.data (unit_events c) := by
  induction c generalizing a with
  | nil => rfl
  | cons w c ih =>
    rw [List.foldl_cons, ih _ (fun v hv => hshort v (by simp [hv])),
      add_word_data_short a w (hshort w (by simp))]
    rfl

theorem child_table_short (ws : List Token) (i : Nat)
    (hshort : ∀ w ∈ ws, w.length ≤ MAX_WORD_LENGTH - 1) :
    child_table ws i = local_table ws i := by
  unfold child_table local_table
  rw [child_fold_data_short (chunk ws i) init_word_freq_array
    (fun w hw => hshort w ((slice_sublist ws _ _).subset hw))]
  rfl

theorem transfer_entry_data_eq (S : List Token) (hS : S.dedup.length ≤ INITIAL_CAPACITY)
    (g : SharedFreqData) (e : WordFreq) (hnd : (words_of g.data).Nodup)
    (hsub : ∀ x ∈ words_of g.data, x ∈ S) (he : e.word ∈ S) :
    (transfer_entry g e).data = find_or_append g.data e.word e.frequency := by
  unfold transfer_entry find_or_append
  cases hs : scan_add e.word e.frequency g.data with
  | some d1 => rfl
  | none =>
    have hnot : e.word ∉ words_of g.data := scan_add_eq_none.mp hs
    have hnd2 : (e.word :: words_of g.data).Nodup := List.nodup_cons.mpr ⟨hnot, hnd⟩
    have hsub2 : e.word :: words_of g.data ⊆ S.dedup := by
      intro x hx
      rw [List.mem_dedup]
      rcases List.mem_cons.mp hx with hx | hx
      · rw [hx]; exact he
      · exact hsub x hx
    have hlen := (List.Nodup.subperm hnd2 hsub2).length_le
    have hlen2 : (words_of g.data).length = g.data.length := by simp [words_of]
    simp only [List.length_cons, hlen2] at hlen
    have hroom : g.size < (INITIAL_CAPACITY : Int) := by
      unfold SharedFreqData.size
      omega
    simp only [hroom, if_true]

theorem transfer_pass_data_eq (S : List Token) (hS : S.dedup.length ≤ INITIAL_CAPACITY)
    (E : List WordFreq) (g : SharedFreqData) (hnd : (words_of g.data).Nodup)
    (hsub : ∀ x ∈ words_of g.data, x ∈ S) (hE : ∀ e ∈ E, e.word ∈ S) :
    (transfer_pass g E).data = find_or_append_all g.data E := by
  induction E generalizing g with
  | nil => rfl
  | cons e E ih =>
    obtain ⟨_, h2, h3⟩ := transfer_entry_exact S hS g e hnd hsub (hE e (by simp))
    rw [transfer_pass_cons, ih (transfer_entry g e) h2 h3 (fun x hx => hE x (by simp [hx])),
      transfer_entry_data_eq S hS g e hnd hsub (hE e (by simp)), find_or_append_all_cons]

theorem find_or_append_all_flatMap (d : List WordFreq) (order : List Nat)
    (f : Nat → List WordFreq) :
    find_or_append_all d (order.flatMap f) = merge_all d (order.map f) := by
  induction order generalizing d with
  | nil => rfl
  | cons i order ih =>
    have h1 : find_or_append_all d (f i ++ order.flatMap f)
        = find_or_append_all (find_or_append_all d (f i)) (order.flatMap f) := by
      simp [find_or_append_all, List.foldl_append]
    rw [List.flatMap_cons, h1, ih]
    rfl

theorem top_k_of_data (t1 t2 : WordFreqArray) (h : t1.data = t2.data) :
    top_k (sort_table t1) = top_k (sort_table t2) := by
  rw [top_k_eq, top_k_eq, sort_table_data, sort_table_data, h]

theorem shared_top_k_of_data (s : SharedFreqData) (t : WordFreqArray) (h : s.data = t.data) :
    shared_top_k (sort_shared s) = top_k (sort_table t) := by
  rw [top_k_eq, shared_top_k_eq, sort_table_data, sort_shared_data, h]

/-- C22: partitioning is a refinement of the direct scan.  For every token sequence
whose tokens have at most 59 characters and which has at most `INITIAL_CAPACITY`
distinct tokens, the shared table of the threaded pipeline and the shared region of
the process pipeline, with the 8 merge passes run in chunk order `0..7`, hold the
same entries in the same positions as the table built by the naive
`count_word_frequencies`, and the three variants report the same ranked list. -/
theorem partition_refines_scan (ws : List Token)
    (hshort : ∀ w ∈ ws, w.length ≤ MAX_WORD_LENGTH - 1)
    (hdistinct : ws.dedup.length ≤ INITIAL_CAPACITY) :
    ∃ t s, run_threads ws (List.range NUM_THREADS) = some t
      ∧ run_processes ws (List.range NUM_PROCESSES) = some s
      ∧ t.data = (count_word_frequencies ws create_word_freq_array).data
      ∧ s.data = (count_word_frequencies ws create_word_freq_array).data
      ∧ threaded_top_k ws (List.range NUM_THREADS) = some (naive_top_k ws)
      ∧ process_top_k ws (List.range NUM_PROCESSES) = some (naive_top_k ws) := by
  have hlt : ∀ i ∈ List.range NUM_THREADS, i < NUM_THREADS := fun i hi => List.mem_range.mp hi
  obtain ⟨t, ht, htd⟩ := run_workers_eq ws (List.range NUM_THREADS) hlt create_word_freq_array
  have hrun_t : run_threads ws (List.range NUM_THREADS) = some t := ht
  have hnaive : (count_word_frequencies ws create_word_freq_array).data
      = find_or_append_all [] (unit_events ws) := count_word_frequencies_data ws _
  have h0 : create_word_freq_array.data = [] := rfl
  have htdata : t.data = (count_word_frequencies ws create_word_freq_array).data := by
    rw [htd, h0, merge_chunks_all, hnaive]
  have hrun_s : run_processes ws (List.range NUM_PROCESSES)
      = some (transfer_pass { data := [] } (offered ws (List.range NUM_PROCESSES))) :=
    run_children_eq ws (List.range NUM_PROCESSES) hlt _
  have hoff : offered ws (List.range NUM_PROCESSES)
      = (List.range NUM_THREADS).flatMap (local_table ws) := by
    unfold offered
    have hfun : child_table ws = local_table ws := by
      funext i
      exact child_table_short ws i hshort
    rw [hfun]
    rfl
  have hsdata : (transfer_pass { data := [] } (offered ws (List.range NUM_PROCESSES))).data
      = (count_word_frequencies ws create_word_freq_array).data := by
    rw [transfer_pass_data_eq ws hdistinct _ _ (by simp [words_of]) (by simp [words_of]),
      hoff, find_or_append_all_flatMap, merge_chunks_all, hnaive]
    rw [hoff]
    intro e he
    obtain ⟨i, _, hi⟩ := List.mem_flatMap.mp he
    exact local_table_words ws i e hi
  refine ⟨t, _, hrun_t, hrun_s, htdata, hsdata, ?_, ?_⟩
  · unfold threaded_top_k naive_top_k
    rw [hrun_t, Option.map_some', top_k_of_data _ _ htdata]
  · unfold process_top_k naive_top_k
    rw [hrun_s, Option.map_some', shared_top_k_of_data _ _ hsdata]

theorem partition_refines_scan_witness :
    (∀ w ∈ example_sentence, w.length ≤ MAX_WORD_LENGTH - 1)
      ∧ example_sentence.dedup.length ≤ INITIAL_CAPACITY
      ∧ ∃ t s, run_threads example_sentence (List.range NUM_THREADS) = some t
        ∧ run_processes example_sentence (List.range NUM_PROCESSES) = some s
        ∧ t.data = (count_word_frequencies example_sentence create_word_freq_array).data
        ∧ s.data = (count_word_frequencies example_sentence create_word_freq_array).data
        ∧ threaded_top_k example_sentence (List.range NUM_THREADS)
            = some (naive_top_k example_sentence)
        ∧ process_top_k example_sentence (List.range NUM_PROCESSES)
            = some (naive_top_k example_sentence) :=
  ⟨by decide, by decide, partition_refines_scan example_sentence (by decide) (by decide)⟩

/-! ## Every interleaving of the threads is a sequential run -/

theorem slice_succ (ws : List Token) (a pos : Nat) (w : Token) (ha : a ≤ pos)
    (hw : ws[pos]? = some w) : slice ws a (pos + 1) = slice ws a pos ++ [w] := by
  unfold slice
  have e : pos + 1 - a = (pos - a) + 1 := by omega
  rw [e, List.take_succ, List.getElem?_drop]
  have e2 : a + (pos - a) = pos := by omega
  rw [e2, hw]
  rfl

theorem slice_self (ws : List Token) (a : Nat) : slice ws a a = [] := by
  simp [slice]

theorem merged_in_order_snoc (ws : List Token) (prev : List Nat) (i : Nat) :
    merged_in_order ws (prev ++ [i])
      = merge_pass (merged_in_order ws prev) (local_table ws i) := by
  unfold merged_in_order
  rw [List.flatMap_append, merge_pass_append]
  simp [List.flatMap]

theorem phase_inv_frame (ws : List Token) (shared shared1 : WordFreqArray)
    (mutex mutex1 : Option Nat) (order order1 : List Nat) (j : Nat) (p : ThreadPhase)
    (h : phase_inv ws shared mutex order j p)
    (hp : ∀ k loc, p ≠ ThreadPhase.merging k loc)
    (h1 : j ∈ order → j ∈ order1) (h2 : j ∈ order1 → j ∈ order) :
    phase_inv ws shared1 mutex1 order1 j p := by
  cases p with
  | not_started => exact fun hx => h (h2 hx)
  | counting pos loc => exact ⟨fun hx => h.1 (h2 hx), h.2⟩
  | merging k loc => exact absurd rfl (hp k loc)
  | finished => exact h1 h

theorem main_inv_update (ws : List Token) (threads : Nat → ThreadPhase)
    (order order1 : List Nat) (ph : MainPhase) (i : Nat) (p : ThreadPhase)
    (h : main_inv ws threads order ph) (hi : i < NUM_THREADS)
    (h1 : threads i ≠ ThreadPhase.not_started) (h2 : threads i ≠ ThreadPhase.finished) :
    main_inv ws (fun j => if j = i then p else threads j) order1 ph := by
  cases ph with
  | creating k =>
    intro j hj
    by_cases hji : j = i
    · subst hji
      exact absurd (h j hj) h1
    · simp only [hji, if_false]
      exact h j hj
  | joining k =>
    intro j hj hj8
    by_cases hji : j = i
    · subst hji
      exact absurd (h j hj hj8) h2
    · simp only [hji, if_false]
      exact h j hj hj8
  | reported r => exact absurd (h.1 i hi) h2

theorem free_table_not_reported (ws : List Token) (order : List Nat) (ph : MainPhase)
    (h : ∀ r, ph ≠ MainPhase.reported r) : free_table ws order ph = merged_in_order ws order := by
  cases ph with
  | creating k => rfl
  | joining k => rfl
  | reported r => exact absurd rfl (h r)

theorem not_reported_of_active (ws : List Token) (threads : Nat → ThreadPhase)
    (order : List Nat) (ph : MainPhase) (i : Nat)
    (h : main_inv ws threads order ph) (hi : i < NUM_THREADS)
    (h2 : threads i ≠ ThreadPhase.finished) : ∀ r, ph ≠ MainPhase.reported r := by
  intro r hr
  subst hr
  exact h2 (h.1 i hi)

theorem worker_step_inv (ws : List Token) (s s1 : ProgramState) (i : Nat)
    (h : state_inv ws s) (hs : worker_step ws s i = some s1) : state_inv ws s1 := by
  obtain ⟨order, hnd, hlt, hph, hout, hmx, hfree, hmain⟩ := h
  have hi := hph i
  unfold worker_step at hs
  cases hp : s.threads i with
  | not_started =>
    rw [hp] at hs
    exact absurd hs (by simp)
  | finished =>
    rw [hp] at hs
    exact absurd hs (by simp)
  | counting pos loc =>
    rw [hp] at hs hi
    obtain ⟨hio, hi8, hlo, hhi, hdata⟩ := hi
    have hne1 : s.threads i ≠ ThreadPhase.not_started := by
      rw [hp]
      exact fun e => ThreadPhase.noConfusion e
    have hne2 : s.threads i ≠ ThreadPhase.finished := by
      rw [hp]
      exact fun e => ThreadPhase.noConfusion e
    simp only at hs
    by_cases hpos : pos < chunk_end NUM_THREADS ws.length i
    · rw [if_pos hpos] at hs
      obtain ⟨w, hw, rfl⟩ := Option.map_eq_some'.mp hs
      refine ⟨order, hnd, hlt, ?_, ?_, ?_, hfree,
        main_inv_update ws s.threads order order _ i _ hmain hi8 hne1 hne2⟩
      · intro j
        by_cases hji : j = i
        · subst hji
          simp only [set_thread, if_true]
          refine ⟨hio, hi8, by omega, by omega, ?_⟩
          rw [local_count_step_data, hdata, slice_succ ws _ pos w hlo hw, counted_snoc]
        · simp only [set_thread, hji, if_false]
          exact hph j
      · intro j hj
        have hji : j ≠ i := by omega
        simp only [set_thread, hji, if_false]
        exact hout j hj
      · intro j hj
        obtain ⟨k, l, hk⟩ := hmx j hj
        have hji : j ≠ i := by
          intro e
          subst e
          rw [hp] at hk
          exact ThreadPhase.noConfusion hk
        refine ⟨k, l, ?_⟩
        simp only [set_thread, hji, if_false]
        exact hk
    · rw [if_neg hpos] at hs
      by_cases hm : s.frequency_mutex = none
      · rw [if_pos hm] at hs
        injection hs with hs
        subst hs
        have hpe : pos = chunk_end NUM_THREADS ws.length i := by omega
        have hshared : s.shared_word_freq = merged_in_order ws order := by
          rw [hfree hm]
          exact free_table_not_reported ws order _
            (not_reported_of_active ws s.threads order _ i hmain hi8 hne2)
        refine ⟨order ++ [i], ?_, ?_, ?_, ?_, ?_, ?_,
          main_inv_update ws s.threads order (order ++ [i]) _ i _ hmain hi8 hne1 hne2⟩
        · rw [List.nodup_append]
          refine ⟨hnd, List.nodup_singleton _, ?_⟩
          intro x hx hx1
          rw [List.mem_singleton] at hx1
          subst hx1
          exact hio hx
        · intro j hj
          rcases List.mem_append.mp hj with h | h
          · exact hlt j h
          · rw [List.mem_singleton] at h
            subst h
            exact hi8
        · intro j
          by_cases hji : j = i
          · subst hji
            simp only [set_thread, if_true]
            refine ⟨hi8, ?_, rfl, order, rfl, ?_⟩
            · rw [hdata, hpe]
              rfl
            · rw [List.take_zero]
              exact hshared
          · simp only [set_thread, hji, if_false]
            refine phase_inv_frame ws _ _ _ _ order (order ++ [i]) j _ (hph j) ?_
              (fun h => List.mem_append_left _ h) ?_
            · intro k l e
              have h3 := hph j
              rw [e] at h3
              have h4 := h3.2.2.1
              rw [hm] at h4
              cases h4
            · intro h
              rcases List.mem_append.mp h with h | h
              · exact h
              · rw [List.mem_singleton] at h
                exact absurd h hji
        · intro j hj
          have hji : j ≠ i := by omega
          simp only [set_thread, hji, if_false]
          exact hout j hj
        · intro j hj
          have hji : i = j := by
            have h5 : some i = some j := hj
            injection h5
          subst hji
          exact ⟨0, loc, by simp [set_thread]⟩
        · intro hnone
          have h5 : some i = (none : Option Nat) := hnone
          cases h5
      · rw [if_neg hm] at hs
        cases hs
  | merging k loc =>
    rw [hp] at hs hi
    obtain ⟨hi8, hdata, hmi, prev, hord, hsh⟩ := hi
    have hne1 : s.threads i ≠ ThreadPhase.not_started := by
      rw [hp]
      exact fun e => ThreadPhase.noConfusion e
    have hne2 : s.threads i ≠ ThreadPhase.finished := by
      rw [hp]
      exact fun e => ThreadPhase.noConfusion e
    have hothers : ∀ j, j ≠ i → ∀ k l, s.threads j ≠ ThreadPhase.merging k l := by
      intro j hji k l e
      have h3 := hph j
      rw [e] at h3
      have h4 := h3.2.2.1
      rw [hmi] at h4
      injection h4 with h4
      exact hji h4.symm
    simp only at hs
    cases he : loc.data[k]? with
    | some e =>
      rw [he] at hs
      injection hs with hs
      subst hs
      refine ⟨order, hnd, hlt, ?_, ?_, ?_, ?_,
        main_inv_update ws s.threads order order _ i _ hmain hi8 hne1 hne2⟩
      · intro j
        by_cases hji : j = i
        · subst hji
          simp only [set_thread, if_true]
          refine ⟨hi8, hdata, hmi, prev, hord, ?_⟩
          rw [List.take_succ, he, hsh]
          simp [merge_pass, List.foldl_append]
        · simp only [set_thread, hji, if_false]
          exact phase_inv_frame ws _ _ _ _ order order j _ (hph j) (hothers j hji) id id
      · intro j hj
        have hji : j ≠ i := by omega
        simp only [set_thread, hji, if_false]
        exact hout j hj
      · intro j hj
        have hji : i = j := by
          have h5 : s.frequency_mutex = some j := hj
          rw [hmi] at h5
          injection h5
        subst hji
        exact ⟨k + 1, loc, by simp [set_thread]⟩
      · intro hnone
        have h5 : s.frequency_mutex = none := hnone
        rw [hmi] at h5
        cases h5
    | none =>
      rw [he] at hs
      injection hs with hs
      subst hs
      have hk : loc.data.length ≤ k := List.getElem?_eq_none_iff.mp he
      have htake : loc.data.take k = loc.data := List.take_of_length_le hk
      have hshared : s.shared_word_freq = merged_in_order ws order := by
        rw [hsh, htake, hord, merged_in_order_snoc, hdata]
      refine ⟨order, hnd, hlt, ?_, ?_, ?_, ?_,
        main_inv_update ws s.threads order order _ i _ hmain hi8 hne1 hne2⟩
      · intro j
        by_cases hji : j = i
        · subst hji
          simp only [set_thread, if_true]
          show j ∈ order
          rw [hord]
          simp
        · simp only [set_thread, hji, if_false]
          exact phase_inv_frame ws _ _ _ _ order order j _ (hph j) (hothers j hji) id id
      · intro j hj
        have hji : j ≠ i := by omega
        simp only [set_thread, hji, if_false]
        exact hout j hj
      · intro j hj
        have h5 : (none : Option Nat) = some j := hj
        cases h5
      · intro _
        show s.shared_word_freq = free_table ws order s.main_phase
        rw [free_table_not_reported ws order _
          (not_reported_of_active ws s.threads order _ i hmain hi8 hne2)]
        exact hshared

theorem main_step_inv (ws : List Token) (s s1 : ProgramState)
    (h : state_inv ws s) (hs : main_step ws s = some s1) : state_inv ws s1 := by
  obtain ⟨order, hnd, hlt, hph, hout, hmx, hfree, hmain⟩ := h
  unfold main_step at hs
  cases hp : s.main_phase with
  | creating k =>
    rw [hp] at hs hmain hfree
    simp only at hs
    by_cases hk : k < NUM_THREADS
    · rw [if_pos hk] at hs
      injection hs with hs
      subst hs
      have hk0 : s.threads k = ThreadPhase.not_started := hmain k (le_refl k)
      have hko : k ∉ order := by
        have h3 := hph k
        rw [hk0] at h3
        exact h3
      refine ⟨order, hnd, hlt, ?_, ?_, ?_, hfree, ?_⟩
      · intro j
        by_cases hjk : j = k
        · subst hjk
          simp only [set_thread, if_true]
          refine ⟨hko, hk, le_refl _, chunk_start_le_end _ _ _, ?_⟩
          rw [slice_self]
          rfl
        · simp only [set_thread, hjk, if_false]
          exact hph j
      · intro j hj
        have hjk : j ≠ k := by omega
        simp only [set_thread, hjk, if_false]
        exact hout j hj
      · intro j hj
        obtain ⟨x, l, hx⟩ := hmx j hj
        have hjk : j ≠ k := by
          intro e
          subst e
          rw [hk0] at hx
          exact ThreadPhase.noConfusion hx
        refine ⟨x, l, ?_⟩
        simp only [set_thread, hjk, if_false]
        exact hx
      · intro j hj
        have hjk : j ≠ k := by omega
        simp only [set_thread, hjk, if_false]
        exact hmain j (by omega)
    · rw [if_neg hk] at hs
      injection hs with hs
      subst hs
      refine ⟨order, hnd, hlt, hph, hout, hmx, hfree, ?_⟩
      intro j hj
      exact absurd hj (Nat.not_lt_zero j)
  | joining k =>
    rw [hp] at hs hmain hfree
    simp only at hs
    by_cases hk : k < NUM_THREADS
    · rw [if_pos hk] at hs
      by_cases hfin : s.threads k = ThreadPhase.finished
      · rw [if_pos hfin] at hs
        injection hs with hs
        subst hs
        refine ⟨order, hnd, hlt, hph, hout, hmx, hfree, ?_⟩
        intro j hj hj8
        by_cases hjk : j = k
        · subst hjk
          exact hfin
        · exact hmain j (by omega) hj8
      · rw [if_neg hfin] at hs
        cases hs
    · rw [if_neg hk] at hs
      injection hs with hs
      subst hs
      have hall : ∀ j, j < NUM_THREADS → s.threads j = ThreadPhase.finished :=
        fun j hj => hmain j (by omega) hj
      have hnm : ∀ j x l, s.threads j ≠ ThreadPhase.merging x l := by
        intro j x l e
        by_cases hj : j < NUM_THREADS
        · rw [hall j hj] at e
          exact ThreadPhase.noConfusion e
        · rw [hout j (by omega)] at e
          exact ThreadPhase.noConfusion e
      have hm : s.frequency_mutex = none := by
        cases hmu : s.frequency_mutex with
        | none => rfl
        | some j =>
          obtain ⟨x, l, hx⟩ := hmx j hmu
          exact absurd hx (hnm j x l)
      have hshared : s.shared_word_freq = merged_in_order ws order := hfree hm
      refine ⟨order, hnd, hlt, ?_, hout, hmx, ?_, ?_⟩
      · intro j
        exact phase_inv_frame ws _ _ _ _ order order j _ (hph j) (hnm j) id id
      · intro _
        show sort_table s.shared_word_freq = sort_table (merged_in_order ws order)
        rw [hshared]
      · refine ⟨hall, ?_⟩
        rw [hshared]
  | reported r =>
    rw [hp] at hs
    cases hs

theorem start_state_inv (ws : List Token) : state_inv ws start_state := by
  refine ⟨[], List.nodup_nil, ?_, ?_, ?_, ?_, ?_, ?_⟩
  · intro i hi
    cases hi
  · intro i
    exact List.not_mem_nil i
  · intro i _
    rfl
  · intro i hi
    cases hi
  · intro _
    rfl
  · intro i _
    rfl

theorem program_step_inv (ws : List Token) (s s1 : ProgramState) (a : Actor)
    (h : state_inv ws s) (hs : program_step ws s a = some s1) : state_inv ws s1 := by
  cases a with
  | main_thread => exact main_step_inv ws s s1 h hs
  | worker i => exact worker_step_inv ws s s1 i h hs

theorem schedule_inv (ws : List Token) (schedule : List Actor) (s0 s : ProgramState)
    (h0 : state_inv ws s0) (hrun : schedule.foldlM (program_step ws) s0 = some s) :
    state_inv ws s := by
  induction schedule generalizing s0 with
  | nil =>
    have e : s0 = s := by
      have h5 : some s0 = some s := hrun
      injection h5
    rw [← e]
    exact h0
  | cons a rest ih =>
    rw [List.foldlM_cons] at hrun
    cases hstep : program_step ws s0 a with
    | none =>
      rw [hstep] at hrun
      cases hrun
    | some s2 =>
      rw [hstep] at hrun
      exact ih s2 (program_step_inv ws s0 s2 a h0 hstep) hrun

theorem run_schedule_inv (ws : List Token) (schedule : List Actor) (s : ProgramState)
    (hrun : run_schedule ws schedule = some s) : state_inv ws s :=
  schedule_inv ws schedule start_state s (start_state_inv ws) hrun

theorem order_is_all (order : List Nat) (hnd : order.Nodup)
    (hlt : ∀ i ∈ order, i < NUM_THREADS) (hall : ∀ i, i < NUM_THREADS → i ∈ order) :
    order.Perm (List.range NUM_THREADS) := by
  rw [List.perm_ext_iff_of_nodup hnd (List.nodup_range _)]
  intro a
  rw [List.mem_range]
  exact ⟨hlt a, hall a⟩

theorem sequential_of_finished (ws : List Token) (s : ProgramState) (order : List Nat)
    (hnd : order.Nodup) (hlt : ∀ i ∈ order, i < NUM_THREADS)
    (hph : ∀ i, phase_inv ws s.shared_word_freq s.frequency_mutex order i (s.threads i))
    (hall : ∀ i, i < NUM_THREADS → s.threads i = ThreadPhase.finished) :
    order.Perm (List.range NUM_THREADS)
      ∧ run_threads ws order = some (merged_in_order ws order) := by
  refine ⟨order_is_all order hnd hlt ?_, run_workers_struct ws order hlt _⟩
  intro i hi
  have h3 := hph i
  rw [hall i hi] at h3
  exact h3

/-- C21: in every state that a schedule of the threaded program reaches (the steps
are the loop iterations and the pthread calls of `main` and of the workers, taken in
any order in which `pthread_mutex_lock` waits for a free `frequency_mutex` and
`pthread_join` for a returned worker), at most one worker is inside its merge pass,
that worker owns `frequency_mutex`, and a worker step changes the shared table only
while the worker owns the mutex; once all 8 workers have returned the shared table
is the one that `run_threads` builds by running the 8 merge passes one after another
in some order of the workers; the ranker has sorted and reported only after every
worker has returned and been joined, and the report is `threaded_top_k` of that
order. -/
theorem interleaving_is_sequential (words : List Token) (schedule : List Actor)
    (s : ProgramState) (hrun : run_schedule words schedule = some s) :
    (∀ i j ki kj li lj, s.threads i = ThreadPhase.merging ki li →
        s.threads j = ThreadPhase.merging kj lj → i = j)
      ∧ (∀ i k l, s.threads i = ThreadPhase.merging k l → s.frequency_mutex = some i)
      ∧ (∀ i s1, worker_step words s i = some s1 →
          s1.shared_word_freq ≠ s.shared_word_freq → s.frequency_mutex = some i)
      ∧ ((∀ i, i < NUM_THREADS → s.threads i = ThreadPhase.finished) →
          ∃ order t, order.Perm (List.range NUM_THREADS)
            ∧ run_threads words order = some t
            ∧ ((∀ r, s.main_phase ≠ MainPhase.reported r) → s.shared_word_freq = t)
            ∧ (∀ r, s.main_phase = MainPhase.reported r →
                s.shared_word_freq = sort_table t ∧ r = top_k (sort_table t)
                  ∧ threaded_top_k words order = some r))
      ∧ (∀ r, s.main_phase = MainPhase.reported r →
          ∀ i, i < NUM_THREADS → s.threads i = ThreadPhase.finished)
      ∧ (∀ k, s.main_phase = MainPhase.joining k →
          ∀ i, i < k → i < NUM_THREADS → s.threads i = ThreadPhase.finished) := by
  obtain ⟨order, hnd, hlt, hph, hout, hmx, hfree, hmain⟩ := run_schedule_inv words schedule s hrun
  have hown : ∀ i k l, s.threads i = ThreadPhase.merging k l → s.frequency_mutex = some i := by
    intro i k l e
    have h3 := hph i
    rw [e] at h3
    exact h3.2.2.1
  refine ⟨?_, hown, ?_, ?_, ?_, ?_⟩
  · intro i j ki kj li lj hi hj
    have h1 := hown i ki li hi
    have h2 := hown j kj lj hj
    rw [h1] at h2
    injection h2
  · intro i s1 hs hne
    unfold worker_step at hs
    cases hp : s.threads i with
    | not_started =>
      rw [hp] at hs
      exact absurd hs (by simp)
    | finished =>
      rw [hp] at hs
      exact absurd hs (by simp)
    | merging k l => exact hown i k l hp
    | counting pos loc =>
      rw [hp] at hs
      simp only at hs
      exfalso
      apply hne
      by_cases hpos : pos < chunk_end NUM_THREADS words.length i
      · rw [if_pos hpos] at hs
        obtain ⟨w, _, rfl⟩ := Option.map_eq_some'.mp hs
        rfl
      · rw [if_neg hpos] at hs
        by_cases hm : s.frequency_mutex = none
        · rw [if_pos hm] at hs
          injection hs with hs
          subst hs
          rfl
        · rw [if_neg hm] at hs
          cases hs
  · intro hall
    obtain ⟨hperm, hseq⟩ := sequential_of_finished words s order hnd hlt hph hall
    have hm : s.frequency_mutex = none := by
      cases hmu : s.frequency_mutex with
      | none => rfl
      | some j =>
        obtain ⟨x, l, hx⟩ := hmx j hmu
        by_cases hj : j < NUM_THREADS
        · rw [hall j hj] at hx
          exact ThreadPhase.noConfusion hx
        · rw [hout j (by omega)] at hx
          exact ThreadPhase.noConfusion hx
    refine ⟨order, merged_in_order words order, hperm, hseq, ?_, ?_⟩
    · intro hnr
      rw [hfree hm]
      exact free_table_not_reported words order _ hnr
    · intro r hr
      rw [hr] at hmain
      have h4 := hfree hm
      rw [hr] at h4
      refine ⟨h4, hmain.2, ?_⟩
      unfold threaded_top_k
      rw [hseq, hmain.2]
      rfl
  · intro r hr
    rw [hr] at hmain
    exact hmain.1
  · intro k hk
    rw [hk] at hmain
    exact hmain

theorem interleaving_is_sequential_witness :
    ∃ s, run_schedule [['a'], ['b'], ['a']] example_schedule = some s
      ∧ s.main_phase = MainPhase.reported [⟨['a'], 2⟩, ⟨['b'], 1⟩]
      ∧ ∃ order t, order.Perm (List.range NUM_THREADS)
        ∧ run_threads [['a'], ['b'], ['a']] order = some t
        ∧ s.shared_word_freq = sort_table t := by
  have h1 : (run_schedule [['a'], ['b'], ['a']] example_schedule).map ProgramState.main_phase
      = some (MainPhase.reported [⟨['a'], 2⟩, ⟨['b'], 1⟩]) := by decide
  cases hs : run_schedule [['a'], ['b'], ['a']] example_schedule with
  | none =>
    rw [hs] at h1
    cases h1
  | some s =>
    rw [hs, Option.map_some'] at h1
    injection h1 with h1
    have h := interleaving_is_sequential [['a'], ['b'], ['a']] example_schedule s hs
    obtain ⟨order, t, hperm, hseq, _, hrep⟩ := h.2.2.2.1 (h.2.2.2.2.1 _ h1)
    exact ⟨s, rfl, h1, order, t, hperm, hseq, (hrep _ h1).1⟩

/-! ## Some schedule runs the threaded program to its report -/

theorem reaches_refl (ws : List Token) (s : ProgramState) : reaches ws s s := ⟨[], rfl⟩

theorem reaches_trans (ws : List Token) (s s1 s2 : ProgramState)
    (h1 : reaches ws s s1) (h2 : reaches ws s1 s2) : reaches ws s s2 := by
  obtain ⟨l1, e1⟩ := h1
  obtain ⟨l2, e2⟩ := h2
  refine ⟨l1 ++ l2, ?_⟩
  rw [List.foldlM_append, e1]
  exact e2

theorem reaches_step (ws : List Token) (s s1 : ProgramState) (a : Actor)
    (h : program_step ws s a = some s1) : reaches ws s s1 := by
  refine ⟨[a], ?_⟩
  rw [List.foldlM_cons, h]
  rfl

theorem worker_counts (ws : List Token) (i : Nat)
    (hend : chunk_end NUM_THREADS ws.length i ≤ ws.length) (n : Nat) :
    ∀ (s : ProgramState) (pos : Nat) (loc : WordFreqArray),
      s.threads i = ThreadPhase.counting pos loc →
      pos + n = chunk_end NUM_THREADS ws.length i →
      ∃ s1 loc1, reaches ws s s1
        ∧ s1.threads i = ThreadPhase.counting (chunk_end NUM_THREADS ws.length i) loc1
        ∧ (∀ j, j ≠ i → s1.threads j = s.threads j)
        ∧ s1.frequency_mutex = s.frequency_mutex ∧ s1.main_phase = s.main_phase := by
  induction n with
  | zero =>
    intro s pos loc hp hn
    have e : pos = chunk_end NUM_THREADS ws.length i := by omega
    subst e
    exact ⟨s, loc, reaches_refl ws s, hp, fun _ _ => rfl, rfl, rfl⟩
  | succ n ih =>
    intro s pos loc hp hn
    have hpos : pos < chunk_end NUM_THREADS ws.length i := by omega
    have hlt : pos < ws.length := by omega
    have hw : ws[pos]? = some ws[pos] := List.getElem?_eq_getElem hlt
    have hstep : program_step ws s (Actor.worker i)
        = some (set_thread s i
            (ThreadPhase.counting (pos + 1) (local_count_step loc ws[pos]))) := by
      show worker_step ws s i = _
      unfold worker_step
      rw [hp]
      simp only
      rw [if_pos hpos, hw]
      rfl
    obtain ⟨s1, loc1, hr, h1, h2, h3, h4⟩ := ih
      (set_thread s i (ThreadPhase.counting (pos + 1) (local_count_step loc ws[pos])))
      (pos + 1) (local_count_step loc ws[pos]) (by simp [set_thread]) (by omega)
    refine ⟨s1, loc1, reaches_trans ws _ _ _ (reaches_step ws _ _ _ hstep) hr, h1, ?_, h3, h4⟩
    intro j hj
    rw [h2 j hj]
    simp [set_thread, hj]

theorem worker_merges (ws : List Token) (i : Nat) (n : Nat) :
    ∀ (s : ProgramState) (j : Nat) (loc : WordFreqArray),
      s.threads i = ThreadPhase.merging j loc →
      j + n = loc.data.length →
      ∃ s1, reaches ws s s1 ∧ s1.threads i = ThreadPhase.finished
        ∧ (∀ k, k ≠ i → s1.threads k = s.threads k)
        ∧ s1.frequency_mutex = none ∧ s1.main_phase = s.main_phase := by
  induction n with
  | zero =>
    intro s j loc hp hn
    have he : loc.data[j]? = none := List.getElem?_eq_none_iff.mpr (by omega)
    have hstep : program_step ws s (Actor.worker i)
        = some (set_thread { s with frequency_mutex := none } i ThreadPhase.finished) := by
      show worker_step ws s i = _
      unfold worker_step
      rw [hp]
      simp only
      rw [he]
    refine ⟨_, reaches_step ws _ _ _ hstep, by simp [set_thread], ?_, rfl, rfl⟩
    intro k hk
    simp [set_thread, hk]
  | succ n ih =>
    intro s j loc hp hn
    have hlt : j < loc.data.length := by omega
    have he : loc.data[j]? = some loc.data[j] := List.getElem?_eq_getElem hlt
    have hstep : program_step ws s (Actor.worker i)
        = some (set_thread
            { s with shared_word_freq := merge_entry s.shared_word_freq loc.data[j] } i
            (ThreadPhase.merging (j + 1) loc)) := by
      show worker_step ws s i = _
      unfold worker_step
      rw [hp]
      simp only
      rw [he]
    obtain ⟨s1, hr, h1, h2, h3, h4⟩ := ih
      (set_thread { s with shared_word_freq := merge_entry s.shared_word_freq loc.data[j] } i
        (ThreadPhase.merging (j + 1) loc))
      (j + 1) loc (by simp [set_thread]) (by omega)
    refine ⟨s1, reaches_trans ws _ _ _ (reaches_step ws _ _ _ hstep) hr, h1, ?_, h3, h4⟩
    intro k hk
    rw [h2 k hk]
    simp [set_thread, hk]

theorem worker_runs (ws : List Token) (i : Nat) (hi : i < NUM_THREADS) (s : ProgramState)
    (pos : Nat) (loc : WordFreqArray) (hp : s.threads i = ThreadPhase.counting pos loc)
    (hpos : pos ≤ chunk_end NUM_THREADS ws.length i) (hm : s.frequency_mutex = none) :
    ∃ s1, reaches ws s s1 ∧ s1.threads i = ThreadPhase.finished
      ∧ (∀ k, k ≠ i → s1.threads k = s.threads k)
      ∧ s1.frequency_mutex = none ∧ s1.main_phase = s.main_phase := by
  have hend : chunk_end NUM_THREADS ws.length i ≤ ws.length := chunk_end_le_total ws.length i hi
  obtain ⟨s1, loc1, hr1, hp1, ho1, hm1, hmain1⟩ :=
    worker_counts ws i hend (chunk_end NUM_THREADS ws.length i - pos) s pos loc hp (by omega)
  have hstep : program_step ws s1 (Actor.worker i)
      = some (set_thread { s1 with frequency_mutex := some i } i
          (ThreadPhase.merging 0 loc1)) := by
    show worker_step ws s1 i = _
    unfold worker_step
    rw [hp1]
    simp only
    rw [if_neg (lt_irrefl _), if_pos (hm1.trans hm)]
  obtain ⟨s2, hr2, hp2, ho2, hm2, hmain2⟩ := worker_merges ws i loc1.data.length _ 0 loc1
    (show (set_thread { s1 with frequency_mutex := some i } i
      (ThreadPhase.merging 0 loc1)).threads i = ThreadPhase.merging 0 loc1 by simp [set_thread])
    (by omega)
  refine ⟨s2, reaches_trans ws _ _ _ hr1
    (reaches_trans ws _ _ _ (reaches_step ws _ _ _ hstep) hr2), hp2, ?_, hm2, ?_⟩
  · intro k hk
    rw [ho2 k hk, ← ho1 k hk]
    simp [set_thread, hk]
  · rw [hmain2]
    exact hmain1

theorem workers_run (ws : List Token) (s : ProgramState) (hm : s.frequency_mutex = none)
    (hs : ∀ i, i < NUM_THREADS → ∃ pos loc, s.threads i = ThreadPhase.counting pos loc
      ∧ pos ≤ chunk_end NUM_THREADS ws.length i) (k : Nat) (hk : k ≤ NUM_THREADS) :
    ∃ s1, reaches ws s s1 ∧ (∀ i, i < k → s1.threads i = ThreadPhase.finished)
      ∧ (∀ i, k ≤ i → s1.threads i = s.threads i)
      ∧ s1.frequency_mutex = none ∧ s1.main_phase = s.main_phase := by
  induction k with
  | zero => exact ⟨s, reaches_refl ws s, fun i hi => absurd hi (Nat.not_lt_zero i),
      fun _ _ => rfl, hm, rfl⟩
  | succ k ih =>
    obtain ⟨s1, hr1, hfin1, hrest1, hm1, hmain1⟩ := ih (by omega)
    obtain ⟨pos, loc, hp, hpos⟩ := hs k (by omega)
    have hp1 : s1.threads k = ThreadPhase.counting pos loc := by
      rw [hrest1 k (le_refl k)]
      exact hp
    obtain ⟨s2, hr2, hfin2, hrest2, hm2, hmain2⟩ :=
      worker_runs ws k (by omega) s1 pos loc hp1 hpos hm1
    refine ⟨s2, reaches_trans ws _ _ _ hr1 hr2, ?_, ?_, hm2, hmain2.trans hmain1⟩
    · intro i hi
      by_cases hik : i = k
      · subst hik
        exact hfin2
      · rw [hrest2 i hik]
        exact hfin1 i (by omega)
    · intro i hi
      rw [hrest2 i (by omega)]
      exact hrest1 i (by omega)

theorem main_creates (ws : List Token) (k : Nat) (hk : k ≤ NUM_THREADS) :
    ∃ s1, reaches ws start_state s1 ∧ s1.main_phase = MainPhase.creating k
      ∧ s1.frequency_mutex = none
      ∧ ∀ i, i < k → ∃ pos loc, s1.threads i = ThreadPhase.counting pos loc
          ∧ pos ≤ chunk_end NUM_THREADS ws.length i := by
  induction k with
  | zero => exact ⟨start_state, reaches_refl ws _, rfl, rfl,
      fun i hi => absurd hi (Nat.not_lt_zero i)⟩
  | succ k ih =>
    obtain ⟨s1, hr1, hmain1, hm1, hth1⟩ := ih (by omega)
    have hstep : program_step ws s1 Actor.main_thread
        = some (set_thread { s1 with main_phase := MainPhase.creating (k + 1) } k
            (ThreadPhase.counting (chunk_start NUM_THREADS ws.length k)
              { data := [], capacity := INITIAL_CAPACITY })) := by
      show main_step ws s1 = _
      unfold main_step
      rw [hmain1]
      simp only
      rw [if_pos (by omega)]
    refine ⟨_, reaches_trans ws _ _ _ hr1 (reaches_step ws _ _ _ hstep), rfl, hm1, ?_⟩
    intro i hi
    by_cases hik : i = k
    · subst hik
      exact ⟨chunk_start NUM_THREADS ws.length i, { data := [], capacity := INITIAL_CAPACITY },
        by simp [set_thread], chunk_start_le_end _ _ _⟩
    · obtain ⟨pos, loc, hp, hpos⟩ := hth1 i (by omega)
      exact ⟨pos, loc, by simp [set_thread, hik, hp], hpos⟩

theorem main_joins (ws : List Token) (n : Nat) :
    ∀ (s : ProgramState) (k : Nat), s.main_phase = MainPhase.joining k →
      k + n = NUM_THREADS →
      (∀ i, i < NUM_THREADS → s.threads i = ThreadPhase.finished) →
      ∃ s1 r, reaches ws s s1 ∧ s1.main_phase = MainPhase.reported r := by
  induction n with
  | zero =>
    intro s k hmain hk _
    have hstep : program_step ws s Actor.main_thread
        = some { s with
            shared_word_freq := sort_table s.shared_word_freq
            main_phase := MainPhase.reported (top_k (sort_table s.shared_word_freq)) } := by
      show main_step ws s = _
      unfold main_step
      rw [hmain]
      simp only
      rw [if_neg (by omega)]
    exact ⟨_, _, reaches_step ws _ _ _ hstep, rfl⟩
  | succ n ih =>
    intro s k hmain hk hall
    have hstep : program_step ws s Actor.main_thread
        = some { s with main_phase := MainPhase.joining (k + 1) } := by
      show main_step ws s = _
      unfold main_step
      rw [hmain]
      simp only
      rw [if_pos (by omega), if_pos (hall k (by omega))]
    obtain ⟨s1, r, hr, hrep⟩ := ih { s with main_phase := MainPhase.joining (k + 1) } (k + 1)
      rfl (by omega) hall
    exact ⟨s1, r, reaches_trans ws _ _ _ (reaches_step ws _ _ _ hstep) hr, hrep⟩

/-- For every token sequence some schedule runs the threaded program from the start
of `main` to its report: the hypothesis of `run_schedule_inv` is met by complete
runs for every input. -/
theorem complete_schedule_exists (ws : List Token) :
    ∃ schedule s r, run_schedule ws schedule = some s
      ∧ s.main_phase = MainPhase.reported r := by
  obtain ⟨s1, hr1, hmain1, hm1, hth1⟩ := main_creates ws NUM_THREADS (le_refl _)
  have hstep : program_step ws s1 Actor.main_thread
      = some { s1 with main_phase := MainPhase.joining 0 } := by
    show main_step ws s1 = _
    unfold main_step
    rw [hmain1]
    simp only
    rw [if_neg (lt_irrefl _)]
  obtain ⟨s2, hr2, hfin2, _, _, hmain2⟩ :=
    workers_run ws { s1 with main_phase := MainPhase.joining 0 } hm1 hth1 NUM_THREADS (le_refl _)
  obtain ⟨s3, r, hr3, hrep⟩ := main_joins ws NUM_THREADS s2 0 hmain2 (by omega) hfin2
  obtain ⟨schedule, hsched⟩ := reaches_trans ws _ _ _ hr1
    (reaches_trans ws _ _ _ (reaches_step ws _ _ _ hstep) (reaches_trans ws _ _ _ hr2 hr3))
  exact ⟨schedule, s3, r, hsched, hrep⟩

/-! ## Ties in the threaded ranking -/

theorem sort_table_stable (t : WordFreqArray) (c : Int) :
    with_count c (sort_table t).data = with_count c t.data := by
  rw [sort_table_data]
  exact sort_run_stable c t.data.length t.data (le_refl _)

theorem top_k_ties_prefix (t : WordFreqArray) (c : Int) :
    (with_count c (top_k (sort_table t))).IsPrefix (with_count c t.data) := by
  rw [← sort_table_stable t c, top_k_eq]
  exact (List.take_prefix _ _).filter _

theorem run_threads_entry_order (ws : List Token) (o : List Nat) (t : WordFreqArray)
    (ho : o.Perm (List.range NUM_THREADS)) (hr : run_threads ws o = some t) :
    words_of t.data = append_new [] (words_of (o.flatMap (local_table ws))) := by
  have h := run_workers_struct ws o (order_lt_of_perm ho) create_word_freq_array
  have e : some t = some (merge_pass create_word_freq_array (o.flatMap (local_table ws))) :=
    hr.symm.trans h
  injection e with e
  rw [e, merge_pass_data, words_of_find_or_append_all]
  rfl

/-- C7, as amended: for every token sequence and every two orders of the 8 merge
passes, both runs report a list; the two sorted tables are permutations of each
other; the two top-K lists hold the same counts in the same positions; every
reported entry carries the number of occurrences of its word; the two lists are the
same list whenever no two different tokens occur equally often; and among entries of
equal count the sorted table, and the reported list as far as it goes, keep the order
of the shared table, whose words stand in the order in which they were first
appended by the merge passes in the order of the run. -/
theorem threaded_ranking_counts (ws : List Token) (o1 o2 : List Nat)
    (h1 : o1.Perm (List.range NUM_THREADS)) (h2 : o2.Perm (List.range NUM_THREADS)) :
    ∃ t1 t2, run_threads ws o1 = some t1 ∧ run_threads ws o2 = some t2
      ∧ threaded_top_k ws o1 = some (top_k (sort_table t1))
      ∧ threaded_top_k ws o2 = some (top_k (sort_table t2))
      ∧ (sort_table t1).data.Perm (sort_table t2).data
      ∧ (top_k (sort_table t1)).map WordFreq.frequency
          = (top_k (sort_table t2)).map WordFreq.frequency
      ∧ (∀ e ∈ top_k (sort_table t1), e.frequency = (ws.count e.word : Int))
      ∧ ((∀ a ∈ ws, ∀ b ∈ ws, ws.count a = ws.count b → a = b) →
          top_k (sort_table t1) = top_k (sort_table t2))
      ∧ (∀ c, with_count c (sort_table t1).data = with_count c t1.data)
      ∧ (∀ c, with_count c (sort_table t2).data = with_count c t2.data)
      ∧ (∀ c, (with_count c (top_k (sort_table t1))).IsPrefix (with_count c t1.data))
      ∧ (∀ c, (with_count c (top_k (sort_table t2))).IsPrefix (with_count c t2.data))
      ∧ words_of t1.data = append_new [] (words_of (o1.flatMap (local_table ws)))
      ∧ words_of t2.data = append_new [] (words_of (o2.flatMap (local_table ws))) := by
  obtain ⟨t1, t2, r1, r2, k1, k2, hperm, hfreq, hcount, hsame⟩ :=
    ranking_counts_agree ws o1 o2 h1 h2
  exact ⟨t1, t2, r1, r2, k1, k2, hperm, hfreq, hcount, hsame,
    sort_table_stable t1, sort_table_stable t2, top_k_ties_prefix t1, top_k_ties_prefix t2,
    run_threads_entry_order ws o1 t1 h1 r1, run_threads_entry_order ws o2 t2 h2 r2⟩

theorem threaded_ranking_counts_witness :
    ([0, 1, 2, 3, 4, 5, 6, 7] : List Nat).Perm (List.range NUM_THREADS)
      ∧ ([1, 0, 2, 3, 4, 5, 6, 7] : List Nat).Perm (List.range NUM_THREADS)
      ∧ ∃ t1 t2, run_threads [['a'], ['b']] [0, 1, 2, 3, 4, 5, 6, 7] = some t1
        ∧ run_threads [['a'], ['b']] [1, 0, 2, 3, 4, 5, 6, 7] = some t2
        ∧ (top_k (sort_table t1)).map WordFreq.frequency
            = (top_k (sort_table t2)).map WordFreq.frequency
        ∧ words_of t1.data = [['a'], ['b']] ∧ words_of t2.data = [['b'], ['a']]
        ∧ with_count 1 (sort_table t1).data = with_count 1 t1.data
        ∧ with_count 1 (sort_table t2).data = with_count 1 t2.data := by
  refine ⟨by decide, by decide, ?_⟩
  obtain ⟨t1, t2, r1, r2, _, _, _, hf, _, _, s1, s2, _, _, w1, w2⟩ :=
    threaded_ranking_counts [['a'], ['b']] [0, 1, 2, 3, 4, 5, 6, 7] [1, 0, 2, 3, 4, 5, 6, 7]
      (by decide) (by decide)
  exact ⟨t1, t2, r1, r2, hf, w1.trans (by decide), w2.trans (by decide), s1 1, s2 1⟩

/-! ## Find-or-append with `int` counts -/

theorem wrap_int32_of_fits (x : Int) (h : fits_int32 x) : wrap_int32 x = x := by
  unfold fits_int32 at h
  unfold wrap_int32
  omega

theorem scan_add_int_eq_none {w : Token} {c : Int} {d : List WordFreq} :
    scan_add_int w c d = none ↔ w ∉ words_of d := by
  induction d with
  | nil => simp [scan_add_int, words_of]
  | cons e rest ih =>
    by_cases h : e.word = w
    · simp [scan_add_int, words_of, h]
    · have h2 : ¬ w = e.word := fun h3 => h h3.symm
      simp only [words_of] at ih
      simp [scan_add_int, words_of, h, h2, ih]

theorem scan_add_int_of_fits (w : Token) (c : Int) (d : List WordFreq)
    (h : ∀ x, stored_count w d = some x → fits_int32 (x + c)) :
    scan_add_int w c d = scan_add w c d := by
  induction d with
  | nil => rfl
  | cons e rest ih =>
    by_cases he : e.word = w
    · have hx : stored_count w (e :: rest) = some e.frequency := by
        simp [stored_count, List.find?_cons, he]
      simp [scan_add_int, scan_add, he, wrap_int32_of_fits _ (h _ hx)]
    · have hrest : ∀ x, stored_count w rest = some x → fits_int32 (x + c) := by
        intro x hx
        apply h x
        simpa [stored_count, List.find?_cons, he] using hx
      simp [scan_add_int, scan_add, he, ih hrest]

theorem merge_entry_int_of_fits (G : WordFreqArray) (e : WordFreq)
    (h : ∀ x, stored_count e.word G.data = some x → fits_int32 (x + e.frequency)) :
    merge_entry_int G e = merge_entry G e := by
  unfold merge_entry_int merge_entry
  rw [scan_add_int_of_fits _ _ _ h]

theorem transfer_entry_int_of_fits (g : SharedFreqData) (e : WordFreq)
    (h : ∀ x, stored_count e.word g.data = some x → fits_int32 (x + e.frequency)) :
    transfer_entry_int g e = transfer_entry g e := by
  unfold transfer_entry_int transfer_entry
  rw [scan_add_int_of_fits _ _ _ h]

theorem add_at_int_length (d : List WordFreq) (k : Nat) (c : Int) :
    (add_at_int d k c).length = d.length := by
  induction d generalizing k with
  | nil => rfl
  | cons e rest ih =>
    cases k with
    | zero => rfl
    | succ k => simp [add_at_int, ih]

theorem add_at_int_words (d : List WordFreq) (k : Nat) (c : Int) :
    words_of (add_at_int d k c) = words_of d := by
  induction d generalizing k with
  | nil => rfl
  | cons e rest ih =>
    cases k with
    | zero => rfl
    | succ k =>
      have := ih k
      simp only [words_of] at this
      simp [add_at_int, words_of, this]

theorem add_at_int_getElem_same (d : List WordFreq) (k : Nat) (c : Int) :
    (add_at_int d k c)[k]?
      = (d[k]?).map (fun x => { x with frequency := wrap_int32 (x.frequency + c) }) := by
  induction d generalizing k with
  | nil => simp [add_at_int]
  | cons e rest ih =>
    cases k with
    | zero => simp [add_at_int]
    | succ k => simp [add_at_int, ih]

theorem add_at_int_getElem_other (d : List WordFreq) (k j : Nat) (c : Int) (h : j ≠ k) :
    (add_at_int d k c)[j]? = d[j]? := by
  induction d generalizing k j with
  | nil => simp [add_at_int]
  | cons e rest ih =>
    cases k with
    | zero =>
      cases j with
      | zero => exact absurd rfl h
      | succ j => simp [add_at_int]
    | succ k =>
      cases j with
      | zero => simp [add_at_int]
      | succ j => simp [add_at_int, ih k j (by omega)]

theorem scan_add_int_at (w : Token) (c : Int) (d : List WordFreq) (k : Nat)
    (hd : (words_of d).Nodup) (hk : (d[k]?).map WordFreq.word = some w) :
    scan_add_int w c d = some (add_at_int d k c) := by
  induction d generalizing k with
  | nil => simp at hk
  | cons e rest ih =>
    have hcons : (e.word :: words_of rest).Nodup := hd
    rw [List.nodup_cons] at hcons
    cases k with
    | zero =>
      have he : e.word = w := by simpa using hk
      simp [scan_add_int, add_at_int, he]
    | succ k =>
      have hk2 : (rest[k]?).map WordFreq.word = some w := by simpa using hk
      have hmem : w ∈ words_of rest := by
        rw [Option.map_eq_some'] at hk2
        obtain ⟨x, hx, hw⟩ := hk2
        exact List.mem_map.mpr ⟨x, List.mem_iff_getElem?.mpr ⟨k, hx⟩, hw⟩
      have he : ¬ e.word = w := fun h => hcons.1 (h ▸ hmem)
      simp [scan_add_int, add_at_int, he, ih k hcons.2 hk2]

theorem add_at_int_of_fits (d : List WordFreq) (k : Nat) (c : Int)
    (h : ∀ x, d[k]? = some x → fits_int32 (x.frequency + c)) :
    add_at_int d k c = add_at d k c := by
  induction d generalizing k with
  | nil => rfl
  | cons e rest ih =>
    cases k with
    | zero =>
      have hx := h e (by simp)
      simp [add_at_int, add_at, wrap_int32_of_fits _ hx]
    | succ k =>
      have hrest : ∀ x, rest[k]? = some x → fits_int32 (x.frequency + c) := by
        intro x hx
        exact h x (by simpa using hx)
      simp [add_at_int, add_at, ih k hrest]

theorem merge_entry_int_miss (G : WordFreqArray) (e : WordFreq)
    (hnot : e.word ∉ words_of G.data) :
    (merge_entry_int G e).data = G.data ++ [{ word := e.word, frequency := e.frequency }] := by
  have hs : scan_add_int e.word e.frequency G.data = none := scan_add_int_eq_none.mpr hnot
  unfold merge_entry_int
  rw [hs]
  by_cases h : G.size ≥ G.capacity <;> simp [h, resize_word_freq_array]

theorem transfer_entry_int_full (g : SharedFreqData) (e : WordFreq)
    (hnot : e.word ∉ words_of g.data) (hfull : (INITIAL_CAPACITY : Int) ≤ g.size) :
    transfer_entry_int g e = g := by
  have hs : scan_add_int e.word e.frequency g.data = none := scan_add_int_eq_none.mpr hnot
  have hroom : ¬ g.size < (INITIAL_CAPACITY : Int) := by omega
  simp [transfer_entry_int, hs, hroom]

/-- C16, as amended: find-or-append of one incoming entry `(t, c)` into a table with
pairwise distinct words, the counts being `int` fields.  If `t` is stored at index
`k`, the thread merge loop and the process transfer loop give the table with only
the count at index `k` changed, to the `int` sum of that count and `c` (size,
capacity, every word and every other entry unchanged); the new count is the old
count plus `c` whenever that sum fits an `int`.  If `t` is not stored, the thread
merge loop appends `(t, c)` at the end and leaves every existing entry as it is; the
process transfer loop does so while `size < INITIAL_CAPACITY`, and at the ceiling it
leaves the region unchanged. -/
theorem find_or_append_frame (G : WordFreqArray) (e : WordFreq)
    (hG : (words_of G.data).Nodup) :
    (∀ k, (G.data[k]?).map WordFreq.word = some e.word →
        (merge_entry_int G e).data = add_at_int G.data k e.frequency
          ∧ (merge_entry_int G e).capacity = G.capacity
          ∧ (transfer_entry_int { data := G.data } e).data = add_at_int G.data k e.frequency
          ∧ (add_at_int G.data k e.frequency).length = G.data.length
          ∧ words_of (add_at_int G.data k e.frequency) = words_of G.data
          ∧ (add_at_int G.data k e.frequency)[k]?
              = (G.data[k]?).map
                  (fun x => { x with frequency := wrap_int32 (x.frequency + e.frequency) })
          ∧ (∀ j, j ≠ k → (add_at_int G.data k e.frequency)[j]? = G.data[j]?)
          ∧ ((∀ x, G.data[k]? = some x → fits_int32 (x.frequency + e.frequency)) →
              (add_at_int G.data k e.frequency)[k]?
                  = (G.data[k]?).map
                      (fun x => { x with frequency := x.frequency + e.frequency })
                ∧ add_at_int G.data k e.frequency = add_at G.data k e.frequency))
      ∧ (e.word ∉ words_of G.data →
          (merge_entry_int G e).data
              = G.data ++ [{ word := e.word, frequency := e.frequency }]
            ∧ ((G.data.length : Int) < INITIAL_CAPACITY →
                (transfer_entry_int { data := G.data } e).data
                  = G.data ++ [{ word := e.word, frequency := e.frequency }])
            ∧ ((INITIAL_CAPACITY : Int) ≤ G.data.length →
                transfer_entry_int { data := G.data } e = { data := G.data })) := by
  constructor
  · intro k hk
    have hs := scan_add_int_at e.word e.frequency G.data k hG hk
    refine ⟨?_, ?_, ?_, add_at_int_length _ _ _, add_at_int_words _ _ _,
      add_at_int_getElem_same _ _ _, fun j hj => add_at_int_getElem_other _ _ _ _ hj, ?_⟩
    · simp [merge_entry_int, hs]
    · simp [merge_entry_int, hs]
    · simp [transfer_entry_int, hs]
    · intro hfit
      have heq := add_at_int_of_fits G.data k e.frequency hfit
      refine ⟨?_, heq⟩
      rw [heq]
      exact add_at_getElem_same _ _ _
  · intro hnot
    have hs : scan_add_int e.word e.frequency G.data = none := scan_add_int_eq_none.mpr hnot
    refine ⟨merge_entry_int_miss G e hnot, ?_, ?_⟩
    · intro hroom
      have hroom2 : ({ data := G.data } : SharedFreqData).size < (INITIAL_CAPACITY : Int) :=
        hroom
      simp [transfer_entry_int, hs, hroom2]
    · intro hfull
      exact transfer_entry_int_full { data := G.data } e hnot hfull

theorem find_or_append_frame_witness :
    (words_of ([⟨['a'], 2⟩, ⟨['b'], 2147483647⟩] : List WordFreq)).Nodup
      ∧ (merge_entry_int ⟨[⟨['a'], 2⟩, ⟨['b'], 2147483647⟩], 2⟩ ⟨['a'], 4⟩).data
          = [⟨['a'], 6⟩, ⟨['b'], 2147483647⟩]
      ∧ (merge_entry_int ⟨[⟨['a'], 2⟩, ⟨['b'], 2147483647⟩], 2⟩ ⟨['b'], 1⟩).data
          = [⟨['a'], 2⟩, ⟨['b'], -2147483648⟩]
      ∧ (merge_entry_int ⟨[⟨['a'], 2⟩, ⟨['b'], 2147483647⟩], 2⟩ ⟨['c'], 4⟩).data
          = [⟨['a'], 2⟩, ⟨['b'], 2147483647⟩, ⟨['c'], 4⟩] :=
  ⟨by decide,
    ((find_or_append_frame ⟨[⟨['a'], 2⟩, ⟨['b'], 2147483647⟩], 2⟩ ⟨['a'], 4⟩ (by decide)).1 0
      (by decide)).1.trans (by decide),
    ((find_or_append_frame ⟨[⟨['a'], 2⟩, ⟨['b'], 2147483647⟩], 2⟩ ⟨['b'], 1⟩ (by decide)).1 1
      (by decide)).1.trans (by decide),
    ((find_or_append_frame ⟨[⟨['a'], 2⟩, ⟨['b'], 2147483647⟩], 2⟩ ⟨['c'], 4⟩ (by decide)).2
      (by decide)).1⟩

/-- C16 fails as stated for the transfer loop of the process variant: the region
`full_region` holds `INITIAL_CAPACITY` entries with pairwise distinct words, the word
of `extra_entry` is not stored, and the transfer (with exact or with `int` counts)
leaves the region as it is instead of appending the entry. -/
theorem append_dropped_at_ceiling :
    (words_of full_region.data).Nodup
      ∧ extra_entry.word ∉ words_of full_region.data
      ∧ transfer_entry full_region extra_entry = full_region
      ∧ (transfer_entry full_region extra_entry).data ≠ full_region.data ++ [extra_entry]
      ∧ transfer_entry_int full_region extra_entry = full_region
      ∧ (transfer_entry_int full_region extra_entry).data
          ≠ full_region.data ++ [extra_entry] :=
  ⟨full_region_nodup, extra_entry_not_stored,
    transfer_entry_full full_region extra_entry extra_entry_not_stored
      (by rw [full_region_size]; decide),
    fun h => ne_append_singleton full_region.data extra_entry
      ((congrArg SharedFreqData.data
        (transfer_entry_full full_region extra_entry extra_entry_not_stored
          (by rw [full_region_size]; decide))).symm.trans h),
    transfer_entry_int_full full_region extra_entry extra_entry_not_stored
      (by rw [full_region_size]; decide),
    fun h => ne_append_singleton full_region.data extra_entry
      ((congrArg SharedFreqData.data
        (transfer_entry_int_full full_region extra_entry extra_entry_not_stored
          (by rw [full_region_size]; decide))).symm.trans h)⟩

/-! ## Merging local tables with `int` counts -/

theorem stored_count_merge_entry_other (G : WordFreqArray) (e : WordFreq) (T : Token)
    (h : e.word ≠ T) : stored_count T (merge_entry G e).data = stored_count T G.data := by
  rw [stored_count_eq, stored_count_eq, merge_entry_data, entries_of_find_or_append]
  simp only [h, if_false]

theorem stored_count_of_mem (L : List WordFreq) (hL : (words_of L).Nodup) (e : WordFreq)
    (he : e ∈ L) : stored_count e.word L = some e.frequency := by
  induction L with
  | nil => cases he
  | cons x rest ih =>
    have hcons : (x.word :: words_of rest).Nodup := hL
    rw [List.nodup_cons] at hcons
    rcases List.mem_cons.mp he with h | h
    · subst h
      simp [stored_count, List.find?_cons]
    · have hne : ¬ x.word = e.word := by
        intro hx
        exact hcons.1 (hx ▸ List.mem_map.mpr ⟨e, h, rfl⟩)
      have := ih hcons.2 h
      simpa [stored_count, List.find?_cons, hne] using this

theorem stored_count_eq_none (T : Token) (d : List WordFreq) (h : T ∉ words_of d) :
    stored_count T d = none := by
  rw [stored_count_eq, entries_of_eq_nil.mpr h]
  rfl

theorem merge_pass_int_eq (L : List WordFreq) (hL : (words_of L).Nodup) :
    ∀ G : WordFreqArray,
      (∀ e ∈ L, ∀ x, stored_count e.word G.data = some x → fits_int32 (x + e.frequency)) →
      merge_pass_int G L = merge_pass G L := by
  induction L with
  | nil =>
    intro G _
    rfl
  | cons a rest ih =>
    intro G hfit
    have hcons : (a.word :: words_of rest).Nodup := hL
    rw [List.nodup_cons] at hcons
    have h1 : merge_entry_int G a = merge_entry G a :=
      merge_entry_int_of_fits G a (hfit a (by simp))
    have hstep : merge_pass_int G (a :: rest) = merge_pass_int (merge_entry_int G a) rest := rfl
    rw [hstep, h1, merge_pass_cons]
    apply ih hcons.2
    intro e he x hx
    have hne : a.word ≠ e.word := by
      intro h
      exact hcons.1 (h ▸ List.mem_map.mpr ⟨e, he, rfl⟩)
    rw [stored_count_merge_entry_other G a e.word hne] at hx
    exact hfit e (by simp [he]) x hx

theorem partial_sums_fit_init (P : List (List WordFreq)) (L : List WordFreq)
    (h : partial_sums_fit (P ++ [L])) : partial_sums_fit P := by
  intro k hk T hT
  have h1 := h k (by rw [List.length_append]; omega) T
    (by rw [List.flatMap_append]; exact List.mem_append_left _ hT)
  rw [List.take_append_of_le_length hk] at h1
  exact h1

theorem merge_fold_int_eq (capacity : Int) (tables : List (List WordFreq))
    (hdistinct : ∀ L ∈ tables, (words_of L).Nodup) (hfit : partial_sums_fit tables) :
    tables.foldl merge_pass_int { data := [], capacity := capacity }
      = tables.foldl merge_pass { data := [], capacity := capacity } := by
  induction tables using List.reverseRecOn with
  | nil => rfl
  | append_singleton P L ih =>
    have hP : ∀ M ∈ P, (words_of M).Nodup := fun M hM => hdistinct M (by simp [hM])
    have hL : (words_of L).Nodup := hdistinct L (by simp)
    rw [List.foldl_append, List.foldl_append, ih hP (partial_sums_fit_init P L hfit)]
    show merge_pass_int _ L = merge_pass _ L
    apply merge_pass_int_eq L hL
    intro e he x hx
    have hentries := merge_fold_counts_exact P capacity hP e.word
    rw [stored_count_eq, hentries] at hx
    have hTL : e.word ∈ words_of L := List.mem_map.mpr ⟨e, he, rfl⟩
    have hsum := hfit (P.length + 1) (by rw [List.length_append]; rfl) e.word
      (by
        rw [List.flatMap_append]
        exact List.mem_append_right _ (by simpa using hTL))
    have htake : (P ++ [L]).take (P.length + 1) = P ++ [L] := by
      apply List.take_of_length_le
      rw [List.length_append]
      rfl
    rw [htake, List.map_append, List.sum_append, List.map_singleton, List.sum_singleton,
      stored_count_of_mem L hL e he] at hsum
    by_cases hex : ∃ M ∈ P, e.word ∈ words_of M
    · simp only [hex, if_true, List.head?_cons, Option.map_some', Option.some.injEq] at hx
      rw [← hx]
      exact hsum
    · simp only [hex, if_false, List.head?_nil, Option.map_none'] at hx
      cases hx

theorem sum_cast_counts (g : Nat → Nat) (l : List Nat) :
    (l.map (fun i => ((g i : Nat) : Int))).sum = (((l.map g).sum : Nat) : Int) := by
  induction l with
  | nil => rfl
  | cons i l ih =>
    rw [List.map_cons, List.sum_cons, ih, List.map_cons, List.sum_cons]
    push_cast
    rfl

theorem stored_count_local_table (ws : List Token) (T : Token) (i : Nat) :
    (stored_count T (local_table ws i)).getD 0 = (((chunk ws i).count T : Nat) : Int) := by
  have hnd : (words_of (local_table ws i)).Nodup :=
    nodup_find_or_append_all _ [] List.nodup_nil
  rw [← sum_counts_of_nodup T _ hnd]
  unfold local_table
  exact sum_counts_of_counted T (chunk ws i)

theorem local_tables_sums_fit (ws : List Token) (order : List Nat)
    (ho : order.Perm (List.range NUM_THREADS)) (hn : (ws.length : Int) ≤ 2147483647) :
    partial_sums_fit (order.map (local_table ws)) := by
  intro k _ T _
  have h1 : ((order.map (local_table ws)).take k).map (fun L => (stored_count T L).getD 0)
      = (order.take k).map (fun i => (((chunk ws i).count T : Nat) : Int)) := by
    rw [← List.map_take, List.map_map]
    apply List.map_congr_left
    intro i _
    exact stored_count_local_table ws T i
  rw [h1, sum_cast_counts (fun i => (chunk ws i).count T)]
  have hle : ((order.take k).map (fun i => (chunk ws i).count T)).sum
      ≤ (order.map (fun i => (chunk ws i).count T)).sum := by
    conv_rhs => rw [← List.take_append_drop k order]
    rw [List.map_append, List.sum_append]
    exact Nat.le_add_right _ _
  have htot := count_chunks_perm T ws order ho
  have hcount : ws.count T ≤ ws.length := List.count_le_length T ws
  unfold fits_int32
  omega

/-- The hypothesis on the running sums cannot be dropped: merging the tables
`[a:2147483647]` and `[a:1]` leaves the `int` count `-2147483648` for `a`, and these
tables do not have running sums that fit. -/
theorem merge_sum_wraps :
    entries_of ['a']
        (([[⟨['a'], 2147483647⟩], [⟨['a'], 1⟩]] : List (List WordFreq)).foldl merge_pass_int
          { data := [], capacity := 4 }).data
        = [{ word := ['a'], frequency := -2147483648 }]
      ∧ ¬ partial_sums_fit [[⟨['a'], 2147483647⟩], [⟨['a'], 1⟩]] := by
  refine ⟨by decide, ?_⟩
  unfold partial_sums_fit fits_int32
  decide

/-- C5: folding local tables with pairwise distinct words into an empty global table
with the thread merge pass, the counts being `int` fields whose running sums per
token fit an `int`, leaves, for every token `T` stored in at least one local table,
exactly one global entry for `T`, whose count is the sum over the local tables of
the count stored for `T` (nothing for a table without `T`), and no entry for a token
stored in none of them; no addition wraps, so the table is the one that exact
addition gives.  The local tables of a run over at most 2147483647 tokens, taken in
any order of the workers, have such running sums. -/
theorem merge_fold_counts (tables : List (List WordFreq)) (capacity : Int)
    (hdistinct : ∀ L ∈ tables, (words_of L).Nodup) (hfit : partial_sums_fit tables)
    (T : Token) :
    entries_of T (tables.foldl merge_pass_int { data := [], capacity := capacity }).data
        = (if ∃ L ∈ tables, T ∈ words_of L
          then [{ word := T,
                  frequency := (tables.map (fun L => (stored_count T L).getD 0)).sum }]
          else [])
      ∧ tables.foldl merge_pass_int { data := [], capacity := capacity }
          = tables.foldl merge_pass { data := [], capacity := capacity }
      ∧ (∀ (ws : List Token) (order : List Nat), order.Perm (List.range NUM_THREADS) →
          (ws.length : Int) ≤ 2147483647 →
          partial_sums_fit (order.map (local_table ws))) := by
  have heq := merge_fold_int_eq capacity tables hdistinct hfit
  refine ⟨?_, heq, local_tables_sums_fit⟩
  rw [heq]
  exact merge_fold_counts_exact tables capacity hdistinct T

theorem merge_fold_counts_witness :
    (∀ L ∈ ([[⟨['a'], 2⟩, ⟨['b'], 1⟩], [⟨['b'], 4⟩], [⟨['c'], 1⟩, ⟨['a'], 3⟩]] :
        List (List WordFreq)), (words_of L).Nodup)
      ∧ partial_sums_fit [[⟨['a'], 2⟩, ⟨['b'], 1⟩], [⟨['b'], 4⟩], [⟨['c'], 1⟩, ⟨['a'], 3⟩]]
      ∧ entries_of ['a']
          (([[⟨['a'], 2⟩, ⟨['b'], 1⟩], [⟨['b'], 4⟩], [⟨['c'], 1⟩, ⟨['a'], 3⟩]] :
            List (List WordFreq)).foldl merge_pass_int { data := [], capacity := 4 }).data
        = [{ word := ['a'], frequency := 5 }] :=
  ⟨by decide, by unfold partial_sums_fit fits_int32; decide,
    (merge_fold_counts [[⟨['a'], 2⟩, ⟨['b'], 1⟩], [⟨['b'], 4⟩], [⟨['c'], 1⟩, ⟨['a'], 3⟩]] 4
      (by decide) (by unfold partial_sums_fit fits_int32; decide) ['a']).1.trans (by decide)⟩

/-! ## Two children at the ceiling of the shared region -/

theorem forks_to_refl (ws : List Token) (s : ForkState) : forks_to ws s s := ⟨[], rfl⟩

theorem forks_to_trans (ws : List Token) (s s1 s2 : ForkState)
    (h1 : forks_to ws s s1) (h2 : forks_to ws s1 s2) : forks_to ws s s2 := by
  obtain ⟨l1, e1⟩ := h1
  obtain ⟨l2, e2⟩ := h2
  refine ⟨l1 ++ l2, ?_⟩
  rw [List.foldlM_append, e1]
  exact e2

theorem forks_to_step (ws : List Token) (s s1 : ForkState) (a : Party)
    (h : party_step ws s a = some s1) : forks_to ws s s1 := by
  refine ⟨[a], ?_⟩
  rw [List.foldlM_cons, h]
  rfl

theorem slice_cons (ws : List Token) (a b : Nat) (ha : a < b) (hb : a < ws.length) :
    slice ws a b = ws[a] :: slice ws (a + 1) b := by
  unfold slice
  have e : b - a = (b - (a + 1)) + 1 := by omega
  rw [e, List.drop_eq_getElem_cons hb, List.take_succ_cons]

theorem child_counts (ws : List Token) (i : Nat)
    (hend : chunk_end NUM_PROCESSES ws.length i ≤ ws.length) (n : Nat) :
    ∀ (s : ForkState) (j : Nat) (loc : WordFreqArray),
      s.children i = ChildPhase.counting j loc →
      j + n = chunk_end NUM_PROCESSES ws.length i →
      ∃ s1, forks_to ws s s1
        ∧ s1.children i = ChildPhase.transferring 0
            ((slice ws j (chunk_end NUM_PROCESSES ws.length i)).foldl
              add_word_to_freq_array loc)
        ∧ (∀ k, k ≠ i → s1.children k = s.children k)
        ∧ s1.shared_data = s.shared_data ∧ s1.parent = s.parent := by
  induction n with
  | zero =>
    intro s j loc hp hn
    have e : j = chunk_end NUM_PROCESSES ws.length i := by omega
    subst e
    have hstep : party_step ws s (Party.child i)
        = some (set_child s i (ChildPhase.transferring 0 loc)) := by
      show child_step ws s i = _
      unfold child_step
      rw [hp]
      simp only
      rw [if_neg (lt_irrefl _)]
    refine ⟨_, forks_to_step ws _ _ _ hstep, ?_, ?_, rfl, rfl⟩
    · simp [set_child, slice]
    · intro k hk
      simp [set_child, hk]
  | succ n ih =>
    intro s j loc hp hn
    have hpos : j < chunk_end NUM_PROCESSES ws.length i := by omega
    have hlt : j < ws.length := by omega
    have hw : ws[j]? = some ws[j] := List.getElem?_eq_getElem hlt
    have hstep : party_step ws s (Party.child i)
        = some (set_child s i
            (ChildPhase.counting (j + 1) (add_word_to_freq_array loc ws[j]))) := by
      show child_step ws s i = _
      unfold child_step
      rw [hp]
      simp only
      rw [if_pos hpos, hw]
      rfl
    obtain ⟨s1, hr, h1, h2, h3, h4⟩ := ih
      (set_child s i (ChildPhase.counting (j + 1) (add_word_to_freq_array loc ws[j])))
      (j + 1) (add_word_to_freq_array loc ws[j]) (by simp [set_child]) (by omega)
    refine ⟨s1, forks_to_trans ws _ _ _ (forks_to_step ws _ _ _ hstep) hr, ?_, ?_, h3, h4⟩
    · rw [h1, slice_cons ws j _ hpos hlt]
      rfl
    · intro k hk
      rw [h2 k hk]
      simp [set_child, hk]

theorem child_transfers (ws : List Token) (i : Nat) (m : Nat) :
    ∀ (s : ForkState) (j : Nat) (loc : WordFreqArray),
      s.children i = ChildPhase.transferring j loc →
      j + m < loc.data.length →
      (words_of (s.shared_data.data ++ (loc.data.drop j).take (m + 1))).Nodup →
      s.shared_data.data.length + m < INITIAL_CAPACITY →
      ∃ s1, forks_to ws s s1
        ∧ s1.children i = ChildPhase.appending (j + m) loc
        ∧ (∀ k, k ≠ i → s1.children k = s.children k)
        ∧ s1.shared_data.data = s.shared_data.data ++ (loc.data.drop j).take m
        ∧ s1.parent = s.parent := by
  induction m with
  | zero =>
    intro s j loc hp hj hnd hsize
    have hlt : j < loc.data.length := by omega
    have he : loc.data[j]? = some loc.data[j] := List.getElem?_eq_getElem hlt
    have hdrop : (loc.data.drop j).take 1 = [loc.data[j]] := by
      rw [List.drop_eq_getElem_cons hlt]
      rfl
    have hnot : loc.data[j].word ∉ words_of s.shared_data.data := by
      rw [hdrop] at hnd
      unfold words_of at hnd ⊢
      rw [List.map_append, List.nodup_append] at hnd
      intro hmem
      exact hnd.2.2 hmem (by simp)
    have hscan : scan_add_int loc.data[j].word loc.data[j].frequency s.shared_data.data = none :=
      scan_add_int_eq_none.mpr hnot
    have hroom : s.shared_data.size < (INITIAL_CAPACITY : Int) := by
      unfold SharedFreqData.size
      omega
    have hstep : party_step ws s (Party.child i)
        = some (set_child s i (ChildPhase.appending j loc)) := by
      show child_step ws s i = _
      unfold child_step
      rw [hp]
      simp only
      rw [he]
      simp only
      rw [hscan]
      simp only
      rw [if_pos hroom]
    refine ⟨_, forks_to_step ws _ _ _ hstep, by simp [set_child], ?_, by simp [set_child], rfl⟩
    intro k hk
    simp [set_child, hk]
  | succ m ih =>
    intro s j loc hp hj hnd hsize
    have hlt : j < loc.data.length := by omega
    have he : loc.data[j]? = some loc.data[j] := List.getElem?_eq_getElem hlt
    have hdrop : ∀ q, (loc.data.drop j).take (q + 1)
        = loc.data[j] :: (loc.data.drop (j + 1)).take q := by
      intro q
      rw [List.drop_eq_getElem_cons hlt, List.take_succ_cons]
    have hnot : loc.data[j].word ∉ words_of s.shared_data.data := by
      rw [hdrop] at hnd
      unfold words_of at hnd ⊢
      rw [List.map_append, List.nodup_append] at hnd
      intro hmem
      exact hnd.2.2 hmem (by simp)
    have hscan : scan_add_int loc.data[j].word loc.data[j].frequency s.shared_data.data = none :=
      scan_add_int_eq_none.mpr hnot
    have hroom : s.shared_data.size < (INITIAL_CAPACITY : Int) := by
      unfold SharedFreqData.size
      omega
    have hstep1 : party_step ws s (Party.child i)
        = some (set_child s i (ChildPhase.appending j loc)) := by
      show child_step ws s i = _
      unfold child_step
      rw [hp]
      simp only
      rw [he]
      simp only
      rw [hscan]
      simp only
      rw [if_pos hroom]
    have hstep2 : party_step ws (set_child s i (ChildPhase.appending j loc)) (Party.child i)
        = some (set_child
            { set_child s i (ChildPhase.appending j loc) with
              shared_data := { data := s.shared_data.data ++ [loc.data[j]] } }
            i (ChildPhase.transferring (j + 1) loc)) := by
      show child_step ws _ i = _
      unfold child_step
      have hp2 : (set_child s i (ChildPhase.appending j loc)).children i
          = ChildPhase.appending j loc := by simp [set_child]
      rw [hp2]
      simp only
      rw [he]
      rfl
    obtain ⟨s1, hr, h1, h2, h3, h4⟩ := ih
      (set_child
        { set_child s i (ChildPhase.appending j loc) with
          shared_data := { data := s.shared_data.data ++ [loc.data[j]] } }
        i (ChildPhase.transferring (j + 1) loc))
      (j + 1) loc (by simp [set_child]) (by omega)
      (by
        show (words_of ((s.shared_data.data ++ [loc.data[j]])
          ++ (loc.data.drop (j + 1)).take (m + 1))).Nodup
        rw [List.append_assoc, List.singleton_append, ← hdrop]
        exact hnd)
      (by
        show (s.shared_data.data ++ [loc.data[j]]).length + m < INITIAL_CAPACITY
        rw [List.length_append, List.length_singleton]
        omega)
    refine ⟨s1, forks_to_trans ws _ _ _ (forks_to_step ws _ _ _ hstep1)
      (forks_to_trans ws _ _ _ (forks_to_step ws _ _ _ hstep2) hr), ?_, ?_, ?_, h4⟩
    · rw [h1]
      congr 1
      omega
    · intro k hk
      rw [h2 k hk]
      simp [set_child, hk]
    · rw [h3, hdrop]
      show (s.shared_data.data ++ [loc.data[j]]) ++ _ = _
      rw [List.append_assoc, List.singleton_append]

theorem counted_of_nodup (X : List Token) (h : X.Nodup) :
    find_or_append_all [] (unit_events X) = unit_events X := by
  induction X using List.reverseRecOn with
  | nil => rfl
  | append_singleton P w ih =>
    rw [List.nodup_append] at h
    have hw : w ∉ P := fun hm => h.2.2 hm (by simp)
    rw [counted_snoc, ih h.1]
    have hs : scan_add w 1 (unit_events P) = none :=
      scan_add_eq_none.mpr (by rw [words_of_unit_events]; exact hw)
    unfold find_or_append
    rw [hs]
    simp [unit_events]

theorem chunk_table_nodup (ws : List Token) (k : Nat) (hnd : ws.Nodup)
    (hshort : ∀ w ∈ ws, w.length ≤ MAX_WORD_LENGTH - 1) :
    ((chunk ws k).foldl add_word_to_freq_array init_word_freq_array).data
      = unit_events (chunk ws k) := by
  rw [child_fold_data_short (chunk ws k) init_word_freq_array
    (fun w hw => hshort w ((slice_sublist ws _ _).subset hw))]
  exact counted_of_nodup _ (hnd.sublist (slice_sublist ws _ _))

theorem chunk_length_eq (ws : List Token) (k : Nat) (hk : k < 8) :
    (chunk ws k).length = chunk_end 8 ws.length k - chunk_start 8 ws.length k := by
  have h1 := chunk_end_le_total ws.length k hk
  have h2 := chunk_start_le_end 8 ws.length k
  unfold chunk slice
  rw [List.length_take, List.length_drop]
  simp only [NUM_THREADS]
  omega

theorem chunk_start_large (k : Nat) : chunk_start 8 18000001 k = k * 2250000 + min k 1 := by
  unfold chunk_start
  by_cases h : k < 1
  · have h0 : k = 0 := by omega
    subst h0
    rfl
  · have e1 : (18000001 : Nat) / 8 = 2250000 := by norm_num
    have e2 : (18000001 : Nat) % 8 = 1 := by norm_num
    rw [e1, e2, if_neg h]
    omega

theorem chunk_end_large (k : Nat) : chunk_end 8 18000001 k = (k + 1) * 2250000 + 1 := by
  rw [chunk_end_eq_next, chunk_start_large]
  omega

theorem take_chunk_end (ws : List Token) (k : Nat) :
    ws.take (chunk_start 8 ws.length k) ++ chunk ws k = ws.take (chunk_end 8 ws.length k) :=
  take_append_slice ws (chunk_start_le_end 8 ws.length k)

theorem child_to_guard (ws : List Token) (hnd : ws.Nodup)
    (hshort : ∀ w ∈ ws, w.length ≤ MAX_WORD_LENGTH - 1) (hlen : ws.length = 18000001)
    (k : Nat) (hk : k < 8) (s : ForkState)
    (hp : s.children k
      = ChildPhase.counting (chunk_start NUM_PROCESSES ws.length k) init_word_freq_array)
    (hsub : (words_of s.shared_data.data).Sublist (ws.take (chunk_start 8 ws.length k)))
    (hsize : s.shared_data.data.length + k = chunk_start 8 ws.length k) :
    ∃ s1 j loc, forks_to ws s s1
      ∧ s1.children k = ChildPhase.appending j loc ∧ j < loc.data.length
      ∧ (∀ i, i ≠ k → s1.children i = s.children i)
      ∧ (words_of s1.shared_data.data).Sublist (ws.take (chunk_start 8 ws.length (k + 1)))
      ∧ s1.shared_data.data.length + (k + 1) = chunk_start 8 ws.length (k + 1)
      ∧ s1.parent = s.parent := by
  have hend : chunk_end NUM_PROCESSES ws.length k ≤ ws.length := chunk_end_le_total ws.length k hk
  have hle := chunk_start_le_end 8 ws.length k
  obtain ⟨s1, hr1, hp1, ho1, hsh1, hpar1⟩ := child_counts ws k hend
    (chunk_end NUM_PROCESSES ws.length k - chunk_start NUM_PROCESSES ws.length k) s
    (chunk_start NUM_PROCESSES ws.length k) init_word_freq_array hp
    (by simp only [NUM_PROCESSES]; omega)
  have hloc : ((slice ws (chunk_start NUM_PROCESSES ws.length k)
      (chunk_end NUM_PROCESSES ws.length k)).foldl add_word_to_freq_array
        init_word_freq_array).data = unit_events (chunk ws k) :=
    chunk_table_nodup ws k hnd hshort
  have hclen := chunk_length_eq ws k hk
  have hcs := chunk_start_large k
  have hce := chunk_end_large k
  rw [← hlen] at hcs hce
  have hcap : INITIAL_CAPACITY = 18000000 := rfl
  have hulen : (unit_events (chunk ws k)).length = (chunk ws k).length := by
    simp [unit_events]
  have hwords : words_of (s1.shared_data.data
      ++ ((unit_events (chunk ws k)).drop 0).take
          ((chunk ws k).length - 1 + 1)) = words_of s.shared_data.data ++ chunk ws k := by
    have e1 : (chunk ws k).length - 1 + 1 = (unit_events (chunk ws k)).length := by omega
    rw [hsh1, List.drop_zero, e1, List.take_length]
    unfold words_of
    rw [List.map_append]
    exact congrArg _ (words_of_unit_events (chunk ws k))
  obtain ⟨s2, hr2, hp2, ho2, hsh2, hpar2⟩ := child_transfers ws k ((chunk ws k).length - 1) s1 0
    _ hp1 (by rw [hloc, hulen]; omega)
    (by
      rw [hloc, hwords]
      refine List.Nodup.sublist ?_ (hnd.sublist (List.take_sublist (chunk_end 8 ws.length k) ws))
      rw [← take_chunk_end]
      exact hsub.append (List.Sublist.refl _))
    (by rw [hsh1]; omega)
  rw [hloc] at hsh2
  refine ⟨s2, _, _, forks_to_trans ws _ _ _ hr1 hr2, hp2, ?_, ?_, ?_, ?_, hpar2.trans hpar1⟩
  · rw [hloc, hulen]
    omega
  · intro i hi
    rw [ho2 i hi, ho1 i hi]
  · rw [hsh2, hsh1, List.drop_zero, ← chunk_end_eq_next, ← take_chunk_end]
    unfold words_of
    rw [List.map_append, List.map_take]
    refine hsub.append ?_
    have e := words_of_unit_events (chunk ws k)
    unfold words_of at e
    rw [e]
    exact List.take_sublist _ _
  · rw [hsh2, hsh1, List.drop_zero, List.length_append, List.length_take, hulen,
      ← chunk_end_eq_next]
    omega

theorem parent_forks (ws : List Token) (k : Nat) (hk : k ≤ NUM_PROCESSES) :
    ∃ s1, forks_to ws fork_start s1 ∧ s1.parent = ParentPhase.forking k
      ∧ s1.shared_data.data = []
      ∧ ∀ i, i < k → s1.children i
          = ChildPhase.counting (chunk_start NUM_PROCESSES ws.length i) init_word_freq_array := by
  induction k with
  | zero => exact ⟨fork_start, forks_to_refl ws _, rfl, rfl,
      fun i hi => absurd hi (Nat.not_lt_zero i)⟩
  | succ k ih =>
    obtain ⟨s1, hr1, hpar1, hsh1, hch1⟩ := ih (by omega)
    have hstep : party_step ws s1 Party.parent_process
        = some (set_child { s1 with parent := ParentPhase.forking (k + 1) } k
            (ChildPhase.counting (chunk_start NUM_PROCESSES ws.length k)
              init_word_freq_array)) := by
      show parent_step ws s1 = _
      unfold parent_step
      rw [hpar1]
      simp only
      rw [if_pos (by omega)]
    refine ⟨_, forks_to_trans ws _ _ _ hr1 (forks_to_step ws _ _ _ hstep), rfl, hsh1, ?_⟩
    intro i hi
    by_cases hik : i = k
    · subst hik
      simp [set_child]
    · simp only [set_child, hik, if_false]
      exact hch1 i (by omega)

theorem children_to_guard (ws : List Token) (hnd : ws.Nodup)
    (hshort : ∀ w ∈ ws, w.length ≤ MAX_WORD_LENGTH - 1) (hlen : ws.length = 18000001)
    (s : ForkState) (hsh : s.shared_data.data = [])
    (hch : ∀ i, i < 8 → s.children i
      = ChildPhase.counting (chunk_start NUM_PROCESSES ws.length i) init_word_freq_array)
    (k : Nat) (hk : k ≤ 8) :
    ∃ s1, forks_to ws s s1
      ∧ (∀ i, i < k → ∃ j loc, s1.children i = ChildPhase.appending j loc
          ∧ j < loc.data.length)
      ∧ (∀ i, k ≤ i → s1.children i = s.children i)
      ∧ (words_of s1.shared_data.data).Sublist (ws.take (chunk_start 8 ws.length k))
      ∧ s1.shared_data.data.length + k = chunk_start 8 ws.length k := by
  induction k with
  | zero =>
    refine ⟨s, forks_to_refl ws s, fun i hi => absurd hi (Nat.not_lt_zero i),
      fun _ _ => rfl, ?_, ?_⟩
    · rw [hsh]
      exact List.nil_sublist _
    · rw [hsh, chunk_start_zero]
      rfl
  | succ k ih =>
    obtain ⟨s1, hr1, hdone1, hrest1, hsub1, hsize1⟩ := ih (by omega)
    have hp : s1.children k
        = ChildPhase.counting (chunk_start NUM_PROCESSES ws.length k) init_word_freq_array := by
      rw [hrest1 k (le_refl k)]
      exact hch k (by omega)
    obtain ⟨s2, j, loc, hr2, hp2, hj2, ho2, hsub2, hsize2, _⟩ :=
      child_to_guard ws hnd hshort hlen k (by omega) s1 hp hsub1 hsize1
    refine ⟨s2, forks_to_trans ws _ _ _ hr1 hr2, ?_, ?_, hsub2, hsize2⟩
    · intro i hi
      by_cases hik : i = k
      · subst hik
        exact ⟨j, loc, hp2, hj2⟩
      · rw [ho2 i hik]
        exact hdone1 i (by omega)
    · intro i hi
      rw [ho2 i (by omega)]
      exact hrest1 i (by omega)

theorem child_appends (ws : List Token) (s : ForkState) (i j : Nat) (loc : WordFreqArray)
    (hp : s.children i = ChildPhase.appending j loc) (hj : j < loc.data.length) :
    ∃ s1, child_step ws s i = some s1
      ∧ s1.shared_data.data.length = s.shared_data.data.length + 1
      ∧ (∀ k, k ≠ i → s1.children k = s.children k) := by
  have he : loc.data[j]? = some loc.data[j] := List.getElem?_eq_getElem hj
  refine ⟨set_child { s with shared_data :=
      { data := s.shared_data.data
          ++ [{ word := loc.data[j].word, frequency := loc.data[j].frequency }] } }
      i (ChildPhase.transferring (j + 1) loc), ?_, ?_, ?_⟩
  · unfold child_step
    rw [hp]
    simp only
    rw [he]
    rfl
  · show (s.shared_data.data ++ [_]).length = _
    rw [List.length_append, List.length_singleton]
  · intro k hk
    simp [set_child, hk]

theorem children_append (ws : List Token) (s : ForkState)
    (hch : ∀ i, i < 8 → ∃ j loc, s.children i = ChildPhase.appending j loc
      ∧ j < loc.data.length) (k : Nat) (hk : k ≤ 8) :
    ∃ s1, forks_to ws s s1
      ∧ s1.shared_data.data.length = s.shared_data.data.length + k
      ∧ (∀ i, k ≤ i → s1.children i = s.children i) := by
  induction k with
  | zero => exact ⟨s, forks_to_refl ws s, rfl, fun _ _ => rfl⟩
  | succ k ih =>
    obtain ⟨s1, hr1, hlen1, hrest1⟩ := ih (by omega)
    obtain ⟨j, loc, hp, hj⟩ := hch k (by omega)
    have hp1 : s1.children k = ChildPhase.appending j loc := by
      rw [hrest1 k (le_refl k)]
      exact hp
    obtain ⟨s2, hstep, hlen2, ho2⟩ := child_appends ws s1 k j loc hp1 hj
    refine ⟨s2, forks_to_trans ws _ _ _ hr1
      (forks_to_step ws s1 s2 (Party.child k) hstep), ?_, ?_⟩
    · rw [hlen2, hlen1]
      omega
    · intro i hi
      rw [ho2 i (by omega)]
      exact hrest1 i (by omega)

theorem race_past_ceiling (ws : List Token) (hnd : ws.Nodup)
    (hshort : ∀ w ∈ ws, w.length ≤ MAX_WORD_LENGTH - 1) (hlen : ws.length = 18000001) :
    ∃ schedule s0 s1, run_parties ws schedule = some s0
      ∧ s0.shared_data.size = (INITIAL_CAPACITY : Int)
      ∧ child_step ws s0 7 = some s1
      ∧ s1.shared_data.size = (INITIAL_CAPACITY : Int) + 1 := by
  obtain ⟨sa, hra, _, hsha, hcha⟩ := parent_forks ws NUM_PROCESSES (le_refl _)
  obtain ⟨sb, hrb, hchb, _, _, hsizeb⟩ :=
    children_to_guard ws hnd hshort hlen sa hsha hcha 8 (le_refl _)
  obtain ⟨sc, hrc, hlenc, hrestc⟩ := children_append ws sb hchb 7 (by omega)
  obtain ⟨j, loc, hp, hj⟩ := hchb 7 (by omega)
  have hp7 : sc.children 7 = ChildPhase.appending j loc := by
    rw [hrestc 7 (le_refl 7)]
    exact hp
  obtain ⟨sd, hstep, hlend, _⟩ := child_appends ws sc 7 j loc hp7 hj
  obtain ⟨schedule, hsched⟩ := forks_to_trans ws _ _ _ hra (forks_to_trans ws _ _ _ hrb hrc)
  have h8 := chunk_start_large 8
  rw [← hlen] at h8
  have hcap : INITIAL_CAPACITY = 18000000 := rfl
  refine ⟨schedule, sc, sd, hsched, ?_, hstep, ?_⟩
  · unfold SharedFreqData.size
    rw [hlenc]
    omega
  · unfold SharedFreqData.size
    rw [hlend, hlenc]
    omega

theorem many_distinct_tokens_distinct : many_distinct_tokens.Nodup := by
  unfold many_distinct_tokens
  refine List.Nodup.map_on ?_ (List.nodup_range _)
  intro i hi j hj h
  rw [List.mem_range] at hi hj
  exact numeral_token_inj 25 i j (by norm_num; omega) (by norm_num; omega) h

theorem many_distinct_tokens_short :
    ∀ w ∈ many_distinct_tokens, w.length ≤ MAX_WORD_LENGTH - 1 := by
  intro w hw
  unfold many_distinct_tokens at hw
  obtain ⟨i, _, rfl⟩ := List.mem_map.mp hw
  rw [numeral_token_length]
  decide

/-- The same race on two tokens: for the sequence `a a` both children find the region
empty when they scan it for `a`, and both append, so the region holds `a` twice. -/
theorem racing_children_duplicate :
    (run_parties [['a'], ['a']] example_race_schedule).map ForkState.shared_data
      = some { data := [⟨['a'], 1⟩, ⟨['a'], 1⟩] } := by
  decide

/-- C17, the code at a failing input: on the 18000001 pairwise distinct tokens of
`many_distinct_tokens` some schedule of the parent and the 8 children reaches a
state in which the region holds `INITIAL_CAPACITY` entries while child 7 has already
passed the test `!found && shared_data->size < INITIAL_CAPACITY` (taken while the
region still had room); the next step of child 7 is the body of that `if`, which
appends the entry and leaves `size` at `INITIAL_CAPACITY + 1`, above the ceiling. -/
theorem racing_children_pass_ceiling :
    ∃ schedule s0 s1, run_parties many_distinct_tokens schedule = some s0
      ∧ s0.shared_data.size = (INITIAL_CAPACITY : Int)
      ∧ child_step many_distinct_tokens s0 7 = some s1
      ∧ s1.shared_data.size = (INITIAL_CAPACITY : Int) + 1
      ∧ (INITIAL_CAPACITY : Int) < s1.shared_data.size := by
  obtain ⟨schedule, s0, s1, hrun, h0, hstep, h1⟩ :=
    race_past_ceiling many_distinct_tokens many_distinct_tokens_distinct
      many_distinct_tokens_short many_distinct_tokens_length
  exact ⟨schedule, s0, s1, hrun, h0, hstep, h1, by rw [h1]; omega⟩

/-- A schedule in which the children run one after another: on the tokens `a b a` the
step model reports the list that `process_top_k` gives for the order 0..7. -/
theorem run_parties_in_turn : (run_parties [['a'], ['b'], ['a']]
    ([Party.parent_process, Party.parent_process, Party.parent_process, Party.parent_process,
      Party.parent_process, Party.parent_process, Party.parent_process, Party.parent_process,
      Party.parent_process,
      Party.child 0, Party.child 0, Party.child 0, Party.child 0, Party.child 0,
      Party.child 1, Party.child 1, Party.child 1, Party.child 1, Party.child 1,
      Party.child 2, Party.child 2, Party.child 2, Party.child 2,
      Party.child 3, Party.child 3, Party.child 4, Party.child 4, Party.child 5, Party.child 5,
      Party.child 6, Party.child 6, Party.child 7, Party.child 7,
      Party.parent_process, Party.parent_process, Party.parent_process, Party.parent_process,
      Party.parent_process, Party.parent_process, Party.parent_process, Party.parent_process,
      Party.parent_process])).map ForkState.parent
    = some (ParentPhase.reported [⟨['a'], 2⟩, ⟨['b'], 1⟩])
    ∧ process_top_k [['a'], ['b'], ['a']] [0,1,2,3,4,5,6,7] = some [⟨['a'], 2⟩, ⟨['b'], 1⟩] := by decide

end WordFreqCount
